import Mathlib

/-!
# Bitstream autocorrelation (`bacf`) and the pitch follower

A shallow embedding of `q/pitch_detector.hpp` (the bitstream autocorrelation
engine `bacf` and the free function `auto_correlate`) and of
`q/pitch/pitch_follower.hpp` (the per-sample orchestration of
`pitch_follower::operator()`), followed by theorems about them.

Conventions of the embedding:

* `T = std::uint32_t`: a storage word is a `Nat` below `2 ^ 32`; a left shift
  is reduced `% 2 ^ 32`.
* `std::size_t` is 64 bits wide; the two places where the source subtracts
  `std::size_t` values are reduced `% 2 ^ 64`.
* `std::uint16_t` (the correlogram entry type) is a `Nat` reduced `% 2 ^ 16`
  at the conversion from `int`.
* `int` is 32 bits wide. The counter `i` and the sum `count` of the inner loops
  of `auto_correlate` are `int`s; an `int` that would exceed `int_max` is
  undefined behaviour.
* Reading or writing outside an array and the overflow of an `int` are
  undefined behaviour; the embedding returns `none` there.
* `frequency` wraps a `double`; a finite `double` is embedded as the exact
  rational it denotes (`is_double`), and `sps / double(freq)` is `double_div`,
  the exact quotient rounded to binary64 (to nearest, ties to even).
-/

namespace cycfi

/-! ## Storage words and the bit buffer -/

/-- Width in bits of the storage word, `bitstream<T>::value_size` for
`T = std::uint32_t`. -/
def value_size : Nat := 32

/-- Number of values of `std::size_t`. -/
def size_t_range : Nat := 2 ^ 64

/-- Number of values of `std::uint16_t`. -/
def uint16_range : Nat := 2 ^ 16

/-- The largest value of `int`. -/
def int_max : Nat := 2 ^ 31 - 1

/-- Modelled from the spec: `detail::count_bits` (q/detail/count_bits.hpp is
not part of the sources), the population count of one storage word. -/
def count_bits (x : Nat) : Nat :=
  (List.range value_size).countP (fun k => x.testBit k)

/-- Modelled from the spec: `bitstream<T>` (q/bitstream.hpp is not part of the
sources): a fixed capacity of `num_bits` single-bit values, packed into storage
words, least significant bit first. `words` is what `data()` points to. -/
structure bitstream where
  num_bits : Nat
  words : List Nat
deriving DecidableEq

/-- Modelled from the spec: the constructor `bitstream(num_bits)`; every bit
is clear and enough whole words are allocated to hold `num_bits` bits. -/
def bitstream.init (num_bits : Nat) : bitstream :=
  { num_bits := num_bits
    words := List.replicate ((num_bits + value_size - 1) / value_size) 0 }

/-- Modelled from the spec: `size()`, the capacity in bits. -/
def bitstream.size (b : bitstream) : Nat := b.num_bits

/-- Modelled from the spec: a read through the pointer `data() + i` into the
packed storage words; `none` outside the allocation. -/
def bitstream.data (b : bitstream) (i : Nat) : Option Nat := b.words[i]?

/-- Modelled from the spec: `set(i, val)`, which stores one bit at position
`i`. -/
def bitstream.set (b : bitstream) (i : Nat) (val : Bool) : bitstream :=
  let w := b.words.getD (i / value_size) 0
  let mask := 2 ^ (i % value_size)
  { b with words :=
      b.words.set (i / value_size) (if val then w ||| mask else w ^^^ (w &&& mask)) }

/-- The bit stored at position `i`. -/
def bitstream.get (b : bitstream) (i : Nat) : Bool :=
  (b.words.getD (i / value_size) 0).testBit (i % value_size)

/-! ## `auto_correlate` -/

/-- The inner loop of `auto_correlate` on the `shift == 0` path: `n` iterations
remain, `i` is the loop counter, `p1` and `p2` are the word offsets of the two
read pointers. `count += ...` and `++i` are `int` operations. -/
def correlate_aligned (bits : bitstream) : Nat → Nat → Nat → Nat → Nat → Option Nat
  | 0, _, _, _, count => some count
  | n + 1, i, p1, p2, count =>
    match bits.data p1, bits.data p2 with
    | some a, some b =>
      if count + count_bits (a ^^^ b) ≤ int_max ∧ i + 1 ≤ int_max then
        correlate_aligned bits n (i + 1) (p1 + 1) (p2 + 1) (count + count_bits (a ^^^ b))
      else none
    | _, _ => none

/-- The inner loop of `auto_correlate` on the `shift != 0` path: each iteration
reads the word at `p2`, advances `p2`, reads the next word, and combines the
two into `v`. `count += ...` and `++i` are `int` operations. -/
def correlate_shifted (bits : bitstream) (shift : Nat) :
    Nat → Nat → Nat → Nat → Nat → Option Nat
  | 0, _, _, _, count => some count
  | n + 1, i, p1, p2, count =>
    match bits.data p2, bits.data (p2 + 1), bits.data p1 with
    | some w, some w', some a =>
      let shift2 := value_size - shift
      let v := (w >>> shift) ||| ((w' <<< shift2) % 2 ^ value_size)
      if count + count_bits (a ^^^ v) ≤ int_max ∧ i + 1 ≤ int_max then
        correlate_shifted bits shift n (i + 1) (p1 + 1) (p2 + 1) (count + count_bits (a ^^^ v))
      else none
    | _, _, _ => none

/-- The outer loop of `auto_correlate`: `n` iterations remain before
`pos == mid_pos`; `index` and `shift` are the incrementally maintained word
offset and bit offset of `pos`. -/
def sweep {σ : Type} (bits : bitstream) (mid_array : Nat)
    (f : Nat → Nat → σ → Option σ) : Nat → Nat → Nat → Nat → σ → Option σ
  | 0, _, _, _, st => some st
  | n + 1, pos, index, shift, st =>
    let r :=
      if shift = 0 then correlate_aligned bits mid_array 0 0 index 0
      else correlate_shifted bits shift mid_array 0 0 index 0
    match r with
    | none => none
    | some count =>
      let shift1 := shift + 1
      let next := if shift1 = value_size then (0, index + 1) else (shift1, index)
      match f pos count st with
      | none => none
      | some st1 => sweep bits mid_array f n ((pos + 1) % size_t_range) next.2 next.1 st1

/-- The function `auto_correlate(bits, start_pos, f)`. The callback `f`
receives the lag and the count and threads a state; `mid_array` and the
iteration count of the outer loop are `std::size_t` differences. -/
def auto_correlate {σ : Type} (bits : bitstream) (start_pos : Nat)
    (f : Nat → Nat → σ → Option σ) (st : σ) : Option σ :=
  let size := bits.size
  let array_size := size / value_size
  let mid_pos := size / 2
  let mid_array := (array_size / 2 + size_t_range - 1) % size_t_range
  let index := start_pos / value_size
  let shift := start_pos % value_size
  sweep bits mid_array f ((mid_pos + size_t_range - start_pos) % size_t_range)
    start_pos index shift st

/-- A callback that records every `(pos, count)` pair it is handed, in call
order. -/
def record (pos count : Nat) (log : List (Nat × Nat)) : Option (List (Nat × Nat)) :=
  some (log ++ [(pos, count)])

/-- The Hamming distance between the window and itself shifted by `lag`, over
the first `len` positions: the number of `j < len` with `bit j ≠ bit (j + lag)`. -/
def hamming (bits : bitstream) (len lag : Nat) : Nat :=
  (List.range len).countP (fun j => bits.get j != bits.get (j + lag))

/-! ## The autocorrelation engine `bacf` -/

/-- The record `bacf::info`: the correlogram and the estimate. -/
structure info where
  correlation : List Nat
  max_count : Nat
  min_count : Nat
  estimated_index : Nat
deriving DecidableEq

/-- The data members of `bacf<std::uint32_t>`. -/
structure bacf where
  _bits : bitstream
  _size : Nat
  _count : Nat
  _offset : Nat
  _min_period : Nat
  _info : info
deriving DecidableEq

/-! ## `double` arithmetic -/

/-- Rounding of an exact value to the nearest integer, a tie going to the even
one. -/
def round_even (x : ℚ) : ℤ :=
  if x - ⌊x⌋ < 1 / 2 then ⌊x⌋
  else if 1 / 2 < x - ⌊x⌋ then ⌊x⌋ + 1
  else if ⌊x⌋ % 2 = 0 then ⌊x⌋ else ⌊x⌋ + 1

/-- The exponent of the unit in the last place of the binary64 values around
`x`: 52 below the exponent of `x`, and `-1074` for the subnormal values. -/
def ulp_exp (x : ℚ) : ℤ := max (Int.log 2 |x|) (-1022) - 52

/-- IEEE 754 binary64 rounding of an exact value, to nearest and ties to even
(overflow to infinity aside). -/
def double_round (x : ℚ) : ℚ := round_even (x / 2 ^ ulp_exp x) * 2 ^ ulp_exp x

/-- The rational `x` is the value of a finite `double`. -/
def is_double (x : ℚ) : Prop := double_round x = x ∧ |x| < 2 ^ 1024

instance (x : ℚ) : Decidable (is_double x) := by
  unfold is_double
  infer_instance

/-- The expression `sps / double(freq)`: the `std::uint32_t` is converted to
`double` exactly and the quotient is rounded. -/
def double_div (sps : Nat) (freq : ℚ) : ℚ := double_round ((sps : ℚ) / freq)

/-- The loop of `smallest_pow2`: double `m` while it is below `n`. The first
argument bounds the number of doublings; `n` of them always suffice. -/
def smallest_pow2_from (n : Nat) : Nat → Nat → Nat
  | 0, m => m
  | fuel + 1, m => if m < n then smallest_pow2_from n fuel (m <<< 1) else m

/-- Modelled from the spec: `smallest_pow2` (its header is not part of the
sources), the smallest power of two that is at least `n`. -/
def smallest_pow2 (n : Nat) : Nat := smallest_pow2_from n n 1

/-- The static member `bacf::buff_size(freq, sps)`. `period` is a `double`;
`std::ceil` followed by the conversion to `std::size_t` is the ceiling as a
natural number (the conversion is defined below `2 ^ 64`), and the product by 2
is a `std::size_t` product. -/
def bacf.buff_size (freq : ℚ) (sps : Nat) : Nat :=
  let period := double_div sps freq
  (smallest_pow2 ⌈period⌉₊ * 2) % size_t_range

/-- The constructor `bacf(lowest_freq, highest_freq, sps)`. `_min_period` is
`std::floor` of the `double` quotient, converted to `std::size_t`. The members
`max_count`, `min_count` and `estimated_index` of `_info` are left
uninitialised by the source; their indeterminate values are the last three
arguments. -/
def bacf.init (lowest_freq highest_freq : ℚ) (sps : Nat)
    (max_count0 min_count0 estimated_index0 : Nat) : bacf :=
  let bits := bitstream.init (bacf.buff_size lowest_freq sps)
  let size := bits.size
  { _bits := bits
    _size := size
    _count := 0
    _offset := 0
    _min_period := ⌊double_div sps highest_freq⌋₊
    _info :=
      { correlation := List.replicate (size / 2) 0
        max_count := max_count0
        min_count := min_count0
        estimated_index := estimated_index0 } }

/-- The member `size()`. -/
def bacf.size (b : bacf) : Nat := b._bits.size

/-- The member `is_start()`. -/
def bacf.is_start (b : bacf) : Bool := b._count == 0

/-- The member `result()`. -/
def bacf.result (b : bacf) : info := b._info

/-- The lambda handed to `auto_correlate` by `operator()`: its parameter
`count` has type `std::uint16_t`, so the `int` argument is converted on entry. -/
def bacf.on_lag (pos count : Nat) (i : info) : Option info :=
  let count := count % uint16_range
  if pos < i.correlation.length then
    let i1 : info :=
      { i with correlation := i.correlation.set pos count
               max_count := max i.max_count count }
    if count < i1.min_count then
      some { i1 with min_count := count, estimated_index := pos }
    else some i1
  else none

/-- The member `operator()(bool s)`, called `push` in the specification:
the new state and the returned flag, or `none` when the call runs into
undefined behaviour. -/
def bacf.push (b : bacf) (s : Bool) : Option (bacf × Bool) :=
  if b._count = 0 ∧ s = true then some (b, false)
  else
    let info1 : info :=
      if s = true ∧ b._count ≠ b._size then { b._info with max_count := 123 } else b._info
    let bits := b._bits.set b._count s
    let count := b._count + 1
    if count = b._size then
      let info2 : info :=
        { info1 with max_count := 0, min_count := uint16_range - 1, estimated_index := 0 }
      match auto_correlate bits b._min_period bacf.on_lag info2 with
      | none => none
      | some info3 =>
        some ({ b with _bits := bits, _info := info3, _count := 0, _offset := 0 }, true)
    else some ({ b with _bits := bits, _info := info1, _count := count }, false)

/-- A run of `push` calls: the final state and the flags returned, in call
order. -/
def bacf.pushes (b : bacf) : List Bool → Option (bacf × List Bool)
  | [] => some (b, [])
  | s :: rest =>
    match b.push s with
    | none => none
    | some (b1, r) =>
      match bacf.pushes b1 rest with
      | none => none
      | some (b2, rs) => some (b2, r :: rs)

/-! ## Auxiliary notions used by the statements -/

/-- Every storage word of the buffer fits in 32 bits. -/
def bitstream.bounded (b : bitstream) : Prop := ∀ w ∈ b.words, w < 2 ^ value_size

/-- Hamming count over the positions `[s, s + len)` at lag `lag`. -/
def hamming_from (bits : bitstream) (s len lag : Nat) : Nat :=
  (List.range' s len).countP (fun j => bits.get j != bits.get (j + lag))

/-- The number of positions compared by one lag of the sweep: `mid_array`
whole words. -/
def compared (size : Nat) : Nat := value_size * (size / value_size / 2 - 1)

/-- The sweep as the specification describes it: the callback is handed, for
each lag in turn, the Hamming distance over the compared overlap. -/
def lag_fold {σ : Type} (bits : bitstream) (len : Nat) (f : Nat → Nat → σ → Option σ)
    (lags : List Nat) (st : σ) : Option σ :=
  lags.foldlM (fun st L => f L (hamming bits len L) st) st

/-- The callback of `bacf::operator()` folded over a list of lags, the count of
lag `L` being `c L`. -/
def fold_on_lag (c : Nat → Nat) (lags : List Nat) (i : info) : Option info :=
  lags.foldlM (fun st L => bacf.on_lag L (c L) st) i

/-- What a sweep over the lags `[s, s + n)` makes of the record `i`, when the
entry stored for lag `L` is `g L`: the entries of the visited lags are
written, the others are kept, `max_count` is the running maximum, and
`min_count` with `estimated_index` is the running minimum with the first lag
that attains it. -/
def swept (g : Nat → Nat) (s n : Nat) (i i' : info) : Prop :=
  i'.correlation.length = i.correlation.length ∧
  (∀ L, s ≤ L → L < s + n → i'.correlation[L]? = some (g L)) ∧
  (∀ L, (L < s ∨ s + n ≤ L) → i'.correlation[L]? = i.correlation[L]?) ∧
  i.max_count ≤ i'.max_count ∧
  (∀ L, s ≤ L → L < s + n → g L ≤ i'.max_count) ∧
  (i'.max_count = i.max_count ∨ ∃ L, s ≤ L ∧ L < s + n ∧ i'.max_count = g L) ∧
  (∀ L, s ≤ L → L < s + n → i'.min_count ≤ g L) ∧
  ((i'.min_count = i.min_count ∧ i'.estimated_index = i.estimated_index) ∨
    (s ≤ i'.estimated_index ∧ i'.estimated_index < s + n ∧
      g i'.estimated_index = i'.min_count ∧ i'.min_count < i.min_count ∧
      ∀ L, s ≤ L → L < i'.estimated_index → i'.min_count < g L))

/-- The invariants of a constructed engine: `_size` caches the capacity, which
is a `std::size_t`, a power of two and at least 2, the storage words fit 32
bits and cover the capacity, the correlogram has `_size / 2` entries, and the
fill counter is below the capacity. -/
def bacf.wf (b : bacf) : Prop :=
  b._size = b._bits.size ∧ b._size < size_t_range ∧ 2 ≤ b._size ∧
  b._bits.bounded ∧ (b._size + value_size - 1) / value_size = b._bits.words.length ∧
  b._info.correlation.length = b._size / 2 ∧ b._count < b._size ∧
  ∃ k, b._size = 2 ^ k

/-- The bit pattern `w` has period `p` on the positions `[0, n)`. -/
def periodic (w : Nat → Bool) (n p : Nat) : Prop :=
  ∀ j < n, j + p < n → w j = w (j + p)

instance (w : Nat → Bool) (n p : Nat) : Decidable (periodic w n p) := by
  unfold periodic
  infer_instance

/-- A window of 96 bits (three storage words) in which only bit 1 is set. -/
def window96 : bitstream := { num_bits := 96, words := [2, 0, 0] }

/-- A window of 128 bits (four storage words). -/
def window128 : bitstream :=
  { num_bits := 128, words := [0xF0F0F0F0, 0x0F0F0F0F, 0x12345678, 0x9ABCDEF0] }

/-- An engine of capacity 128 with `_min_period = 8` at the start of a window,
as `bacf(1 Hz, 8 Hz, 64)` constructs it. -/
def engine128 : bacf :=
  { _bits := bitstream.init 128
    _size := 128
    _count := 0
    _offset := 0
    _min_period := 8
    _info := { correlation := List.replicate 64 0, max_count := 0, min_count := 0
               estimated_index := 0 } }

/-- The engine `engine128` one bit short of a full window, holding
`window128` except for its last bit. -/
def engine128_last : bacf :=
  { engine128 with
    _bits := { num_bits := 128, words := [0xF0F0F0F0, 0x0F0F0F0F, 0x12345678, 0x1ABCDEF0] }
    _count := 127 }

/-- The engine `engine128_last` after the call that stores the last bit. -/
def engine128_done : bacf :=
  match engine128_last.push true with
  | some (b, _) => b
  | none => engine128_last

/-- A window of 128 bits with period 60: bit `j` is set when `j % 60 = 59`. -/
def bits_period60 : List Bool := (List.range 128).map (fun j => decide (j % 60 = 59))

/-- The engine `engine128` after the 128 pushes of `bits_period60`. -/
def engine128_period60 : bacf :=
  match engine128.pushes bits_period60 with
  | some (b, _) => b
  | none => engine128

/-- A window of 128 bits with period 20: bit `j` is set when `j % 20 = 19`. -/
def bits_period20 : List Bool := (List.range 128).map (fun j => decide (j % 20 = 19))

/-- The engine `engine128` after the first 127 pushes of `bits_period20`. -/
def engine128_period20_last : bacf :=
  match engine128.pushes (bits_period20.take 127) with
  | some (b, _) => b
  | none => engine128

/-- The engine `engine128` after all 128 pushes of `bits_period20`. -/
def engine128_period20 : bacf :=
  match engine128_period20_last.push false with
  | some (b, _) => b
  | none => engine128

/-- An engine of capacity 32 (a single storage word) with `_min_period = 8` at
the start of a window, as `bacf(4 Hz, 8 Hz, 64)` constructs it. -/
def engine32 : bacf :=
  { _bits := bitstream.init 32
    _size := 32
    _count := 0
    _offset := 0
    _min_period := 8
    _info := { correlation := List.replicate 16 0, max_count := 0, min_count := 0
               estimated_index := 0 } }

/-- The engine `engine32` after 31 pushes of a 0 bit, one bit short of a full
window. -/
def engine32_last : bacf :=
  match engine32.pushes (List.replicate 31 false) with
  | some (b, _) => b
  | none => engine32

/-- A window of `2 ^ 18` bits: bit `j` is set for the 65535 positions
`131071 ≤ j < 196606`. -/
def wrap_bit (j : Nat) : Bool := decide (131071 ≤ j ∧ j < 196606)

/-- The `2 ^ 18` pushes that fill a window with `wrap_bit`. -/
def bits_wrap : List Bool := (List.range 262144).map wrap_bit

/-- While a window is being filled, its position 0 holds 0. -/
def bacf.aligned (b : bacf) : Prop := 0 < b._count → b._bits.get 0 = false


/-- An alternating window: bit `j` is set when `j` is odd. -/
def alternate_bit (j : Nat) : Bool := decide (j % 2 = 1)

/-- The `2 ^ 18` pushes that fill a window with `alternate_bit`. -/
def bits_alternate : List Bool := (List.range 262144).map alternate_bit

/-- An engine of capacity 128 whose shortest lag is 0, as `bacf(1 Hz, 100 Hz, 64)`
constructs it. -/
def engine128_zero : bacf := { engine128 with _min_period := 0 }

/-- The engine `engine128_zero` after the 128 pushes of `bits_period20`. -/
def engine128_zero_done : bacf :=
  match engine128_zero.pushes bits_period20 with
  | some (b, _) => b
  | none => engine128_zero

/-- A window of `2 ^ 18` bits with period 131040: inside one period the bits
alternate up to position 65535 and are clear after it. -/
def long_bit (j : Nat) : Bool := decide ((j % 131040) % 2 = 1 ∧ j % 131040 ≤ 65535)

/-- The `2 ^ 18` pushes that fill a window with `long_bit`. -/
def bits_long : List Bool := (List.range 262144).map long_bit

/-- An engine of capacity 128 whose shortest lag is the whole capacity, as
`bacf(1 Hz, 1/2 Hz, 64)` constructs it. -/
def engine128_over : bacf := { engine128 with _min_period := 128 }

/-- The engine `engine128_over` after 127 pushes of a 0 bit, one bit short of a
full window. -/
def engine128_over_last : bacf :=
  match engine128_over.pushes (List.replicate 127 false) with
  | some (b, _) => b
  | none => engine128_over

/-! ## The pitch follower -/

/-- The collaborators of `pitch_follower` whose headers are not part of the
sources, taken as parameters: the type `float` with the operations that
`operator()` applies to it, and every helper class as a state type with its
members (a call returns the result and the new state). -/
structure collaborators where
  /-- The type `float`. -/
  float : Type
  /-- The literal `0.0f`. -/
  zero : float
  /-- The comparison `a == b`; `a != b` is its negation. -/
  eq : float → float → Bool
  /-- The comparison `a > b`. -/
  gt : float → float → Bool
  /-- The function `std::abs`. -/
  abs : float → float
  /-- The product `a * b`. -/
  mul : float → float → float
  /-- The difference `a - b`. -/
  sub : float → float → float
  /-- The class `one_pole_lowpass`. -/
  one_pole_lowpass : Type
  /-- The member `one_pole_lowpass::operator()(float)`. -/
  lowpass : one_pole_lowpass → float → float × one_pole_lowpass
  /-- The member `one_pole_lowpass::operator=(float)`. -/
  lowpass_assign : one_pole_lowpass → float → one_pole_lowpass
  /-- The class `peak_envelope_follower`. -/
  peak_envelope_follower : Type
  /-- The member `peak_envelope_follower::operator()(float)`. -/
  peak_envelope : peak_envelope_follower → float → float × peak_envelope_follower
  /-- The class `fast_envelope_follower`. -/
  fast_envelope_follower : Type
  /-- The member `fast_envelope_follower::operator()(float)`. -/
  fast_envelope : fast_envelope_follower → float → float × fast_envelope_follower
  /-- The class `envelope_shaper`. -/
  envelope_shaper : Type
  /-- The member `envelope_shaper::operator()(float)`. -/
  shape : envelope_shaper → float → float × envelope_shaper
  /-- The class `soft_knee_compressor`. -/
  soft_knee_compressor : Type
  /-- The member `soft_knee_compressor::operator()`, converted to `float`. -/
  compress : soft_knee_compressor → float → float × soft_knee_compressor
  /-- The class `window_comparator`. -/
  window_comparator : Type
  /-- The member `window_comparator::operator()(float)`. -/
  gate : window_comparator → float → Bool × window_comparator
  /-- The function object `clip`. -/
  clip : float → float
  /-- The class `pitch_detector<>`. -/
  pitch_detector : Type
  /-- The member `pitch_detector::operator()(float)`; the returned flag is
  not used by the caller. -/
  detect : pitch_detector → float → pitch_detector
  /-- The member `pitch_detector::frequency()`. -/
  frequency : pitch_detector → float
  /-- The member `pitch_detector::predict_frequency()`. -/
  predict_frequency : pitch_detector → float
  /-- The value `_pd.bacf().is_half()`. -/
  is_half : pitch_detector → Bool
  /-- The value `_pd.bacf().size()`. -/
  size : pitch_detector → Nat
  /-- The class `ring_buffer<float>`. -/
  ring_buffer : Type
  /-- The member `ring_buffer::back()`. -/
  back : ring_buffer → float
  /-- The member `ring_buffer::push(float)`. -/
  push : ring_buffer → float → ring_buffer

/-- The data members of `pitch_follower`. -/
structure pitch_follower (c : collaborators) where
  _env : c.peak_envelope_follower
  _fast_env : c.fast_envelope_follower
  _synth_env : c.envelope_shaper
  _comp : c.soft_knee_compressor
  _gate : c.window_comparator
  _lp1 : c.one_pole_lowpass
  _lp2 : c.one_pole_lowpass
  _pd : c.pitch_detector
  _makeup_gain : c.float
  _synth_env_val : c.float
  _freq : c.float
  _note_threshold : c.float
  _tail : c.ring_buffer
  _tail_count : Nat
  _tail_lp : c.one_pole_lowpass

/-- The member `frequency()`. -/
def pitch_follower.frequency {c : collaborators} (pf : pitch_follower c) : c.float := pf._freq

/-- The member `envelope()`. -/
def pitch_follower.envelope {c : collaborators} (pf : pitch_follower c) : c.float :=
  pf._synth_env_val

/-- What the first part of `operator()` hands to the second: the follower with
its conditioning collaborators and estimator advanced, the conditioned sample
`s`, and the fast envelope `synth_env`. -/
structure conditioned (c : collaborators) where
  pf : pitch_follower c
  s : c.float
  synth_env : c.float

/-- The first part of `pitch_follower::operator()`: band-pass filter, main
envelope, noise gate with compressor, makeup gain and hard clip, pitch
detection, fast envelope. -/
def pitch_follower.condition {c : collaborators} (pf : pitch_follower c) (s : c.float) :
    conditioned c :=
  let r1 := c.lowpass pf._lp1 s
  let r2 := c.lowpass pf._lp2 r1.1
  let s2 := c.sub r1.1 r2.1
  let e := c.peak_envelope pf._env (c.abs s2)
  let g := c.gate pf._gate e.1
  let r3 :=
    if g.1 = true then
      let k := c.compress pf._comp e.1
      let gain := c.mul k.1 pf._makeup_gain
      (c.clip (c.mul s2 gain), k.2)
    else (c.zero, pf._comp)
  let pd := c.detect pf._pd r3.1
  let fe := c.fast_envelope pf._fast_env (c.abs r3.1)
  { pf := { pf with _lp1 := r1.2, _lp2 := r2.2, _env := e.2, _gate := g.2, _comp := r3.2
                    _pd := pd, _fast_env := fe.2 }
    s := r3.1
    synth_env := fe.1 }

/-- The branch of `operator()` taken when `synth_env > _note_threshold`. -/
def pitch_follower.valid {c : collaborators} (pf : pitch_follower c) : pitch_follower c :=
  let f0 := c.frequency pf._pd
  let f1 := if c.eq f0 c.zero = true then c.predict_frequency pf._pd else f0
  let freq := if c.eq f1 c.zero = false then f1 else pf._freq
  if c.is_half pf._pd = true then
    { pf with _freq := freq
              _tail_lp := c.lowpass_assign pf._tail_lp (c.back pf._tail)
              _tail := c.push pf._tail freq }
  else { pf with _freq := freq }

/-- The branch of `operator()` taken otherwise; `++_tail_count` is a
`std::size_t` increment. -/
def pitch_follower.invalid {c : collaborators} (pf : pitch_follower c) : pitch_follower c :=
  let count := (pf._tail_count + 1) % size_t_range
  if count = c.size pf._pd then
    let current := pf._freq
    let r := c.lowpass pf._tail_lp (c.back pf._tail)
    { pf with _freq := r.1, _tail_lp := r.2, _tail := c.push pf._tail current
              _tail_count := 0 }
  else { pf with _tail_count := count }

/-- The second part of `operator()`: the frequency is set or decayed. -/
def pitch_follower.track {c : collaborators} (pf : pitch_follower c) (synth_env : c.float) :
    pitch_follower c :=
  if c.gt synth_env pf._note_threshold = true then pf.valid else pf.invalid

/-- The member `pitch_follower::operator()(float s)`, called `process` in the
specification: the new state and the returned sample. -/
def pitch_follower.process {c : collaborators} (pf : pitch_follower c) (s : c.float) :
    pitch_follower c × c.float :=
  let m := pf.condition s
  let pf1 := m.pf.track m.synth_env
  let sv := c.shape pf1._synth_env m.synth_env
  ({ pf1 with _synth_env_val := sv.1, _synth_env := sv.2 }, m.s)

/-- A run of `process` calls, the returned samples dropped. -/
def pitch_follower.run {c : collaborators} (pf : pitch_follower c) :
    List c.float → pitch_follower c
  | [] => pf
  | s :: rest => pitch_follower.run (pf.process s).1 rest

/-- Modelled from the spec: one concrete choice of the collaborators, over exact
rationals. The smoothing filter is a one-pole low-pass `y += a * (s - y)` whose
state is `(a, y)`; the tail buffer is a ring of the most recent values, oldest
last; the gate is a comparator with hysteresis between 1/10 and 1/5; the
envelope followers, the compressor (unit gain) and the estimator (window length
2, reporting 440 Hz from the first positive sample on, never a half cycle) are
the simplest stand-ins. -/
def rational_collaborators : collaborators where
  float := ℚ
  zero := 0
  eq a b := decide (a = b)
  gt a b := decide (b < a)
  abs a := if a < 0 then -a else a
  mul a b := a * b
  sub a b := a - b
  one_pole_lowpass := ℚ × ℚ
  lowpass st s := (st.2 + st.1 * (s - st.2), (st.1, st.2 + st.1 * (s - st.2)))
  lowpass_assign st y := (st.1, y)
  peak_envelope_follower := ℚ
  peak_envelope y s := if y < s then (s, s) else (s + (y - s) / 2, s + (y - s) / 2)
  fast_envelope_follower := Unit
  fast_envelope _ s := (s, ())
  envelope_shaper := Unit
  shape _ s := (s, ())
  soft_knee_compressor := Unit
  compress _ _ := (1, ())
  window_comparator := Bool
  gate y s := if s < 1 / 10 then (false, false) else if 1 / 5 < s then (true, true) else (y, y)
  clip s := if 1 < s then 1 else if s < -1 then -1 else s
  pitch_detector := Bool
  detect seen s := seen || decide (0 < s)
  frequency seen := if seen = true then 440 else 0
  predict_frequency _ := 0
  is_half _ := false
  size _ := 2
  ring_buffer := List ℚ
  back l := l.getLastD 0
  push l x := x :: l.dropLast

/-- A freshly constructed follower over `rational_collaborators`: every filter
at rest, the tail buffer of capacity 4 filled with zeros, no frequency yet. -/
def follower0 : pitch_follower rational_collaborators where
  _env := (0 : ℚ)
  _fast_env := ()
  _synth_env := ()
  _comp := ()
  _gate := false
  _lp1 := ((1 / 2 : ℚ), (0 : ℚ))
  _lp2 := ((1 / 2 : ℚ), (0 : ℚ))
  _pd := false
  _makeup_gain := (4 : ℚ)
  _synth_env_val := (0 : ℚ)
  _freq := (0 : ℚ)
  _note_threshold := (1 / 8 : ℚ)
  _tail := [(0 : ℚ), 0, 0, 0]
  _tail_count := 0
  _tail_lp := ((1 / 2 : ℚ), (0 : ℚ))

/-- The follower `follower0` after the sample 1: the gate is open, the call took
the validity branch and the frequency is 440. -/
def follower1 : pitch_follower rational_collaborators :=
  { follower0 with
    _lp1 := ((1 / 2 : ℚ), (1 / 2 : ℚ))
    _lp2 := ((1 / 2 : ℚ), (1 / 4 : ℚ))
    _env := (1 / 4 : ℚ)
    _gate := true
    _pd := true
    _freq := (440 : ℚ)
    _synth_env_val := (1 : ℚ) }

/-- The follower `follower1` after the sample 0: the call took the invalidity
branch and the silence counter is 1. -/
def follower2 : pitch_follower rational_collaborators :=
  { follower1 with
    _lp1 := ((1 / 2 : ℚ), (1 / 4 : ℚ))
    _lp2 := ((1 / 2 : ℚ), (1 / 4 : ℚ))
    _env := (1 / 8 : ℚ)
    _tail_count := 1
    _synth_env_val := (0 : ℚ) }

/-- The follower `follower2` after one more sample 0: the silence counter
reached the window length 2 and the decay correction ran. -/
def follower3 : pitch_follower rational_collaborators :=
  { follower2 with
    _lp1 := ((1 / 2 : ℚ), (1 / 8 : ℚ))
    _lp2 := ((1 / 2 : ℚ), (3 / 16 : ℚ))
    _env := (3 / 32 : ℚ)
    _gate := false
    _freq := (0 : ℚ)
    _tail := [(440 : ℚ), 0, 0, 0]
    _tail_count := 0 }

/-! ## Further engines used by the statements -/

/-- The engine `engine128` after a push of a 0 bit: one bit is stored. -/
def engine128_low : bacf :=
  match engine128.push false with
  | some (b, _) => b
  | none => engine128

/-- The engine `engine128_low` after a push of a 1 bit: two bits are stored. -/
def engine128_high : bacf :=
  match engine128_low.push true with
  | some (b, _) => b
  | none => engine128_low

/-! ## The sweep with its accesses recorded -/

/-- What one iteration of the outer loop of `auto_correlate` does, seen from
outside: the lag `pos` with the values of `index` and `shift` on entry, the
storage-word offsets read through `p1` and `p2` in order, and the number of
word comparisons (`count_bits` of an exclusive or). -/
structure lag_event where
  pos : Nat
  index : Nat
  shift : Nat
  reads : List Nat
  comparisons : Nat
deriving DecidableEq

/-- The loop `correlate_aligned` with its reads and comparisons recorded. -/
def correlate_aligned_traced (bits : bitstream) :
    Nat → Nat → Nat → Nat → Nat → List Nat → Nat → Option (Nat × List Nat × Nat)
  | 0, _, _, _, count, reads, k => some (count, reads, k)
  | n + 1, i, p1, p2, count, reads, k =>
    match bits.data p1, bits.data p2 with
    | some a, some b =>
      if count + count_bits (a ^^^ b) ≤ int_max ∧ i + 1 ≤ int_max then
        correlate_aligned_traced bits n (i + 1) (p1 + 1) (p2 + 1)
          (count + count_bits (a ^^^ b)) (reads ++ [p1, p2]) (k + 1)
      else none
    | _, _ => none

/-- The loop `correlate_shifted` with its reads and comparisons recorded. -/
def correlate_shifted_traced (bits : bitstream) (shift : Nat) :
    Nat → Nat → Nat → Nat → Nat → List Nat → Nat → Option (Nat × List Nat × Nat)
  | 0, _, _, _, count, reads, k => some (count, reads, k)
  | n + 1, i, p1, p2, count, reads, k =>
    match bits.data p2, bits.data (p2 + 1), bits.data p1 with
    | some w, some w', some a =>
      let shift2 := value_size - shift
      let v := (w >>> shift) ||| ((w' <<< shift2) % 2 ^ value_size)
      if count + count_bits (a ^^^ v) ≤ int_max ∧ i + 1 ≤ int_max then
        correlate_shifted_traced bits shift n (i + 1) (p1 + 1) (p2 + 1)
          (count + count_bits (a ^^^ v)) (reads ++ [p2, p2 + 1, p1]) (k + 1)
      else none
    | _, _, _ => none

/-- The loop `sweep` with one `lag_event` recorded per iteration. -/
def sweep_traced {σ : Type} (bits : bitstream) (mid_array : Nat)
    (f : Nat → Nat → σ → Option σ) :
    Nat → Nat → Nat → Nat → σ → List lag_event → Option (σ × List lag_event)
  | 0, _, _, _, st, tr => some (st, tr)
  | n + 1, pos, index, shift, st, tr =>
    let r :=
      if shift = 0 then correlate_aligned_traced bits mid_array 0 0 index 0 [] 0
      else correlate_shifted_traced bits shift mid_array 0 0 index 0 [] 0
    match r with
    | none => none
    | some (count, reads, k) =>
      let shift1 := shift + 1
      let next := if shift1 = value_size then (0, index + 1) else (shift1, index)
      match f pos count st with
      | none => none
      | some st1 =>
        sweep_traced bits mid_array f n ((pos + 1) % size_t_range) next.2 next.1 st1
          (tr ++ [{ pos := pos, index := index, shift := shift, reads := reads
                    comparisons := k }])

/-- The function `auto_correlate` with its lags recorded. -/
def auto_correlate_traced {σ : Type} (bits : bitstream) (start_pos : Nat)
    (f : Nat → Nat → σ → Option σ) (st : σ) : Option (σ × List lag_event) :=
  let size := bits.size
  let array_size := size / value_size
  let mid_pos := size / 2
  let mid_array := (array_size / 2 + size_t_range - 1) % size_t_range
  let index := start_pos / value_size
  let shift := start_pos % value_size
  sweep_traced bits mid_array f ((mid_pos + size_t_range - start_pos) % size_t_range)
    start_pos index shift st []

/-- The member `operator()(bool s)` with the lags of its sweep recorded; a call
that does not reach the sweep records nothing. -/
def bacf.push_traced (b : bacf) (s : Bool) : Option (bacf × Bool × List lag_event) :=
  if b._count = 0 ∧ s = true then some (b, false, [])
  else
    let info1 : info :=
      if s = true ∧ b._count ≠ b._size then { b._info with max_count := 123 } else b._info
    let bits := b._bits.set b._count s
    let count := b._count + 1
    if count = b._size then
      let info2 : info :=
        { info1 with max_count := 0, min_count := uint16_range - 1, estimated_index := 0 }
      match auto_correlate_traced bits b._min_period bacf.on_lag info2 with
      | none => none
      | some (info3, tr) =>
        some ({ b with _bits := bits, _info := info3, _count := 0, _offset := 0 }, true, tr)
    else some ({ b with _bits := bits, _info := info1, _count := count }, false, [])

/-- The offsets read by `n` iterations of the aligned loop from `p1`, `p2`. -/
def aligned_reads : Nat → Nat → Nat → List Nat
  | 0, _, _ => []
  | n + 1, p1, p2 => p1 :: p2 :: aligned_reads n (p1 + 1) (p2 + 1)

/-- The offsets read by `n` iterations of the shifted loop from `p1`, `p2`. -/
def shifted_reads : Nat → Nat → Nat → List Nat
  | 0, _, _ => []
  | n + 1, p1, p2 => p2 :: (p2 + 1) :: p1 :: shifted_reads n (p1 + 1) (p2 + 1)

/-- The event of the lag `pos` when `mid_array` words are compared. -/
def event_of (mid_array pos : Nat) : lag_event :=
  { pos := pos
    index := pos / value_size
    shift := pos % value_size
    reads :=
      if pos % value_size = 0 then aligned_reads mid_array 0 (pos / value_size)
      else shifted_reads mid_array 0 (pos / value_size)
    comparisons := mid_array }

/-! ## Further notions for the pitch follower -/

/-- The band-limited sample of `operator()`: `s = _lp1(s); s -= _lp2(s);`. -/
def pitch_follower.band_limited {c : collaborators} (pf : pitch_follower c) (s : c.float) :
    c.float :=
  c.sub (c.lowpass pf._lp1 s).1 (c.lowpass pf._lp2 (c.lowpass pf._lp1 s).1).1

/-- The main envelope `env` of `operator()`. -/
def pitch_follower.main_envelope {c : collaborators} (pf : pitch_follower c) (s : c.float) :
    c.float :=
  (c.peak_envelope pf._env (c.abs (pf.band_limited s))).1

/-- The value of `_gate(env)` in `operator()`: the gate is engaged. -/
def pitch_follower.gate_engaged {c : collaborators} (pf : pitch_follower c) (s : c.float) :
    Bool :=
  (c.gate pf._gate (pf.main_envelope s)).1

/-- The value of `float(_comp(env))` in `operator()`. -/
def pitch_follower.compressor_gain {c : collaborators} (pf : pitch_follower c) (s : c.float) :
    c.float :=
  (c.compress pf._comp (pf.main_envelope s)).1

/-- A run of process calls every one of which takes the invalidity branch,
while the estimator's window length is `N`. -/
def pitch_follower.invalid_run {c : collaborators} :
    pitch_follower c → Nat → List c.float → Prop
  | _, _, [] => True
  | pf, N, s :: rest =>
    c.gt (pf.condition s).synth_env pf._note_threshold = false ∧
      c.size (pf.condition s).pf._pd = N ∧
      pitch_follower.invalid_run (pf.process s).1 N rest

/-- Modelled from the spec: what `ring_buffer<float>` (its header is not part of
the sources) does, stated on the parameter: `entries` lists the values held,
most recent first; `push` stores the latest value and drops the oldest;
`back()` is the oldest entry. -/
structure ring_laws (c : collaborators) where
  entries : c.ring_buffer → List c.float
  push_entries : ∀ t x, entries (c.push t x) = x :: (entries t).dropLast
  back_entries : ∀ t, c.back t = (entries t).getLastD c.zero

/-- The follower `follower2` after the sample 1: the call took the validity
branch, the frequency is still 440 and the silence counter still 1. -/
def follower2_valid : pitch_follower rational_collaborators :=
  { follower2 with
    _lp1 := ((1 / 2 : ℚ), (5 / 8 : ℚ))
    _lp2 := ((1 / 2 : ℚ), (7 / 16 : ℚ))
    _env := (3 / 16 : ℚ)
    _synth_env_val := (3 / 4 : ℚ) }

/-- The follower `follower2_valid` after the sample 1/4: the call took the
invalidity branch, the silence counter reached the window length 2 and the
decay correction ran. -/
def follower2_decayed : pitch_follower rational_collaborators :=
  { follower2_valid with
    _lp1 := ((1 / 2 : ℚ), (7 / 16 : ℚ))
    _lp2 := ((1 / 2 : ℚ), (7 / 16 : ℚ))
    _env := (3 / 32 : ℚ)
    _gate := false
    _freq := (0 : ℚ)
    _tail := [(440 : ℚ), 0, 0, 0]
    _tail_count := 0
    _synth_env_val := (0 : ℚ) }

/-- Modelled from the spec: `rational_collaborators` with an estimator that
reports a half cycle on every call. -/
def half_collaborators : collaborators where
  float := ℚ
  zero := 0
  eq a b := decide (a = b)
  gt a b := decide (b < a)
  abs a := if a < 0 then -a else a
  mul a b := a * b
  sub a b := a - b
  one_pole_lowpass := ℚ × ℚ
  lowpass st s := (st.2 + st.1 * (s - st.2), (st.1, st.2 + st.1 * (s - st.2)))
  lowpass_assign st y := (st.1, y)
  peak_envelope_follower := ℚ
  peak_envelope y s := if y < s then (s, s) else (s + (y - s) / 2, s + (y - s) / 2)
  fast_envelope_follower := Unit
  fast_envelope _ s := (s, ())
  envelope_shaper := Unit
  shape _ s := (s, ())
  soft_knee_compressor := Unit
  compress _ _ := (1, ())
  window_comparator := Bool
  gate y s := if s < 1 / 10 then (false, false) else if 1 / 5 < s then (true, true) else (y, y)
  clip s := if 1 < s then 1 else if s < -1 then -1 else s
  pitch_detector := Bool
  detect seen s := seen || decide (0 < s)
  frequency seen := if seen = true then 440 else 0
  predict_frequency _ := 0
  is_half _ := true
  size _ := 2
  ring_buffer := List ℚ
  back l := l.getLastD 0
  push l x := x :: l.dropLast

/-- The ring buffer of `half_collaborators` obeys `ring_laws`. -/
def half_ring_laws : ring_laws half_collaborators where
  entries := fun (t : List ℚ) => t
  push_entries := fun _ _ => rfl
  back_entries := fun _ => rfl

/-- A follower over `half_collaborators` with every filter at rest, whose tail
buffer holds 330, 220, 110 and 55, the most recent first. -/
def follower_half : pitch_follower half_collaborators where
  _env := (0 : ℚ)
  _fast_env := ()
  _synth_env := ()
  _comp := ()
  _gate := false
  _lp1 := ((1 / 2 : ℚ), (0 : ℚ))
  _lp2 := ((1 / 2 : ℚ), (0 : ℚ))
  _pd := false
  _makeup_gain := (4 : ℚ)
  _synth_env_val := (0 : ℚ)
  _freq := (0 : ℚ)
  _note_threshold := (1 / 8 : ℚ)
  _tail := [(330 : ℚ), 220, 110, 55]
  _tail_count := 0
  _tail_lp := ((1 / 2 : ℚ), (0 : ℚ))

/-- The follower `follower_half` after the sample 1: the call took the validity
branch with the half-cycle flag set; the filter state is 55, the oldest entry
of the tail buffer before the call, and 440 was pushed. -/
def follower_half1 : pitch_follower half_collaborators :=
  { follower_half with
    _lp1 := ((1 / 2 : ℚ), (1 / 2 : ℚ))
    _lp2 := ((1 / 2 : ℚ), (1 / 4 : ℚ))
    _env := (1 / 4 : ℚ)
    _gate := true
    _pd := true
    _freq := (440 : ℚ)
    _tail_lp := ((1 / 2 : ℚ), (55 : ℚ))
    _tail := [(440 : ℚ), 330, 220, 110]
    _synth_env_val := (1 : ℚ) }

/-- Modelled from the spec: `rational_collaborators` with a ring buffer whose
`back()` is the most recent entry. -/
def recent_collaborators : collaborators where
  float := ℚ
  zero := 0
  eq a b := decide (a = b)
  gt a b := decide (b < a)
  abs a := if a < 0 then -a else a
  mul a b := a * b
  sub a b := a - b
  one_pole_lowpass := ℚ × ℚ
  lowpass st s := (st.2 + st.1 * (s - st.2), (st.1, st.2 + st.1 * (s - st.2)))
  lowpass_assign st y := (st.1, y)
  peak_envelope_follower := ℚ
  peak_envelope y s := if y < s then (s, s) else (s + (y - s) / 2, s + (y - s) / 2)
  fast_envelope_follower := Unit
  fast_envelope _ s := (s, ())
  envelope_shaper := Unit
  shape _ s := (s, ())
  soft_knee_compressor := Unit
  compress _ _ := (1, ())
  window_comparator := Bool
  gate y s := if s < 1 / 10 then (false, false) else if 1 / 5 < s then (true, true) else (y, y)
  clip s := if 1 < s then 1 else if s < -1 then -1 else s
  pitch_detector := Bool
  detect seen s := seen || decide (0 < s)
  frequency seen := if seen = true then 440 else 0
  predict_frequency _ := 0
  is_half _ := false
  size _ := 2
  ring_buffer := List ℚ
  back l := l.headD 0
  push l x := x :: l.dropLast

/-- A follower over `recent_collaborators` in a silence: every filter at rest,
the gate closed, the running frequency 100, the silence counter 1, and a tail
buffer that holds 440, 330, 220 and 110, the most recent first. -/
def follower_recent : pitch_follower recent_collaborators where
  _env := (0 : ℚ)
  _fast_env := ()
  _synth_env := ()
  _comp := ()
  _gate := false
  _lp1 := ((1 / 2 : ℚ), (0 : ℚ))
  _lp2 := ((1 / 2 : ℚ), (0 : ℚ))
  _pd := true
  _makeup_gain := (4 : ℚ)
  _synth_env_val := (0 : ℚ)
  _freq := (100 : ℚ)
  _note_threshold := (1 / 8 : ℚ)
  _tail := [(440 : ℚ), 330, 220, 110]
  _tail_count := 1
  _tail_lp := ((1 / 2 : ℚ), (0 : ℚ))

/-- The follower `follower_recent` after the sample 0: the silence counter
reached the window length 2 and the decay correction ran; the running
frequency is 220, the filter applied to 440, and 100 was pushed. -/
def follower_recent1 : pitch_follower recent_collaborators :=
  { follower_recent with
    _freq := (220 : ℚ)
    _tail_lp := ((1 / 2 : ℚ), (220 : ℚ))
    _tail := [(100 : ℚ), 440, 330, 220]
    _tail_count := 0 }

/-! ## Windows that overflow the `int` sum -/

/-- A window of `32 * k` bits that alternate, bit `j` being set when `j` is
odd: every storage word is `0xAAAAAAAA`. -/
def alternate_window (k : Nat) : bitstream :=
  { num_bits := value_size * k, words := List.replicate k 0xAAAAAAAA }
/-! ## Rounding to binary64 -/

theorem round_even_cases (x : ℚ) : round_even x = ⌊x⌋ ∨ round_even x = ⌊x⌋ + 1 := by
  unfold round_even
  split_ifs <;> simp

theorem floor_le_round_even (x : ℚ) : ⌊x⌋ ≤ round_even x := by
  rcases round_even_cases x with h | h <;> omega

theorem round_even_near (x : ℚ) : |(round_even x : ℚ) - x| ≤ 1 / 2 := by
  have h1 := Int.floor_le x
  have h2 := Int.lt_floor_add_one x
  unfold round_even
  rw [abs_le]
  split_ifs with a b c
  · constructor <;> linarith
  · push_cast; constructor <;> linarith
  · constructor <;> linarith
  · push_cast; constructor <;> linarith

theorem le_round_even (x : ℚ) (z : ℤ) (h : (z : ℚ) ≤ x) : z ≤ round_even x :=
  le_trans (Int.le_floor.mpr h) (floor_le_round_even x)

theorem round_even_le (x : ℚ) (z : ℤ) (h : x ≤ (z : ℚ)) : round_even x ≤ z := by
  have h1 : ⌊x⌋ ≤ z := Int.floor_le_iff.mpr (lt_of_le_of_lt h (by linarith))
  rcases round_even_cases x with e | e
  · omega
  · by_cases hz : ⌊x⌋ + 1 ≤ z
    · omega
    · have hzz : z = ⌊x⌋ := by omega
      have hx : x = (⌊x⌋ : ℚ) := le_antisymm (by rw [← hzz]; exact h) (Int.floor_le x)
      exfalso
      unfold round_even at e
      have h0 : x - ⌊x⌋ = 0 := by linarith
      rw [if_pos (by rw [h0]; norm_num)] at e
      omega

theorem round_even_int (z : ℤ) : round_even (z : ℚ) = z :=
  le_antisymm (round_even_le _ z le_rfl) (le_round_even _ z le_rfl)

theorem round_even_mono {x y : ℚ} (h : x ≤ y) : round_even x ≤ round_even y := by
  have hf : ⌊x⌋ ≤ ⌊y⌋ := Int.floor_mono h
  by_cases hlt : ⌊x⌋ < ⌊y⌋
  · rcases round_even_cases x with e | e
    · have := floor_le_round_even y; omega
    · have := floor_le_round_even y; omega
  · have he : ⌊x⌋ = ⌊y⌋ := by omega
    unfold round_even
    rw [he]
    split_ifs <;> first | omega | (exfalso; linarith)

theorem two_zpow_pos (e : ℤ) : (0 : ℚ) < 2 ^ e := zpow_pos (by norm_num) e

theorem log_le_self {x : ℚ} (hx : 0 < x) : (2 : ℚ) ^ Int.log 2 x ≤ x :=
  Int.zpow_log_le_self (by norm_num) hx

theorem self_lt_log {x : ℚ} (_hx : 0 < x) : x < (2 : ℚ) ^ (Int.log 2 x + 1) :=
  Int.lt_zpow_succ_log_self (by norm_num) x

theorem log_lt_of_lt {x : ℚ} (hx : 0 < x) {j : ℤ} (h : x < 2 ^ j) : Int.log 2 x < j :=
  (Int.lt_zpow_iff_log_lt (by norm_num) hx).mp h

theorem le_log_of_le {x : ℚ} (hx : 0 < x) {j : ℤ} (h : (2 : ℚ) ^ j ≤ x) : j ≤ Int.log 2 x :=
  (Int.zpow_le_iff_le_log (by norm_num) hx).mp h

theorem double_round_scaled (x : ℚ) :
    double_round x / 2 ^ ulp_exp x = round_even (x / 2 ^ ulp_exp x) := by
  unfold double_round
  field_simp

/-- The error of rounding is at most half a unit in the last place. -/
theorem double_round_near (x : ℚ) :
    |double_round x - x| ≤ 2 ^ (ulp_exp x - 1) := by
  have hp := two_zpow_pos (ulp_exp x)
  have h := round_even_near (x / 2 ^ ulp_exp x)
  have e : double_round x - x
      = ((round_even (x / 2 ^ ulp_exp x) : ℚ) - x / 2 ^ ulp_exp x) * 2 ^ ulp_exp x := by
    unfold double_round
    field_simp
  rw [e, abs_mul, abs_of_pos hp, zpow_sub_one₀ (by norm_num)]
  calc _ ≤ 1 / 2 * (2 : ℚ) ^ ulp_exp x := mul_le_mul_of_nonneg_right h (le_of_lt hp)
    _ = _ := by ring

/-- A multiple of the unit in the last place below `x` is below the rounded
value. -/
theorem le_double_round (x : ℚ) (z : ℤ) (h : (z : ℚ) * 2 ^ ulp_exp x ≤ x) :
    (z : ℚ) * 2 ^ ulp_exp x ≤ double_round x := by
  have hp := two_zpow_pos (ulp_exp x)
  unfold double_round
  apply mul_le_mul_of_nonneg_right _ (le_of_lt hp)
  exact_mod_cast le_round_even _ z ((le_div_iff₀ hp).mpr h)

theorem double_round_le (x : ℚ) (z : ℤ) (h : x ≤ (z : ℚ) * 2 ^ ulp_exp x) :
    double_round x ≤ (z : ℚ) * 2 ^ ulp_exp x := by
  have hp := two_zpow_pos (ulp_exp x)
  unfold double_round
  apply mul_le_mul_of_nonneg_right _ (le_of_lt hp)
  exact_mod_cast round_even_le _ z ((div_le_iff₀ hp).mpr h)

/-- A power of two at least one unit in the last place is a multiple of it. -/
theorem zpow_as_multiple {u j : ℤ} (h : u ≤ j) :
    ∃ z : ℤ, (2 : ℚ) ^ j = (z : ℚ) * 2 ^ u := by
  obtain ⟨n, hn⟩ := Int.eq_ofNat_of_zero_le (show 0 ≤ j - u by omega)
  refine ⟨2 ^ n, ?_⟩
  have : j = (n : ℤ) + u := by omega
  rw [this, zpow_add₀ (by norm_num)]
  push_cast
  rw [zpow_natCast]

theorem ulp_exp_mono {a b : ℚ} (ha : 0 < a) (h : a ≤ b) : ulp_exp a ≤ ulp_exp b := by
  unfold ulp_exp
  have : Int.log 2 |a| ≤ Int.log 2 |b| := by
    rw [abs_of_pos ha, abs_of_pos (lt_of_lt_of_le ha h)]
    exact Int.log_mono_right ha h
  omega

/-- Rounding is monotone on the positive values. -/
theorem double_round_mono {a b : ℚ} (ha : 0 < a) (h : a ≤ b) :
    double_round a ≤ double_round b := by
  have hb : 0 < b := lt_of_lt_of_le ha h
  have hu := ulp_exp_mono ha h
  by_cases he : ulp_exp a = ulp_exp b
  · unfold double_round
    rw [he]
    apply mul_le_mul_of_nonneg_right _ (le_of_lt (two_zpow_pos _))
    exact_mod_cast round_even_mono (div_le_div_of_nonneg_right h (le_of_lt (two_zpow_pos _)))
  · have hlt : ulp_exp a < ulp_exp b := lt_of_le_of_ne hu he
    -- the binade of `b` starts above `a`
    have hbn : ulp_exp b = Int.log 2 b - 52 := by
      unfold ulp_exp at hlt ⊢
      rw [abs_of_pos ha] at hlt
      rw [abs_of_pos hb] at hlt ⊢
      omega
    have hab : Int.log 2 a < Int.log 2 b := by
      unfold ulp_exp at hlt
      rw [abs_of_pos ha, abs_of_pos hb] at hlt
      omega
    have h1 : a ≤ (2 : ℚ) ^ Int.log 2 b := by
      calc a ≤ 2 ^ (Int.log 2 a + 1) := le_of_lt (self_lt_log ha)
        _ ≤ 2 ^ Int.log 2 b := zpow_le_zpow_right₀ (by norm_num) (by omega)
    have h2 : (2 : ℚ) ^ Int.log 2 b ≤ b := log_le_self hb
    obtain ⟨za, eza⟩ := zpow_as_multiple (show ulp_exp a ≤ Int.log 2 b by omega)
    obtain ⟨zb, ezb⟩ := zpow_as_multiple (show ulp_exp b ≤ Int.log 2 b by omega)
    calc double_round a ≤ (za : ℚ) * 2 ^ ulp_exp a := double_round_le a za (by rw [← eza]; exact h1)
      _ = (zb : ℚ) * 2 ^ ulp_exp b := by rw [← eza, ezb]
      _ ≤ double_round b := le_double_round b zb (by rw [← ezb]; exact h2)

/-- A power of two in the normal range is a binary64 value. -/
theorem double_round_two_zpow (k : ℤ) (hk : -1022 ≤ k) : double_round (2 ^ k) = 2 ^ k := by
  have hu : ulp_exp ((2 : ℚ) ^ k) = k - 52 := by
    unfold ulp_exp
    rw [abs_of_pos (two_zpow_pos k)]
    have h1 : k ≤ Int.log 2 ((2 : ℚ) ^ k) := le_log_of_le (two_zpow_pos k) le_rfl
    have h2 : Int.log 2 ((2 : ℚ) ^ k) < k + 1 :=
      log_lt_of_lt (two_zpow_pos k) (zpow_lt_zpow_right₀ (by norm_num) (by omega))
    omega
  obtain ⟨z, ez⟩ := zpow_as_multiple (show ulp_exp ((2 : ℚ) ^ k) ≤ k by omega)
  apply le_antisymm
  · have := double_round_le ((2 : ℚ) ^ k) z (le_of_eq ez)
    rwa [← ez] at this
  · have := le_double_round ((2 : ℚ) ^ k) z (le_of_eq ez.symm)
    rwa [← ez] at this

/-- A natural number below `2 ^ 53` is a binary64 value. -/
theorem double_round_nat (n : Nat) (hn : n < 2 ^ 53) : double_round (n : ℚ) = n := by
  rcases Nat.eq_zero_or_pos n with h0 | hpos
  · subst h0
    unfold double_round round_even
    simp
  · have hq : (0 : ℚ) < n := by exact_mod_cast hpos
    have hu : ulp_exp (n : ℚ) ≤ 0 := by
      unfold ulp_exp
      rw [abs_of_pos hq]
      have : Int.log 2 (n : ℚ) < 53 := log_lt_of_lt hq (by
        have : (n : ℚ) < (2 : ℚ) ^ (53 : ℕ) := by exact_mod_cast hn
        exact_mod_cast this)
      omega
    obtain ⟨z, ez⟩ := zpow_as_multiple hu
    rw [zpow_zero] at ez
    have e : (n : ℚ) = ((n * z : ℤ) : ℚ) * 2 ^ ulp_exp (n : ℚ) := by
      push_cast
      rw [mul_assoc, ← ez, mul_one]
    apply le_antisymm
    · have := double_round_le (n : ℚ) _ (le_of_eq e)
      rwa [← e] at this
    · have := le_double_round (n : ℚ) _ (le_of_eq e.symm)
      rwa [← e] at this

/-- A binary64 value is a multiple of its unit in the last place and is less
than `2 ^ 53` of them. -/
theorem double_grid {l : ℚ} (hl : 0 < l) (hd : double_round l = l) :
    (∃ n : ℤ, l = (n : ℚ) * 2 ^ ulp_exp l) ∧ l < 2 ^ (ulp_exp l + 53) ∧
      (ulp_exp l = -1074 ∨ (2 : ℚ) ^ (ulp_exp l + 52) ≤ l) := by
  refine ⟨⟨round_even (l / 2 ^ ulp_exp l), ?_⟩, ?_, ?_⟩
  · exact hd.symm
  · calc l < 2 ^ (Int.log 2 l + 1) := self_lt_log hl
      _ ≤ 2 ^ (ulp_exp l + 53) := zpow_le_zpow_right₀ (by norm_num) (by
          unfold ulp_exp; rw [abs_of_pos hl]; omega)
  · by_cases h : Int.log 2 l < -1022
    · left
      unfold ulp_exp
      rw [abs_of_pos hl]
      omega
    · right
      have e : ulp_exp l + 52 = Int.log 2 l := by
        unfold ulp_exp
        rw [abs_of_pos hl]
        omega
      rw [e]
      exact log_le_self hl

/-- If a quotient rounds to a power of two, it is within half a unit in the
last place of it. -/
theorem near_of_round_eq {q : ℚ} (hq : 0 < q) (k : ℤ) (hk : -1022 ≤ k)
    (h : double_round q = 2 ^ k) : |(2 : ℚ) ^ k - q| ≤ 2 ^ (k - 53) := by
  have hu : ulp_exp q ≤ k - 52 := by
    by_contra hc
    have he : k + 1 ≤ Int.log 2 q := by
      unfold ulp_exp at hc
      rw [abs_of_pos hq] at hc
      omega
    have hue : ulp_exp q ≤ Int.log 2 q := by
      unfold ulp_exp
      rw [abs_of_pos hq]
      omega
    obtain ⟨z, ez⟩ := zpow_as_multiple hue
    have h1 := le_double_round q z (by rw [← ez]; exact log_le_self hq)
    rw [← ez, h] at h1
    have := (zpow_le_zpow_iff_right₀ (show (1 : ℚ) < 2 by norm_num)).mp h1
    omega
  have hn := double_round_near q
  rw [h] at hn
  exact le_trans hn (zpow_le_zpow_right₀ (by norm_num) (by omega))

/-- The quotient of a 32-bit sample rate by a binary64 frequency rounds to a
power of two only when it is that power of two. -/
theorem quotient_eq_of_round_eq (s : Nat) (hs0 : 0 < s) (hs : s < 2 ^ 32) {l : ℚ}
    (hl : 0 < l) (hd : double_round l = l) (k : ℤ) (hk0 : 0 ≤ k) (hk : k ≤ 64)
    (h : double_round ((s : ℚ) / l) = 2 ^ k) : (s : ℚ) / l = 2 ^ k := by
  have hsq : (0 : ℚ) < s := by exact_mod_cast hs0
  have hq : 0 < (s : ℚ) / l := div_pos hsq hl
  have hkp := two_zpow_pos k
  have hnear := near_of_round_eq hq k (by omega) h
  obtain ⟨⟨n, en⟩, hlt, hnorm⟩ := double_grid hl hd
  -- the distance between `s / 2 ^ k` and `l`
  have hg : |(s : ℚ) / 2 ^ k - l| < 2 ^ ulp_exp l := by
    have e : (s : ℚ) / 2 ^ k - l = -(l / 2 ^ k) * ((2 : ℚ) ^ k - (s : ℚ) / l) := by
      field_simp
      ring
    rw [e, abs_mul, abs_neg, abs_of_pos (div_pos hl hkp)]
    calc l / 2 ^ k * |(2 : ℚ) ^ k - (s : ℚ) / l|
        ≤ l / 2 ^ k * 2 ^ (k - 53) :=
          mul_le_mul_of_nonneg_left hnear (le_of_lt (div_pos hl hkp))
      _ = l * 2 ^ (-53 : ℤ) := by
          rw [zpow_sub₀ (by norm_num), zpow_neg]
          field_simp
      _ < 2 ^ (ulp_exp l + 53) * 2 ^ (-53 : ℤ) :=
          mul_lt_mul_of_pos_right hlt (two_zpow_pos _)
      _ = 2 ^ ulp_exp l := by
          rw [← zpow_add₀ (by norm_num)]
          congr 1
          omega
  -- `s / 2 ^ k` is a multiple of the unit in the last place of `l`
  have hul : ulp_exp l ≤ -k := by
    rcases hnorm with h0 | hge
    · omega
    · by_contra hc
      have h1 : l / 2 ≤ (s : ℚ) / 2 ^ k := by
        have habs := (abs_lt.mp hg).1
        have : (2 : ℚ) ^ ulp_exp l ≤ l / 2 := by
          calc (2 : ℚ) ^ ulp_exp l ≤ 2 ^ (ulp_exp l + 52 - 1) :=
                zpow_le_zpow_right₀ (by norm_num) (by omega)
            _ = 2 ^ (ulp_exp l + 52) / 2 := by rw [zpow_sub_one₀ (by norm_num)]; ring
            _ ≤ l / 2 := by linarith
        linarith
      have h2 : (s : ℚ) / 2 ^ k < 2 ^ (32 - k) := by
        rw [zpow_sub₀ (by norm_num)]
        apply div_lt_div_of_pos_right _ hkp
        have : (s : ℚ) < (2 : ℚ) ^ (32 : ℕ) := by exact_mod_cast hs
        exact_mod_cast this
      have h3 : (2 : ℚ) ^ (ulp_exp l + 52) < 2 ^ (33 - k) := by
        calc (2 : ℚ) ^ (ulp_exp l + 52) ≤ l := hge
          _ ≤ 2 * ((s : ℚ) / 2 ^ k) := by linarith
          _ < 2 * 2 ^ (32 - k) := by linarith
          _ = 2 ^ (33 - k) := by
              rw [show (33 : ℤ) - k = (32 - k) + 1 by ring, zpow_add_one₀ (by norm_num)]
              ring
      have := (zpow_lt_zpow_iff_right₀ (show (1 : ℚ) < 2 by norm_num)).mp h3
      omega
  obtain ⟨z, ez⟩ := zpow_as_multiple hul
  have eg : (s : ℚ) / 2 ^ k - l = (((s : ℤ) * z - n : ℤ) : ℚ) * 2 ^ ulp_exp l := by
    push_cast
    rw [sub_mul, ← en, mul_assoc, ← ez, zpow_neg]
    field_simp
  rw [eg, abs_mul, abs_of_pos (two_zpow_pos _)] at hg
  have hz : |((((s : ℤ) * z - n : ℤ)) : ℚ)| < 1 := by
    have hp := two_zpow_pos (ulp_exp l)
    by_contra hc
    have : (2 : ℚ) ^ ulp_exp l ≤ |((((s : ℤ) * z - n : ℤ)) : ℚ)| * 2 ^ ulp_exp l := by
      calc (2 : ℚ) ^ ulp_exp l = 1 * 2 ^ ulp_exp l := by ring
        _ ≤ _ := mul_le_mul_of_nonneg_right (not_lt.mp hc) (le_of_lt hp)
    linarith
  have hzero : (s : ℤ) * z - n = 0 := by
    have : |(s : ℤ) * z - n| < 1 := by exact_mod_cast hz
    exact Int.abs_lt_one_iff.mp this
  have hgl : (s : ℚ) / 2 ^ k = l := by
    have : (s : ℚ) / 2 ^ k - l = 0 := by rw [eg, hzero]; simp
    linarith
  rw [← hgl]
  field_simp

/-! ## The quotients of the constructor -/

theorem double_round_zero : double_round 0 = 0 := by
  unfold double_round
  simp [round_even]

/-- A value `m * 2 ^ e` with `m < 2 ^ 53` and `e ≥ -1074` is a binary64 value. -/
theorem double_round_dyadic (m : Nat) (e : ℤ) (hm : m < 2 ^ 53) (he : -1074 ≤ e) :
    double_round ((m : ℚ) * 2 ^ e) = (m : ℚ) * 2 ^ e := by
  rcases Nat.eq_zero_or_pos m with h0 | hpos
  · subst h0
    simp [double_round_zero]
  · have hq : (0 : ℚ) < (m : ℚ) * 2 ^ e :=
      mul_pos (by exact_mod_cast hpos) (two_zpow_pos e)
    have hu : ulp_exp ((m : ℚ) * 2 ^ e) ≤ e := by
      unfold ulp_exp
      rw [abs_of_pos hq]
      have : Int.log 2 ((m : ℚ) * 2 ^ e) < 53 + e := log_lt_of_lt hq (by
        rw [zpow_add₀ (by norm_num)]
        apply mul_lt_mul_of_pos_right _ (two_zpow_pos e)
        have : (m : ℚ) < (2 : ℚ) ^ (53 : ℕ) := by exact_mod_cast hm
        exact_mod_cast this)
      omega
    obtain ⟨z, ez⟩ := zpow_as_multiple hu
    have e' : (m : ℚ) * 2 ^ e = ((m * z : ℤ) : ℚ) * 2 ^ ulp_exp ((m : ℚ) * 2 ^ e) := by
      push_cast
      rw [mul_assoc, ← ez]
    apply le_antisymm
    · have := double_round_le _ _ (le_of_eq e')
      rwa [← e'] at this
    · have := le_double_round _ _ (le_of_eq e'.symm)
      rwa [← e'] at this

/-- A quotient that is a natural number below `2 ^ 53` is computed exactly. -/
theorem double_div_nat (s : Nat) (f : ℚ) (n : Nat) (hn : n < 2 ^ 53)
    (h : (s : ℚ) / f = n) : double_div s f = n := by
  unfold double_div
  rw [h]
  exact double_round_nat n hn

theorem ulp_exp_eq {x : ℚ} (hx : 0 < x) (e : ℤ) (he : -1022 ≤ e) (h1 : (2 : ℚ) ^ e ≤ x)
    (h2 : x < 2 ^ (e + 1)) : ulp_exp x = e - 52 := by
  unfold ulp_exp
  rw [abs_of_pos hx]
  have := le_log_of_le hx h1
  have := log_lt_of_lt hx h2
  omega

theorem round_even_eq_of_near (x : ℚ) (z : ℤ) (h : |x - z| < 1 / 2) : round_even x = z := by
  have h1 := round_even_near x
  have h2 : |((round_even x - z : ℤ) : ℚ)| < 1 := by
    push_cast
    have e : (round_even x : ℚ) - z = ((round_even x : ℚ) - x) + (x - z) := by ring
    rw [e]
    calc _ ≤ |(round_even x : ℚ) - x| + |x - z| := abs_add _ _
      _ < 1 := by linarith
  have h3 : |round_even x - z| < 1 := by exact_mod_cast h2
  have := Int.abs_lt_one_iff.mp h3
  omega

/-- A value within less than half a unit in the last place of a multiple of
that unit rounds to the multiple. -/
theorem double_round_eq_of_near {x : ℚ} (hx : 0 < x) (e : ℤ) (he : -1022 ≤ e)
    (h1 : (2 : ℚ) ^ e ≤ x) (h2 : x < 2 ^ (e + 1)) (z : ℤ)
    (h : |x - (z : ℚ) * 2 ^ (e - 52)| < 2 ^ (e - 53)) :
    double_round x = (z : ℚ) * 2 ^ (e - 52) := by
  have hu := ulp_exp_eq hx e he h1 h2
  have hp := two_zpow_pos (e - 52)
  unfold double_round
  rw [hu]
  congr 1
  have : round_even (x / 2 ^ (e - 52)) = z := by
    apply round_even_eq_of_near
    have e1 : x / 2 ^ (e - 52) - z = (x - (z : ℚ) * 2 ^ (e - 52)) / 2 ^ (e - 52) := by
      field_simp
      ring
    rw [e1, abs_div, abs_of_pos hp, div_lt_iff₀ hp]
    calc _ < (2 : ℚ) ^ (e - 53) := h
      _ = 1 / 2 * 2 ^ (e - 52) := by
          rw [show e - 53 = e - 52 - 1 by ring, zpow_sub_one₀ (by norm_num)]
          ring
  exact_mod_cast this

theorem double_div_nonneg (s : Nat) {f : ℚ} (hf : 0 < f) : 0 ≤ double_div s f := by
  unfold double_div
  have := le_double_round ((s : ℚ) / f) 0 (by
    simp only [Int.cast_zero, zero_mul]
    exact div_nonneg (Nat.cast_nonneg s) (le_of_lt hf))
  simpa using this

/-- The quotient by the higher frequency is not above the quotient by the
lower one. -/
theorem double_div_anti (s : Nat) {l h : ℚ} (hl : 0 < l) (hlh : l ≤ h) :
    double_div s h ≤ double_div s l := by
  unfold double_div
  rcases Nat.eq_zero_or_pos s with h0 | hpos
  · subst h0
    simp
  · have hs : (0 : ℚ) < s := by exact_mod_cast hpos
    exact double_round_mono (div_pos hs (lt_of_lt_of_le hl hlh))
      (div_le_div_of_nonneg_left (le_of_lt hs) hl hlh)

/-- The shortest lag is at most the ceiling of the longest period. -/
theorem floor_le_ceil_div (s : Nat) {l h : ℚ} (hl : 0 < l) (hlh : l ≤ h) :
    ⌊double_div s h⌋₊ ≤ ⌈double_div s l⌉₊ := by
  have h1 : (⌊double_div s h⌋₊ : ℚ) ≤ double_div s h :=
    Nat.floor_le (double_div_nonneg s (lt_of_lt_of_le hl hlh))
  have h2 : double_div s l ≤ (⌈double_div s l⌉₊ : ℚ) := Nat.le_ceil _
  have h3 := double_div_anti s hl hlh
  have : (⌊double_div s h⌋₊ : ℚ) ≤ (⌈double_div s l⌉₊ : ℚ) := by linarith
  exact_mod_cast this

/-- The rounded quotient is at most a power of two exactly when the exact
quotient is. -/
theorem double_div_le_pow (s : Nat) (hs : s < 2 ^ 32) {l : ℚ} (hl : 0 < l)
    (hd : is_double l) (j : Nat) (hj : j ≤ 64) :
    double_div s l ≤ 2 ^ j ↔ (s : ℚ) / l ≤ 2 ^ j := by
  have h2 : double_round ((2 : ℚ) ^ (j : ℤ)) = 2 ^ (j : ℤ) :=
    double_round_two_zpow j (by omega)
  rw [zpow_natCast] at h2
  unfold double_div
  rcases Nat.eq_zero_or_pos s with h0 | hpos
  · subst h0
    simp [double_round_zero]
  · have hsq : (0 : ℚ) < s := by exact_mod_cast hpos
    have hq : 0 < (s : ℚ) / l := div_pos hsq hl
    constructor
    · intro hle
      by_contra hc
      have hlt : (2 : ℚ) ^ j < (s : ℚ) / l := not_le.mp hc
      have hge : (2 : ℚ) ^ j ≤ double_round ((s : ℚ) / l) := by
        have := double_round_mono (by positivity) (le_of_lt hlt)
        rwa [h2] at this
      have heq : double_round ((s : ℚ) / l) = 2 ^ (j : ℤ) := by
        rw [zpow_natCast]
        exact le_antisymm hle hge
      have := quotient_eq_of_round_eq s hpos hs hl hd.1 j (by omega) (by omega) heq
      rw [zpow_natCast] at this
      linarith
    · intro hle
      have := double_round_mono hq hle
      rwa [h2] at this

theorem ceil_double_div_le_pow (s : Nat) (hs : s < 2 ^ 32) {l : ℚ} (hl : 0 < l)
    (hd : is_double l) (j : Nat) (hj : j ≤ 64) :
    ⌈double_div s l⌉₊ ≤ 2 ^ j ↔ ⌈(s : ℚ) / l⌉₊ ≤ 2 ^ j := by
  rw [Nat.ceil_le, Nat.ceil_le]
  push_cast
  exact double_div_le_pow s hs hl hd j hj

/-- Rounding does not take a quotient below `2 ^ 53` across an integer: the
floor of the exact quotient is at most the floor of the `double` quotient. -/
theorem floor_le_floor_double (s : Nat) {h : ℚ} (hh : 0 < h)
    (hq : double_div s h < 2 ^ 53) : ⌊(s : ℚ) / h⌋₊ ≤ ⌊double_div s h⌋₊ := by
  have hnn : 0 ≤ (s : ℚ) / h := div_nonneg (Nat.cast_nonneg s) (le_of_lt hh)
  apply Nat.le_floor
  rcases eq_or_lt_of_le hnn with h0 | hpos
  · rw [← h0]
    simp only [Nat.floor_zero, Nat.cast_zero]
    exact double_div_nonneg s hh
  · unfold double_div at hq ⊢
    have hlt : (s : ℚ) / h < 2 ^ (53 : ℤ) := by
      by_contra hc
      have h1 := double_round_mono (two_zpow_pos 53) (not_lt.mp hc)
      rw [double_round_two_zpow 53 (by norm_num)] at h1
      have h2 : (2 : ℚ) ^ (53 : ℤ) = 2 ^ 53 := by norm_num
      rw [h2] at h1
      linarith
    have hu : ulp_exp ((s : ℚ) / h) ≤ 0 := by
      unfold ulp_exp
      rw [abs_of_pos hpos]
      have := log_lt_of_lt hpos hlt
      omega
    obtain ⟨z, ez⟩ := zpow_as_multiple hu
    rw [zpow_zero] at ez
    have e : ((⌊(s : ℚ) / h⌋₊ : ℕ) : ℚ)
        = (((⌊(s : ℚ) / h⌋₊ : ℤ) * z : ℤ) : ℚ) * 2 ^ ulp_exp ((s : ℚ) / h) := by
      push_cast
      rw [mul_assoc, ← ez, mul_one]
    rw [e]
    apply le_double_round
    rw [← e]
    exact Nat.floor_le hnn
/-! ## The constructor -/

theorem smallest_pow2_from_spec (n : Nat) :
    ∀ fuel m a, m = 2 ^ a → n ≤ m * 2 ^ fuel → (a = 0 ∨ 2 ^ (a - 1) < n) →
      ∃ k, smallest_pow2_from n fuel m = 2 ^ k ∧ n ≤ 2 ^ k ∧ (k = 0 ∨ 2 ^ (k - 1) < n) := by
  intro fuel
  induction fuel with
  | zero =>
    intro m a hm hn ha
    refine ⟨a, ?_, ?_, ha⟩
    · rw [smallest_pow2_from, hm]
    · rw [← hm]; simpa using hn
  | succ fuel ih =>
    intro m a hm hn ha
    rw [smallest_pow2_from]
    by_cases hlt : m < n
    · rw [if_pos hlt]
      have e : m <<< 1 = 2 ^ (a + 1) := by
        rw [Nat.shiftLeft_eq, hm]; ring
      apply ih (m <<< 1) (a + 1) e
      · rw [e]
        calc n ≤ m * 2 ^ (fuel + 1) := hn
          _ = 2 ^ (a + 1) * 2 ^ fuel := by rw [hm]; ring
      · right
        rw [Nat.add_sub_cancel, ← hm]
        exact hlt
    · rw [if_neg hlt]
      exact ⟨a, hm, by rw [← hm]; omega, ha⟩

/-- The helper `smallest_pow2` returns a power of two that is at least `n`, and
the previous power of two is below `n`. -/
theorem smallest_pow2_spec (n : Nat) :
    ∃ k, smallest_pow2 n = 2 ^ k ∧ n ≤ 2 ^ k ∧ (k = 0 ∨ 2 ^ (k - 1) < n) := by
  unfold smallest_pow2
  apply smallest_pow2_from_spec n n 1 0 rfl
  · rw [Nat.one_mul]
    exact le_of_lt (Nat.lt_two_pow n)
  · left; rfl

theorem smallest_pow2_min (n j : Nat) (h : n ≤ 2 ^ j) : smallest_pow2 n ≤ 2 ^ j := by
  obtain ⟨k, e, _, hk⟩ := smallest_pow2_spec n
  rw [e]
  rcases hk with h0 | hlt
  · subst h0
    exact Nat.one_le_two_pow
  · have h1 : 2 ^ (k - 1) < 2 ^ j := lt_of_lt_of_le hlt h
    have h2 : k - 1 < j := (Nat.pow_lt_pow_iff_right (by norm_num)).mp h1
    exact Nat.pow_le_pow_right (by norm_num) (by omega)

theorem init_size (lowest highest : ℚ) (sps m0 m1 e0 : Nat) :
    (bacf.init lowest highest sps m0 m1 e0).size = bacf.buff_size lowest sps := rfl

theorem init_fields (lowest highest : ℚ) (sps m0 m1 e0 : Nat) :
    (bacf.init lowest highest sps m0 m1 e0)._size = bacf.buff_size lowest sps ∧
      (bacf.init lowest highest sps m0 m1 e0)._min_period = ⌊double_div sps highest⌋₊ ∧
      (bacf.init lowest highest sps m0 m1 e0)._count = 0 :=
  ⟨rfl, rfl, rfl⟩

theorem buff_size_of_ceil (f : ℚ) (s n : Nat) (h : ⌈double_div s f⌉₊ = n) :
    bacf.buff_size f s = (smallest_pow2 n * 2) % size_t_range := by
  subst h
  rfl

/-- A capacity that is not 0 is twice the power of two computed by
`smallest_pow2`: the `std::size_t` product did not wrap around. -/
theorem buff_size_pow2 (freq : ℚ) (sps : Nat) (h : bacf.buff_size freq sps ≠ 0) :
    ∃ k, smallest_pow2 ⌈double_div sps freq⌉₊ = 2 ^ k ∧ ⌈double_div sps freq⌉₊ ≤ 2 ^ k ∧
      bacf.buff_size freq sps = 2 ^ (k + 1) ∧ k + 1 < 64 := by
  obtain ⟨k, e, hle, _⟩ := smallest_pow2_spec ⌈double_div sps freq⌉₊
  have hb : bacf.buff_size freq sps = 2 ^ (k + 1) % 2 ^ 64 := by
    unfold bacf.buff_size size_t_range
    simp only
    rw [e]
    rfl
  have hk : k + 1 < 64 := by
    by_contra hc
    apply h
    rw [hb]
    apply Nat.mod_eq_zero_of_dvd
    exact Nat.pow_dvd_pow 2 (by omega)
  refine ⟨k, e, hle, ?_, hk⟩
  rw [hb]
  exact Nat.mod_eq_of_lt (Nat.pow_lt_pow_right (by norm_num) hk)

/-- The constructor establishes the invariants, provided the capacity did not
wrap around to 0. -/
theorem init_wf (lowest highest : ℚ) (sps m0 m1 e0 : Nat)
    (h : bacf.buff_size lowest sps ≠ 0) :
    (bacf.init lowest highest sps m0 m1 e0).wf := by
  obtain ⟨k, _, _, hk, hk64⟩ := buff_size_pow2 lowest sps h
  have h2 : 2 ≤ bacf.buff_size lowest sps := by
    rw [hk, Nat.pow_succ]
    have := @Nat.one_le_two_pow k
    omega
  have hlt : bacf.buff_size lowest sps < size_t_range := by
    rw [hk]
    unfold size_t_range
    exact Nat.pow_lt_pow_right (by norm_num) hk64
  refine ⟨rfl, hlt, h2, ?_, ?_, ?_, ?_, ⟨k + 1, hk⟩⟩
  · intro w hw
    have : w = 0 := List.eq_of_mem_replicate hw
    rw [this]
    exact Nat.two_pow_pos _
  · simp [bacf.init, bitstream.init, bitstream.size]
  · simp [bacf.init, bitstream.init, bitstream.size]
  · show 0 < bacf.buff_size lowest sps
    omega

/-- With `0 < lowest ≤ highest` the shortest lag is at most half the capacity. -/
theorem min_period_le (lowest highest : ℚ) (sps : Nat) (h0 : 0 < lowest)
    (hlh : lowest ≤ highest) (h : bacf.buff_size lowest sps ≠ 0) :
    ⌊double_div sps highest⌋₊ ≤ bacf.buff_size lowest sps / 2 := by
  obtain ⟨k, _, hle, hk, _⟩ := buff_size_pow2 lowest sps h
  have := floor_le_ceil_div sps h0 hlh
  rw [hk, Nat.pow_succ, Nat.mul_div_cancel _ (by norm_num : 0 < 2)]
  omega

/-- With `0 < lowest < highest`, both of them `double`s, and a 32-bit sample
rate, the shortest lag is below half the capacity. -/
theorem min_period_lt (lowest highest : ℚ) (sps : Nat) (hs : sps < 2 ^ 32)
    (h0 : 0 < lowest) (hlh : lowest < highest) (hdl : is_double lowest)
    (hdh : is_double highest) (h : bacf.buff_size lowest sps ≠ 0) :
    ⌊double_div sps highest⌋₊ < bacf.buff_size lowest sps / 2 := by
  obtain ⟨k, _, hle, hk, hk64⟩ := buff_size_pow2 lowest sps h
  have hhalf : bacf.buff_size lowest sps / 2 = 2 ^ k := by
    rw [hk, Nat.pow_succ, Nat.mul_div_cancel _ (by norm_num : 0 < 2)]
  rw [hhalf]
  have hh : 0 < highest := lt_trans h0 hlh
  rcases Nat.eq_zero_or_pos sps with hz | hpos
  · subst hz
    have : double_div 0 highest = 0 := by
      unfold double_div
      simp [double_round_zero]
    rw [this]
    simp
  · by_contra hc
    have hge : 2 ^ k ≤ ⌊double_div sps highest⌋₊ := not_lt.mp hc
    have h1 : (⌊double_div sps highest⌋₊ : ℚ) ≤ double_div sps highest :=
      Nat.floor_le (double_div_nonneg sps hh)
    have h2 : double_div sps lowest ≤ (⌈double_div sps lowest⌉₊ : ℚ) := Nat.le_ceil _
    have h3 := double_div_anti sps h0 (le_of_lt hlh)
    have h4 : ((2 ^ k : ℕ) : ℚ) ≤ (⌊double_div sps highest⌋₊ : ℚ) := by exact_mod_cast hge
    have h5 : (⌈double_div sps lowest⌉₊ : ℚ) ≤ ((2 ^ k : ℕ) : ℚ) := by exact_mod_cast hle
    push_cast at h4 h5
    have ea : double_div sps highest = 2 ^ (k : ℤ) := by
      rw [zpow_natCast]; linarith
    have eb : double_div sps lowest = 2 ^ (k : ℤ) := by
      rw [zpow_natCast]; linarith
    have qa := quotient_eq_of_round_eq sps hpos hs hh hdh.1 k (by omega) (by omega) ea
    have qb := quotient_eq_of_round_eq sps hpos hs h0 hdl.1 k (by omega) (by omega) eb
    have hsq : (0 : ℚ) < sps := by exact_mod_cast hpos
    have : (sps : ℚ) / highest < (sps : ℚ) / lowest := div_lt_div_of_pos_left hsq h0 hlh
    rw [qa, qb] at this
    exact lt_irrefl _ this

/-- An instance of the rounding: `bacf(80 Hz, 3392.3076923076924 Hz, 44100)`.
The `double` nearest to that frequency is `3729881752686277 / 2 ^ 40`; the
exact quotient is just below 13 and its floor is 12, the `double` quotient is
13, and so is `_min_period`. -/
theorem min_period_rounded :
    is_double (3729881752686277 / 1099511627776) ∧
      ⌊((44100 : ℕ) : ℚ) / (3729881752686277 / 1099511627776)⌋₊ = 12 ∧
      (bacf.init 80 (3729881752686277 / 1099511627776) 44100 0 0 0)._min_period = 13 := by
  refine ⟨⟨?_, ?_⟩, ?_, ?_⟩
  · have := double_round_dyadic 3729881752686277 (-40) (by norm_num) (by norm_num)
    have e : ((3729881752686277 : ℕ) : ℚ) * 2 ^ (-40 : ℤ)
        = 3729881752686277 / 1099511627776 := by norm_num
    rwa [e] at this
  · rw [abs_of_pos (by norm_num)]
    norm_num
  · rw [Nat.floor_eq_iff (by positivity)]
    norm_num
  · show ⌊double_div 44100 (3729881752686277 / 1099511627776)⌋₊ = 13
    have hq : double_div 44100 (3729881752686277 / 1099511627776) = 13 := by
      unfold double_div
      have := @double_round_eq_of_near (((44100 : ℕ) : ℚ) / (3729881752686277 / 1099511627776))
        (by norm_num) 3 (by norm_num) (by norm_num) (by norm_num) (13 * 2 ^ 49)
        (by rw [abs_lt]; constructor <;> norm_num)
      rw [this]
      norm_num
    rw [hq]
    exact Nat.floor_natCast 13

/-! ## Bits of a window and of its storage words -/

theorem get_of_word {bits : bitstream} {i a : Nat} (h : bits.data i = some a) (k : Nat)
    (hk : k < value_size) : bits.get (value_size * i + k) = a.testBit k := by
  unfold bitstream.data at h
  unfold bitstream.get
  have h1 : (value_size * i + k) / value_size = i := by
    unfold value_size at *; omega
  have h2 : (value_size * i + k) % value_size = k := by
    unfold value_size at *; omega
  rw [h1, h2, List.getD_eq_getElem?_getD, h]
  rfl

theorem word_lt_of_data {bits : bitstream} (hb : bits.bounded) {i a : Nat}
    (h : bits.data i = some a) : a < 2 ^ value_size := by
  unfold bitstream.data at h
  exact hb a (List.mem_iff_getElem?.mpr ⟨i, h⟩)

theorem count_bits_xor (a v : Nat) :
    count_bits (a ^^^ v) = (List.range value_size).countP (fun k => a.testBit k != v.testBit k) := by
  unfold count_bits
  apply List.countP_congr
  intro k _
  simp [Nat.testBit_xor]

/-- The bits of the word `v` assembled on the shifted path. -/
theorem testBit_shifted {w w' shift k : Nat} (hw : w < 2 ^ value_size)
    (hs : shift < value_size) (hs0 : 0 < shift) (hk : k < value_size) :
    ((w >>> shift) ||| ((w' <<< (value_size - shift)) % 2 ^ value_size)).testBit k
      = if shift + k < value_size then w.testBit (shift + k)
        else w'.testBit (shift + k - value_size) := by
  rw [Nat.testBit_or, Nat.testBit_shiftRight, Nat.testBit_mod_two_pow, Nat.testBit_shiftLeft]
  unfold value_size at *
  by_cases h : shift + k < 32
  · have h1 : ¬ (k ≥ 32 - shift) := by omega
    simp [h, h1]
  · have h1 : k ≥ 32 - shift := by omega
    have h2 : w.testBit (shift + k) = false := by
      apply Nat.testBit_lt_two_pow
      calc w < 2 ^ 32 := hw
        _ ≤ 2 ^ (shift + k) := Nat.pow_le_pow_right (by norm_num) (by omega)
    have h3 : k - (32 - shift) = shift + k - 32 := by omega
    simp [h, h1, h2, hk, h3]

theorem hamming_eq_from (bits : bitstream) (len lag : Nat) :
    hamming bits len lag = hamming_from bits 0 len lag := by
  unfold hamming hamming_from
  rw [List.range_eq_range']

theorem hamming_from_add (bits : bitstream) (s m n lag : Nat) :
    hamming_from bits s (m + n) lag
      = hamming_from bits s m lag + hamming_from bits (s + m) n lag := by
  unfold hamming_from
  have h := List.range'_append s m n 1
  rw [Nat.one_mul] at h
  rw [Nat.add_comm m n, ← h, List.countP_append]

theorem hamming_from_le (bits : bitstream) (s len lag : Nat) :
    hamming_from bits s len lag ≤ len := by
  unfold hamming_from
  calc _ ≤ (List.range' s len).length := List.countP_le_length _
    _ = len := by simp

/-- One aligned word comparison counts the mismatches of one block. -/
theorem block_aligned {bits : bitstream} {p index a b : Nat}
    (ha : bits.data p = some a) (hb : bits.data (p + index) = some b) :
    count_bits (a ^^^ b)
      = hamming_from bits (value_size * p) value_size (value_size * index) := by
  rw [count_bits_xor]
  unfold hamming_from
  rw [List.range'_eq_map_range, List.countP_map]
  apply List.countP_congr
  intro k hk
  have hk' : k < value_size := List.mem_range.mp hk
  have e : value_size * p + k + value_size * index = value_size * (p + index) + k := by ring
  simp only [Function.comp]
  rw [get_of_word ha k hk', e, get_of_word hb k hk']

/-- One shifted word comparison counts the mismatches of one block. -/
theorem block_shifted {bits : bitstream} (hbd : bits.bounded) {p index shift a w w' : Nat}
    (hs : shift < value_size) (hs0 : 0 < shift)
    (ha : bits.data p = some a) (hw : bits.data (p + index) = some w)
    (hw' : bits.data (p + index + 1) = some w') :
    count_bits (a ^^^ ((w >>> shift) ||| ((w' <<< (value_size - shift)) % 2 ^ value_size)))
      = hamming_from bits (value_size * p) value_size (value_size * index + shift) := by
  rw [count_bits_xor]
  unfold hamming_from
  rw [List.range'_eq_map_range, List.countP_map]
  apply List.countP_congr
  intro k hk
  have hk' : k < value_size := List.mem_range.mp hk
  simp only [Function.comp]
  rw [get_of_word ha k hk', testBit_shifted (word_lt_of_data hbd hw) hs hs0 hk']
  by_cases h : shift + k < value_size
  · have e : value_size * p + k + (value_size * index + shift)
        = value_size * (p + index) + (shift + k) := by ring
    rw [e, get_of_word hw _ h, if_pos h]
  · have e : value_size * p + k + (value_size * index + shift)
        = value_size * (p + index + 1) + (shift + k - value_size) := by
      unfold value_size at *; omega
    have h' : shift + k - value_size < value_size := by unfold value_size at *; omega
    rw [e, get_of_word hw' _ h', if_neg h]

theorem count_bits_le (x : Nat) : count_bits x ≤ value_size := by
  unfold count_bits
  calc _ ≤ (List.range value_size).length := List.countP_le_length _
    _ = value_size := List.length_range _


/-! ## The loops of `auto_correlate` -/

theorem data_some {bits : bitstream} {i : Nat} (h : i < bits.words.length) :
    ∃ a, bits.data i = some a := by
  unfold bitstream.data
  exact ⟨bits.words.get ⟨i, h⟩, by simp [List.getElem?_eq_getElem h]⟩

theorem correlate_aligned_eq (bits : bitstream) (index : Nat) :
    ∀ (n i p c : Nat), p + index + n ≤ bits.words.length →
      c + value_size * n ≤ int_max → i + n ≤ int_max →
      correlate_aligned bits n i p (p + index) c
        = some (c + hamming_from bits (value_size * p) (value_size * n) (value_size * index)) := by
  intro n
  induction n with
  | zero =>
    intro i p c _ _ _
    simp [correlate_aligned, hamming_from]
  | succ n ih =>
    intro i p c h hc hi
    have h1 : p < bits.words.length := by omega
    have h2 : p + index < bits.words.length := by omega
    obtain ⟨a, e1⟩ := data_some h1
    obtain ⟨b, e2⟩ := data_some h2
    have hcb := count_bits_le (a ^^^ b)
    have hmul : value_size * (n + 1) = value_size * n + value_size := by ring
    rw [correlate_aligned, e1, e2]
    simp only
    rw [if_pos ⟨by omega, by omega⟩]
    have e3 : p + index + 1 = p + 1 + index := by omega
    rw [e3, ih (i + 1) (p + 1) _ (by omega) (by omega) (by omega)]
    have e4 : value_size * (n + 1) = value_size + value_size * n := by ring
    have e5 : value_size * (p + 1) = value_size * p + value_size := by ring
    rw [e4, hamming_from_add, ← block_aligned e1 e2, e5, Nat.add_assoc]

theorem correlate_shifted_eq (bits : bitstream) (hbd : bits.bounded) (index shift : Nat)
    (hs : shift < value_size) (hs0 : 0 < shift) :
    ∀ (n i p c : Nat), p + index + n + 1 ≤ bits.words.length →
      c + value_size * n ≤ int_max → i + n ≤ int_max →
      correlate_shifted bits shift n i p (p + index) c
        = some (c + hamming_from bits (value_size * p) (value_size * n)
            (value_size * index + shift)) := by
  intro n
  induction n with
  | zero =>
    intro i p c _ _ _
    simp [correlate_shifted, hamming_from]
  | succ n ih =>
    intro i p c h hc hi
    have h1 : p < bits.words.length := by omega
    have h2 : p + index < bits.words.length := by omega
    have h3 : p + index + 1 < bits.words.length := by omega
    obtain ⟨a, e1⟩ := data_some h1
    obtain ⟨w, e2⟩ := data_some h2
    obtain ⟨w', e3⟩ := data_some h3
    have hcb := count_bits_le
      (a ^^^ ((w >>> shift) ||| ((w' <<< (value_size - shift)) % 2 ^ value_size)))
    have hmul : value_size * (n + 1) = value_size * n + value_size := by ring
    rw [correlate_shifted, e1, e2, e3]
    simp only
    rw [if_pos ⟨by omega, by omega⟩]
    have e4 : p + index + 1 = p + 1 + index := by omega
    rw [e4, ih (i + 1) (p + 1) _ (by omega) (by omega) (by omega)]
    have e5 : value_size * (n + 1) = value_size + value_size * n := by ring
    have e6 : value_size * (p + 1) = value_size * p + value_size := by ring
    rw [e5, hamming_from_add, ← block_shifted hbd hs hs0 e1 e2 e3, e6, Nat.add_assoc]

/-- The aligned loop runs into undefined behaviour when the sum exceeds
`int_max`. -/
theorem correlate_aligned_overflow (bits : bitstream) (index : Nat) :
    ∀ (n i p c : Nat), p + index + n ≤ bits.words.length → c ≤ int_max →
      int_max < c + hamming_from bits (value_size * p) (value_size * n) (value_size * index) →
      correlate_aligned bits n i p (p + index) c = none := by
  intro n
  induction n with
  | zero =>
    intro i p c _ hc hlt
    simp [hamming_from] at hlt
    omega
  | succ n ih =>
    intro i p c h hc hlt
    have h1 : p < bits.words.length := by omega
    have h2 : p + index < bits.words.length := by omega
    obtain ⟨a, e1⟩ := data_some h1
    obtain ⟨b, e2⟩ := data_some h2
    rw [correlate_aligned, e1, e2]
    simp only
    split
    · rename_i hg
      have e3 : p + index + 1 = p + 1 + index := by omega
      rw [e3]
      apply ih (i + 1) (p + 1) _ (by omega) hg.1
      have e4 : value_size * (n + 1) = value_size + value_size * n := by ring
      have e5 : value_size * (p + 1) = value_size * p + value_size := by ring
      rw [e4, hamming_from_add, ← block_aligned e1 e2, ← e5] at hlt
      omega
    · rfl

/-- The shifted loop runs into undefined behaviour when the sum exceeds
`int_max`. -/
theorem correlate_shifted_overflow (bits : bitstream) (hbd : bits.bounded)
    (index shift : Nat) (hs : shift < value_size) (hs0 : 0 < shift) :
    ∀ (n i p c : Nat), p + index + n + 1 ≤ bits.words.length → c ≤ int_max →
      int_max < c + hamming_from bits (value_size * p) (value_size * n)
          (value_size * index + shift) →
      correlate_shifted bits shift n i p (p + index) c = none := by
  intro n
  induction n with
  | zero =>
    intro i p c _ hc hlt
    simp [hamming_from] at hlt
    omega
  | succ n ih =>
    intro i p c h hc hlt
    have h1 : p < bits.words.length := by omega
    have h2 : p + index < bits.words.length := by omega
    have h3 : p + index + 1 < bits.words.length := by omega
    obtain ⟨a, e1⟩ := data_some h1
    obtain ⟨w, e2⟩ := data_some h2
    obtain ⟨w', e3⟩ := data_some h3
    rw [correlate_shifted, e1, e2, e3]
    simp only
    split
    · rename_i hg
      have e4 : p + index + 1 = p + 1 + index := by omega
      rw [e4]
      apply ih (i + 1) (p + 1) _ (by omega) hg.1
      have e5 : value_size * (n + 1) = value_size + value_size * n := by ring
      have e6 : value_size * (p + 1) = value_size * p + value_size := by ring
      rw [e5, hamming_from_add, ← block_shifted hbd hs hs0 e1 e2 e3, ← e6] at hlt
      omega
    · rfl

/-- One lag of the sweep, on either path, yields the Hamming distance over
the compared words. -/
theorem lag_count (bits : bitstream) (hbd : bits.bounded) (mid_array pos : Nat)
    (hlen : pos / value_size + mid_array + 1 ≤ bits.words.length)
    (hint : value_size * mid_array ≤ int_max) :
    (if pos % value_size = 0 then correlate_aligned bits mid_array 0 0 (pos / value_size) 0
      else correlate_shifted bits (pos % value_size) mid_array 0 0 (pos / value_size) 0)
      = some (hamming bits (value_size * mid_array) pos) := by
  have hmid : 0 + mid_array ≤ int_max := by unfold value_size at hint; omega
  have hcnt : 0 + value_size * mid_array ≤ int_max := by omega
  have hpos : pos = value_size * (pos / value_size) + pos % value_size :=
    (Nat.div_add_mod pos value_size).symm
  by_cases h : pos % value_size = 0
  · rw [if_pos h]
    have e := correlate_aligned_eq bits (pos / value_size) mid_array 0 0 0 (by omega)
      hcnt hmid
    rw [Nat.zero_add] at e
    rw [e, hamming_eq_from]
    rw [h, Nat.add_zero] at hpos
    rw [← hpos]
    simp
  · rw [if_neg h]
    have hs : pos % value_size < value_size := Nat.mod_lt _ (by decide)
    have e := correlate_shifted_eq bits hbd (pos / value_size) (pos % value_size) hs
      (Nat.pos_of_ne_zero h) mid_array 0 0 0 (by omega) hcnt hmid
    rw [Nat.zero_add] at e
    rw [e, hamming_eq_from, ← hpos]
    simp

theorem sweep_eq {σ : Type} (bits : bitstream) (hbd : bits.bounded) (mid_array : Nat)
    (f : Nat → Nat → σ → Option σ) (hint : value_size * mid_array ≤ int_max) :
    ∀ (n pos : Nat) (st : σ), pos + n < size_t_range →
      (pos + n) / value_size + mid_array + 1 ≤ bits.words.length ∨ n = 0 →
      sweep bits mid_array f n pos (pos / value_size) (pos % value_size) st
        = lag_fold bits (value_size * mid_array) f (List.range' pos n) st := by
  intro n
  induction n with
  | zero =>
    intro pos st _ _
    simp [sweep, lag_fold]
  | succ n ih =>
    intro pos st hlt hlen
    have hlen' : (pos + (n + 1)) / value_size + mid_array + 1 ≤ bits.words.length := by
      rcases hlen with h | h
      · exact h
      · omega
    have hmono : pos / value_size ≤ (pos + (n + 1)) / value_size :=
      Nat.div_le_div_right (by omega)
    rw [sweep, lag_count bits hbd mid_array pos (by omega) hint]
    simp only
    unfold lag_fold
    rw [List.range'_succ, List.foldlM_cons]
    cases hf : f pos (hamming bits (value_size * mid_array) pos) st with
    | none => simp
    | some st1 =>
      simp only [Option.some_bind, Option.bind_eq_bind]
      have hmod : (pos + 1) % size_t_range = pos + 1 := Nat.mod_eq_of_lt (by omega)
      have hnext : (if pos % value_size + 1 = value_size then (0, pos / value_size + 1)
          else (pos % value_size + 1, pos / value_size))
            = ((pos + 1) % value_size, (pos + 1) / value_size) := by
        unfold value_size
        split <;> simp <;> omega
      rw [hmod, hnext]
      have hlen2 : (pos + 1 + n) / value_size + mid_array + 1 ≤ bits.words.length ∨ n = 0 := by
        left
        have : pos + 1 + n = pos + (n + 1) := by omega
        rw [this]; exact hlen'
      have := ih (pos + 1) st1 (by omega) hlen2
      unfold lag_fold at this
      exact this

/-! ## The sweep as a fold over the lags -/

/-- On a buffer of at least two storage words and at most `2 ^ 32` bits, and
with `start_pos` at most half the capacity, `auto_correlate` hands every lag of `[start_pos, size / 2)`, in
increasing order, the Hamming distance over the compared overlap. -/
theorem auto_correlate_eq {σ : Type} (bits : bitstream) (hbd : bits.bounded)
    (start_pos : Nat) (f : Nat → Nat → σ → Option σ) (st : σ)
    (hsize : bits.size ≤ 2 ^ 32) (hA : 2 ≤ bits.size / value_size)
    (hlen : bits.size / value_size ≤ bits.words.length)
    (hsp : start_pos ≤ bits.size / 2) :
    auto_correlate bits start_pos f st
      = lag_fold bits (compared bits.size) f
          (List.range' start_pos (bits.size / 2 - start_pos)) st := by
  unfold auto_correlate compared
  simp only
  have h1 : (bits.size / value_size / 2 + size_t_range - 1) % size_t_range
      = bits.size / value_size / 2 - 1 := by
    unfold value_size size_t_range at *; omega
  have h2 : (bits.size / 2 + size_t_range - start_pos) % size_t_range
      = bits.size / 2 - start_pos := by
    unfold size_t_range at *; omega
  rw [h1, h2]
  apply sweep_eq bits hbd
  · unfold value_size int_max at *; omega
  · unfold size_t_range at *; omega
  · left
    unfold value_size at *; omega

theorem on_lag_some (pos count : Nat) (i : info) (h : pos < i.correlation.length) :
    ∃ i', bacf.on_lag pos count i = some i' ∧
      i'.correlation = i.correlation.set pos (count % uint16_range) ∧
      i'.max_count = max i.max_count (count % uint16_range) ∧
      ((count % uint16_range < i.min_count ∧ i'.min_count = count % uint16_range ∧
          i'.estimated_index = pos) ∨
        (i.min_count ≤ count % uint16_range ∧ i'.min_count = i.min_count ∧
          i'.estimated_index = i.estimated_index)) := by
  unfold bacf.on_lag
  simp only [if_pos h]
  by_cases hc : count % uint16_range < i.min_count
  · rw [if_pos hc]
    exact ⟨_, rfl, rfl, rfl, Or.inl ⟨hc, rfl, rfl⟩⟩
  · rw [if_neg hc]
    exact ⟨_, rfl, rfl, rfl, Or.inr ⟨Nat.le_of_not_lt hc, rfl, rfl⟩⟩

theorem swept_zero (g : Nat → Nat) (s : Nat) (i : info) : swept g s 0 i i := by
  refine ⟨rfl, ?_, ?_, le_refl _, ?_, Or.inl rfl, ?_, Or.inl ⟨rfl, rfl⟩⟩
  · intro L h1 h2; omega
  · intro L _; rfl
  · intro L h1 h2; omega
  · intro L h1 h2; omega

theorem swept_step (c : Nat → Nat) (s n : Nat) (i i1 i2 : info)
    (h : swept (fun L => c L % uint16_range) s n i i1)
    (hlen : s + n < i.correlation.length)
    (hstep : bacf.on_lag (s + n) (c (s + n)) i1 = some i2) :
    swept (fun L => c L % uint16_range) s (n + 1) i i2 := by
  obtain ⟨hl, hw, hk, hmax0, hmax, hmaxw, hmin, hest⟩ := h
  obtain ⟨i', e, hcorr, hmx, hmn⟩ := on_lag_some (s + n) (c (s + n)) i1 (by omega)
  rw [hstep] at e
  cases e
  refine ⟨?_, ?_, ?_, ?_, ?_, ?_, ?_, ?_⟩
  · rw [hcorr, List.length_set, hl]
  · intro L h1 h2
    rw [hcorr, List.getElem?_set]
    by_cases hL : s + n = L
    · subst hL
      simp [show s + n < i1.correlation.length by omega]
    · rw [if_neg hL]
      exact hw L h1 (by omega)
  · intro L hL
    rw [hcorr, List.getElem?_set, if_neg (by omega)]
    exact hk L (by omega)
  · rw [hmx]; exact le_trans hmax0 (le_max_left _ _)
  · intro L h1 h2
    rw [hmx]
    by_cases hL : L = s + n
    · subst hL; exact le_max_right _ _
    · exact le_trans (hmax L h1 (by omega)) (le_max_left _ _)
  · rw [hmx]
    rcases le_total i1.max_count (c (s + n) % uint16_range) with hle | hle
    · right
      exact ⟨s + n, by omega, by omega, max_eq_right hle⟩
    · rw [max_eq_left hle]
      rcases hmaxw with h0 | ⟨L, h1, h2, h3⟩
      · exact Or.inl h0
      · exact Or.inr ⟨L, h1, by omega, h3⟩
  · intro L h1 h2
    rcases hmn with ⟨hlt, hm, _⟩ | ⟨hge, hm, _⟩
    · rw [hm]
      by_cases hL : L = s + n
      · subst hL; exact le_refl _
      · exact le_trans (le_of_lt hlt) (hmin L h1 (by omega))
    · rw [hm]
      by_cases hL : L = s + n
      · subst hL; exact hge
      · exact hmin L h1 (by omega)
  · rcases hmn with ⟨hlt, hm, he⟩ | ⟨hge, hm, he⟩
    · right
      refine ⟨by omega, by omega, by rw [he, hm], ?_, ?_⟩
      · rw [hm]
        rcases hest with ⟨h0, _⟩ | ⟨_, _, _, h0, _⟩
        · omega
        · omega
      · intro L h1 h2
        rw [hm]
        rw [he] at h2
        exact lt_of_lt_of_le hlt (hmin L h1 h2)
    · rw [hm, he]
      rcases hest with h0 | ⟨h1, h2, h3, h4, h5⟩
      · exact Or.inl h0
      · exact Or.inr ⟨h1, by omega, h3, h4, h5⟩

/-- Folding the callback over the lags `[s, s + n)` succeeds when they are
inside the correlogram, and yields a swept record. -/
theorem fold_on_lag_swept (c : Nat → Nat) (s : Nat) (i : info) :
    ∀ n, s + n ≤ i.correlation.length →
      ∃ i', fold_on_lag c (List.range' s n) i = some i' ∧
        swept (fun L => c L % uint16_range) s n i i' := by
  intro n
  induction n with
  | zero =>
    intro _
    exact ⟨i, by simp [fold_on_lag], swept_zero _ s i⟩
  | succ n ih =>
    intro h
    obtain ⟨i1, e1, h1⟩ := ih (by omega)
    have hl : s + n < i1.correlation.length := by rw [h1.1]; omega
    obtain ⟨i2, e2, _⟩ := on_lag_some (s + n) (c (s + n)) i1 hl
    refine ⟨i2, ?_, swept_step c s n i i1 i2 h1 (by omega) e2⟩
    unfold fold_on_lag at *
    rw [List.range'_concat, List.foldlM_append, e1]
    simp [e2]

/-! ## Storing a bit -/

theorem set_size (bits : bitstream) (i : Nat) (v : Bool) :
    (bits.set i v).size = bits.size := rfl

theorem set_length (bits : bitstream) (i : Nat) (v : Bool) :
    (bits.set i v).words.length = bits.words.length := by
  unfold bitstream.set
  simp

theorem getD_lt_of_bounded {bits : bitstream} (hbd : bits.bounded) (i : Nat) :
    bits.words.getD i 0 < 2 ^ value_size := by
  rw [List.getD_eq_getElem?_getD]
  cases h : bits.words[i]? with
  | none => simp
  | some a => exact hbd a (List.mem_iff_getElem?.mpr ⟨i, h⟩)

theorem set_bounded {bits : bitstream} (hbd : bits.bounded) (i : Nat) (v : Bool) :
    (bits.set i v).bounded := by
  intro w hw
  unfold bitstream.set at hw
  simp only at hw
  rcases List.mem_or_eq_of_mem_set hw with h | h
  · exact hbd w h
  · have hlt := getD_lt_of_bounded hbd (i / value_size)
    have hm : 2 ^ (i % value_size) < 2 ^ value_size :=
      Nat.pow_lt_pow_right (by norm_num) (Nat.mod_lt _ (by decide))
    rw [h]
    split
    · exact Nat.or_lt_two_pow hlt hm
    · exact Nat.xor_lt_two_pow hlt (Nat.and_lt_two_pow _ hm)

/-- Reading back after `set`: position `i` holds the stored bit, every other
position is untouched. -/
theorem get_set {bits : bitstream} {i : Nat} (hi : i / value_size < bits.words.length)
    (v : Bool) (j : Nat) :
    (bits.set i v).get j = if j = i then v else bits.get j := by
  unfold bitstream.set bitstream.get
  simp only [List.getD_eq_getElem?_getD, List.getElem?_set]
  by_cases hw : i / value_size = j / value_size
  · rw [if_pos hw, if_pos hi, ← hw]
    simp only [Option.getD_some]
    by_cases hj : j = i
    · subst hj
      cases v <;> simp [Nat.testBit_or, Nat.testBit_xor, Nat.testBit_and, Nat.testBit_two_pow]
    · have hm : ¬ (i % value_size = j % value_size) := by
        intro hm
        apply hj
        rw [← Nat.div_add_mod j value_size, ← Nat.div_add_mod i value_size, hw, hm]
      rw [if_neg hj]
      cases v <;>
        simp [Nat.testBit_or, Nat.testBit_xor, Nat.testBit_and, Nat.testBit_two_pow, hm]
  · rw [if_neg hw]
    have hj : ¬ (j = i) := by
      intro hj; apply hw; rw [hj]
    rw [if_neg hj]

/-! ## One call of `operator()` -/

theorem push_discard (b : bacf) (h : b._count = 0) : b.push true = some (b, false) := by
  unfold bacf.push
  simp [h]

theorem push_store (b : bacf) (s : Bool) (h : ¬ (b._count = 0 ∧ s = true))
    (hne : b._count + 1 ≠ b._size) :
    b.push s = some ({ b with
      _bits := b._bits.set b._count s
      _info := if s = true ∧ b._count ≠ b._size then { b._info with max_count := 123 }
               else b._info
      _count := b._count + 1 }, false) := by
  unfold bacf.push
  simp only [if_neg h, if_neg hne]

theorem push_full (b : bacf) (s : Bool) (h : ¬ (b._count = 0 ∧ s = true))
    (he : b._count + 1 = b._size) :
    b.push s =
      match auto_correlate (b._bits.set b._count s) b._min_period bacf.on_lag
          { correlation := b._info.correlation, max_count := 0
            min_count := uint16_range - 1, estimated_index := 0 } with
      | none => none
      | some info3 =>
        some ({ b with _bits := b._bits.set b._count s, _info := info3, _count := 0
                       _offset := 0 }, true) := by
  unfold bacf.push
  simp only [if_neg h, if_pos he]
  have hc : (if s = true ∧ b._count ≠ b._size then
      ({ b._info with max_count := 123 } : info) else b._info).correlation
        = b._info.correlation := by
    split <;> rfl
  rw [hc]

/-- A call that returns ready is a call that stores the bit completing the
window. -/
theorem push_ready_inv {b b' : bacf} {s : Bool} (h : b.push s = some (b', true)) :
    ¬ (b._count = 0 ∧ s = true) ∧ b._count + 1 = b._size := by
  by_cases h1 : b._count = 0 ∧ s = true
  · obtain ⟨h0, hs⟩ := h1
    subst hs
    rw [push_discard b h0] at h
    simp at h
  · refine ⟨h1, ?_⟩
    by_contra hne
    rw [push_store b s h1 hne] at h
    simp at h

/-- The members other than `_info` after a call that returns ready. -/
theorem push_ready_fields {b b' : bacf} {s : Bool} (h : b.push s = some (b', true)) :
    b'._bits = b._bits.set b._count s ∧ b'._size = b._size ∧
      b'._min_period = b._min_period ∧ b'._count = 0 ∧ b'._offset = 0 := by
  obtain ⟨hs, he⟩ := push_ready_inv h
  rw [push_full b s hs he] at h
  split at h
  · simp at h
  · simp only [Option.some.injEq, Prod.mk.injEq, and_true] at h
    rw [← h]
    exact ⟨rfl, rfl, rfl, rfl, rfl⟩

/-! ## A degenerate window -/

theorem correlate_aligned_none (bits : bitstream) :
    ∀ (n i p1 p2 c : Nat), p1 ≤ bits.words.length → bits.words.length < p1 + n →
      correlate_aligned bits n i p1 p2 c = none := by
  intro n
  induction n with
  | zero => intro i p1 p2 c h1 h2; omega
  | succ n ih =>
    intro i p1 p2 c h1 h2
    rw [correlate_aligned]
    by_cases hp : p1 < bits.words.length
    · obtain ⟨a, ea⟩ := data_some hp
      rw [ea]
      cases eb : bits.data p2 with
      | none => rfl
      | some b =>
        simp only
        split
        · exact ih (i + 1) (p1 + 1) (p2 + 1) _ (by omega) (by omega)
        · rfl
    · have ea : bits.data p1 = none := by
        unfold bitstream.data
        exact List.getElem?_eq_none (by omega)
      rw [ea]

theorem correlate_shifted_none (bits : bitstream) (shift : Nat) :
    ∀ (n i p1 p2 c : Nat), p1 ≤ bits.words.length → bits.words.length < p1 + n →
      correlate_shifted bits shift n i p1 p2 c = none := by
  intro n
  induction n with
  | zero => intro i p1 p2 c h1 h2; omega
  | succ n ih =>
    intro i p1 p2 c h1 h2
    rw [correlate_shifted]
    by_cases hp : p1 < bits.words.length
    · obtain ⟨a, ea⟩ := data_some hp
      rw [ea]
      cases eb : bits.data p2 with
      | none => rfl
      | some w =>
        cases ec : bits.data (p2 + 1) with
        | none => rfl
        | some w' =>
          simp only
          split
          · exact ih (i + 1) (p1 + 1) (p2 + 1) _ (by omega) (by omega)
          · rfl
    · have ea : bits.data p1 = none := by
        unfold bitstream.data
        exact List.getElem?_eq_none (by omega)
      rw [ea]
      cases bits.data p2 <;> cases bits.data (p2 + 1) <;> rfl

/-- With fewer than two storage words `mid_array` wraps around, and the first
lag visited reads past the end of the buffer. -/
theorem auto_correlate_degenerate {σ : Type} (bits : bitstream) (start_pos : Nat)
    (f : Nat → Nat → σ → Option σ) (st : σ)
    (hsize : bits.size < size_t_range) (hA : bits.size / value_size / 2 = 0)
    (hlen : bits.words.length + 1 < size_t_range) (hsp : start_pos < bits.size / 2) :
    auto_correlate bits start_pos f st = none := by
  unfold auto_correlate
  simp only
  have h1 : (bits.size / value_size / 2 + size_t_range - 1) % size_t_range
      = size_t_range - 1 := by
    rw [hA]; unfold size_t_range; omega
  have h2 : (bits.size / 2 + size_t_range - start_pos) % size_t_range
      = (bits.size / 2 - start_pos - 1) + 1 := by
    unfold size_t_range at *; omega
  rw [h1, h2, sweep]
  have hin : (if start_pos % value_size = 0 then
        correlate_aligned bits (size_t_range - 1) 0 0 (start_pos / value_size) 0
      else correlate_shifted bits (start_pos % value_size) (size_t_range - 1) 0 0
        (start_pos / value_size) 0) = none := by
    split
    · exact correlate_aligned_none bits _ 0 0 _ 0 (by omega) (by omega)
    · exact correlate_shifted_none bits _ _ 0 0 _ 0 (by omega) (by omega)
  simp only [hin]

/-! ## The call that completes a window -/

theorem wf_words_lt {b : bacf} (hwf : b.wf) : b._bits.words.length + 1 < size_t_range := by
  obtain ⟨_, h2, _, _, h5, _, _, _⟩ := hwf
  unfold size_t_range value_size at *
  omega

/-- On a well-formed engine of at least 64 and at most `2 ^ 32` bits whose
`_min_period` is at most half the capacity, the call that stores the last bit
of the window returns ready, with the record swept over
`[_min_period, _size / 2)`. -/
theorem push_sweep (b : bacf) (s : Bool) (hwf : b.wf) (h64 : 64 ≤ b._size)
    (hint : b._size ≤ 2 ^ 32)
    (hmp : b._min_period ≤ b._size / 2) (hs : ¬ (b._count = 0 ∧ s = true))
    (he : b._count + 1 = b._size) :
    ∃ b', b.push s = some (b', true) ∧ b'._bits = b._bits.set b._count s ∧
      b'._size = b._size ∧ b'._min_period = b._min_period ∧ b'._count = 0 ∧
      swept (fun L => hamming b'._bits (compared b._size) L % uint16_range)
        b._min_period (b._size / 2 - b._min_period)
        { correlation := b._info.correlation, max_count := 0
          min_count := uint16_range - 1, estimated_index := 0 } b'._info := by
  obtain ⟨h1, h2, h3, h4, h5, h6, h7, _⟩ := hwf
  have hsz : (b._bits.set b._count s).size = b._size := by rw [set_size, h1]
  have e := auto_correlate_eq (b._bits.set b._count s) (set_bounded h4 _ _) b._min_period
    bacf.on_lag { correlation := b._info.correlation, max_count := 0
                  min_count := uint16_range - 1, estimated_index := 0 }
    (by rw [hsz]; exact hint)
    (by rw [hsz]; unfold value_size; omega)
    (by rw [hsz, set_length, ← h5]; unfold value_size; omega)
    (by rw [hsz]; exact hmp)
  rw [hsz] at e
  obtain ⟨i', e', hsw⟩ := fold_on_lag_swept
    (fun L => hamming (b._bits.set b._count s) (compared b._size) L) b._min_period
    { correlation := b._info.correlation, max_count := 0
      min_count := uint16_range - 1, estimated_index := 0 }
    (b._size / 2 - b._min_period) (by simp only; omega)
  unfold fold_on_lag at e'
  unfold lag_fold at e
  rw [e'] at e
  refine ⟨{ b with _bits := b._bits.set b._count s, _info := i', _count := 0,
                    _offset := 0 }, ?_, ?_⟩
  · rw [push_full b s hs he, e]
  · exact ⟨rfl, rfl, rfl, rfl, hsw⟩

/-- A well-formed engine that returns ready with a non-empty lag range has at
least 64 bits. -/
theorem ready_size {b b' : bacf} {s : Bool} (hwf : b.wf)
    (h : b.push s = some (b', true)) (hne : b._min_period < b._size / 2) :
    64 ≤ b._size := by
  by_contra hlt
  obtain ⟨hs, he⟩ := push_ready_inv h
  have hl := wf_words_lt hwf
  obtain ⟨h1, h2, h3, h4, h5, h6, h7, _⟩ := hwf
  have hsz : (b._bits.set b._count s).size = b._size := by rw [set_size, h1]
  have e := auto_correlate_degenerate (b._bits.set b._count s) b._min_period bacf.on_lag
    { correlation := b._info.correlation, max_count := 0
      min_count := uint16_range - 1, estimated_index := 0 }
    (by rw [hsz]; exact h2)
    (by rw [hsz]; unfold value_size; omega)
    (by rw [set_length]; exact hl)
    (by rw [hsz]; exact hne)
  rw [push_full b s hs he, e] at h
  simp at h

/-- The state after a ready call, for a well-formed engine of at most `2 ^ 32`
bits with a non-empty lag range. -/
theorem ready_swept {b b' : bacf} {s : Bool} (hwf : b.wf) (hint : b._size ≤ 2 ^ 32)
    (h : b.push s = some (b', true)) (hne : b._min_period < b._size / 2) :
    b'._bits = b._bits.set b._count s ∧ b'._size = b._size ∧
      b'._min_period = b._min_period ∧ b'._count = 0 ∧
      swept (fun L => hamming b'._bits (compared b._size) L % uint16_range)
        b._min_period (b._size / 2 - b._min_period)
        { correlation := b._info.correlation, max_count := 0
          min_count := uint16_range - 1, estimated_index := 0 } b'._info := by
  obtain ⟨hs, he⟩ := push_ready_inv h
  obtain ⟨b1, e1, hrest⟩ := push_sweep b s hwf (ready_size hwf h hne) hint (le_of_lt hne) hs he
  rw [e1] at h
  cases h
  exact hrest

/-! ## C1: the count of a lag is a Hamming distance -/

theorem lag_fold_record (bits : bitstream) (len : Nat) (lags : List Nat) :
    ∀ log, lag_fold bits len record lags log
      = some (log ++ lags.map (fun L => (L, hamming bits len L))) := by
  induction lags with
  | nil => intro log; simp [lag_fold]
  | cons L rest ih =>
    intro log
    have h := ih (log ++ [(L, hamming bits len L)])
    unfold lag_fold at *
    rw [List.foldlM_cons]
    have e : record L (hamming bits len L) log = some (log ++ [(L, hamming bits len L)]) := rfl
    simp only [e, Option.some_bind, Option.bind_eq_bind]
    rw [h]
    simp

theorem compared_of_dvd {n : Nat} (h : n % (2 * value_size) = 0) (h2 : 2 * value_size ≤ n) :
    compared n = n / 2 - value_size := by
  unfold compared value_size at *
  omega

/-- C1 (as amended): for a window whose capacity `N` is a multiple of two
storage words (`2 * 32` bits) and at most `2 ^ 32`, so that the `int` sum of a
lag cannot overflow, and every start lag `mp ≤ N / 2`, the counts that
`auto_correlate` reports for the lags of `[mp, N / 2)` are the Hamming distances
between the window and itself shifted by the lag over the positions
`[0, N / 2 - 32)`, on the aligned and on the shifted path alike; the entry that
a completed window stores in `correlation[L]` is that distance reduced modulo
`2 ^ 16`, hence the distance itself when `N ≤ 2 ^ 17`. -/
theorem C1_count_is_hamming (bits : bitstream) (mp : Nat) (hbd : bits.bounded)
    (hlen : bits.size / value_size ≤ bits.words.length)
    (hmul : bits.size % (2 * value_size) = 0) (h2w : 2 * value_size ≤ bits.size)
    (hsz : bits.size ≤ 2 ^ 32) (hmp : mp ≤ bits.size / 2) :
    auto_correlate bits mp record []
        = some ((List.range' mp (bits.size / 2 - mp)).map
            (fun L => (L, hamming bits (bits.size / 2 - value_size) L))) ∧
      ∀ (b b' : bacf) (s : Bool), b.wf → b._min_period = mp →
        b.push s = some (b', true) → b'._bits = bits →
        ∀ L, mp ≤ L → L < bits.size / 2 →
          b'._info.correlation[L]?
              = some (hamming bits (bits.size / 2 - value_size) L % uint16_range) ∧
            (bits.size ≤ 2 ^ 17 →
              b'._info.correlation[L]?
                = some (hamming bits (bits.size / 2 - value_size) L)) := by
  have hA : 2 ≤ bits.size / value_size := by unfold value_size at *; omega
  constructor
  · rw [auto_correlate_eq bits hbd mp record [] hsz hA hlen hmp, lag_fold_record,
      compared_of_dvd hmul h2w]
    simp
  · intro b b' s hwf hmpe hr hbits L hL1 hL2
    have hsize : b._size = bits.size := by
      rw [hwf.1, ← hbits, (push_ready_fields hr).1, set_size]
    have hne : b._min_period < b._size / 2 := by omega
    obtain ⟨hb, _, _, _, hsw⟩ := ready_swept hwf (by omega) hr hne
    obtain ⟨_, hw, _⟩ := hsw
    have hentry := hw L (by omega) (by omega)
    simp only at hentry
    rw [hbits, hsize, compared_of_dvd hmul h2w] at hentry
    refine ⟨hentry, ?_⟩
    intro hN
    rw [hentry]
    have hle := hamming_from_le bits 0 (bits.size / 2 - value_size) L
    rw [← hamming_eq_from] at hle
    have : hamming bits (bits.size / 2 - value_size) L < uint16_range := by
      unfold uint16_range value_size at *
      omega
    rw [Nat.mod_eq_of_lt this]

theorem engine128_last_wf : engine128_last.wf := by
  unfold bacf.wf bitstream.bounded
  exact ⟨by decide, by decide, by decide, by decide, by decide, by decide, by decide, 7, by decide⟩

set_option maxRecDepth 100000 in
theorem engine128_last_push : engine128_last.push true = some (engine128_done, true) := by
  decide

/-- Witness of `C1_count_is_hamming`: the window `window128` swept from lag 8,
and the entry stored for lag 61 by the engine `engine128_last`. -/
theorem C1_count_is_hamming_witness :
    auto_correlate window128 8 record []
        = some ((List.range' 8 (window128.size / 2 - 8)).map
            (fun L => (L, hamming window128 (window128.size / 2 - value_size) L))) ∧
      engine128_done._info.correlation[61]?
        = some (hamming window128 (window128.size / 2 - value_size) 61) :=
  have h := C1_count_is_hamming window128 8
    (by unfold bitstream.bounded; decide) (by decide) (by decide) (by decide) (by decide)
    (by decide)
  ⟨h.1, ((h.2 engine128_last engine128_done true engine128_last_wf (by decide)
    engine128_last_push (by decide) 61 (by decide) (by decide)).2 (by decide))⟩

/-! ## C2: extrema of the correlogram -/

theorem hamming_mod_lt (bits : bitstream) (n L : Nat) (hN : n ≤ 2 ^ 17) :
    hamming bits (compared n) L % uint16_range < uint16_range - 1 := by
  have hle := hamming_from_le bits 0 (compared n) L
  rw [← hamming_eq_from] at hle
  have hc : compared n ≤ 65504 := by unfold compared value_size; omega
  have : hamming bits (compared n) L % uint16_range ≤ hamming bits (compared n) L :=
    Nat.mod_le _ _
  unfold uint16_range
  omega

/-- After a sweep over a non-empty lag range whose entries all stay below the
initial `min_count`, the estimate is the first lag attaining the minimum. -/
theorem swept_argmin {g : Nat → Nat} {s n : Nat} {i i' : info} (h : swept g s n i i')
    (hn : 0 < n) (hlt : g s < i.min_count) :
    s ≤ i'.estimated_index ∧ i'.estimated_index < s + n ∧
      g i'.estimated_index = i'.min_count ∧
      ∀ L, s ≤ L → L < i'.estimated_index → i'.min_count < g L := by
  obtain ⟨_, _, _, _, _, _, hmin, hest⟩ := h
  rcases hest with ⟨h0, _⟩ | ⟨h1, h2, h3, _, h5⟩
  · have := hmin s (le_refl _) (by omega)
    omega
  · exact ⟨h1, h2, h3, h5⟩

theorem swept_argmax {g : Nat → Nat} {s n : Nat} {i i' : info} (h : swept g s n i i')
    (hn : 0 < n) (h0 : i.max_count = 0) :
    ∃ L, s ≤ L ∧ L < s + n ∧ i'.max_count = g L := by
  obtain ⟨_, _, _, _, hmax, hmaxw, _, _⟩ := h
  rcases hmaxw with hz | hex
  · refine ⟨s, le_refl _, by omega, ?_⟩
    have := hmax s (le_refl _) (by omega)
    omega
  · exact hex

/-- C2: after every push that returns ready, with a non-empty lag range
`[min_period, N / 2)` and `N ≤ 2 ^ 17`, every correlogram entry of the range
lies between `min_count` and `max_count`, `max_count` is attained in the range,
and `estimated_index` is the smallest lag of the range whose entry equals
`min_count`. -/
theorem C2_extrema (b b' : bacf) (s : Bool) (hwf : b.wf)
    (hr : b.push s = some (b', true)) (hne : b._min_period < b._size / 2)
    (hN : b._size ≤ 2 ^ 17) :
    (∀ L, b._min_period ≤ L → L < b._size / 2 →
        ∃ c, b'.result.correlation[L]? = some c ∧
          b'.result.min_count ≤ c ∧ c ≤ b'.result.max_count) ∧
      (∃ L, b._min_period ≤ L ∧ L < b._size / 2 ∧
        b'.result.correlation[L]? = some b'.result.max_count) ∧
      (b._min_period ≤ b'.result.estimated_index ∧
        b'.result.estimated_index < b._size / 2 ∧
        b'.result.correlation[b'.result.estimated_index]? = some b'.result.min_count ∧
        ∀ L, b._min_period ≤ L → L < b'.result.estimated_index →
          ∀ c, b'.result.correlation[L]? = some c → b'.result.min_count < c) := by
  obtain ⟨_, _, _, _, hsw⟩ := ready_swept hwf (by omega) hr hne
  have hpos : 0 < b._size / 2 - b._min_period := by omega
  have hend : b._min_period + (b._size / 2 - b._min_period) = b._size / 2 := by omega
  have ham := swept_argmin hsw hpos (hamming_mod_lt _ _ _ hN)
  have hax := swept_argmax hsw hpos rfl
  obtain ⟨_, hw, _, _, hmax, _, hmin, _⟩ := hsw
  rw [hend] at hw hmax hmin ham hax
  unfold bacf.result
  refine ⟨?_, ?_, ?_⟩
  · intro L h1 h2
    exact ⟨_, hw L h1 h2, hmin L h1 h2, hmax L h1 h2⟩
  · obtain ⟨L, h1, h2, h3⟩ := hax
    exact ⟨L, h1, h2, (hw L h1 h2).trans (congrArg some h3.symm)⟩
  · obtain ⟨h1, h2, h3, h4⟩ := ham
    refine ⟨h1, h2, (hw _ h1 h2).trans (congrArg some h3), ?_⟩
    intro L hL1 hL2 c hc
    have hc' := (hw L hL1 (by omega)).symm.trans hc
    cases hc'
    exact h4 L hL1 hL2

/-- Witness of `C2_extrema`: the window completed by `engine128_last`. -/
theorem C2_extrema_witness :
    (∀ L, engine128_last._min_period ≤ L → L < engine128_last._size / 2 →
        ∃ c, engine128_done.result.correlation[L]? = some c ∧
          engine128_done.result.min_count ≤ c ∧ c ≤ engine128_done.result.max_count) ∧
      (∃ L, engine128_last._min_period ≤ L ∧ L < engine128_last._size / 2 ∧
        engine128_done.result.correlation[L]? = some engine128_done.result.max_count) ∧
      (engine128_last._min_period ≤ engine128_done.result.estimated_index ∧
        engine128_done.result.estimated_index < engine128_last._size / 2 ∧
        engine128_done.result.correlation[engine128_done.result.estimated_index]?
          = some engine128_done.result.min_count ∧
        ∀ L, engine128_last._min_period ≤ L → L < engine128_done.result.estimated_index →
          ∀ c, engine128_done.result.correlation[L]? = some c →
            engine128_done.result.min_count < c) :=
  C2_extrema engine128_last engine128_done true engine128_last_wf engine128_last_push
    (by decide) (by decide)

/-! ## C3: a periodic window -/

theorem periodic_mod {w : Nat → Bool} {n p : Nat} (h : periodic w n p) (hp : 0 < p) :
    ∀ x, x < n → w x = w (x % p) := by
  intro x
  induction x using Nat.strong_induction_on with
  | _ x ih =>
    intro hx
    by_cases hlt : x < p
    · rw [Nat.mod_eq_of_lt hlt]
    · have h1 : x - p + p = x := by omega
      have h2 := h (x - p) (by omega) (by omega)
      rw [h1] at h2
      rw [← h2, ih (x - p) (by omega) (by omega)]
      congr 1
      conv_rhs => rw [← h1]
      exact (Nat.add_mod_right _ _).symm

theorem periodic_restrict {w : Nat → Bool} {n m p : Nat} (h : periodic w n p) (hm : m ≤ n) :
    periodic w m p := by
  intro j hj hjp
  exact h j (by omega) (by omega)

/-- One step of Euclid's algorithm on periods: with periods `p` and `q < p` on
`[0, n)`, the prefix `[0, n - q)` has period `p - q`. -/
theorem periodic_sub {w : Nat → Bool} {n p q : Nat} (hp : periodic w n p)
    (hq : periodic w n q) (hqp : q < p) : periodic w (n - q) (p - q) := by
  intro j hj hjp
  have h1 := hp j (by omega) (by omega)
  have h2 := hq (j + (p - q)) (by omega) (by omega)
  have e : j + (p - q) + q = j + p := by omega
  rw [e] at h2
  rw [h1, h2]

/-- A period `g` of the prefix `[0, n - q)` extends to `[0, n)` when `q` is a
period of `[0, n)` and the prefix is long enough. -/
theorem periodic_extend {w : Nat → Bool} {n q g : Nat} (hq : periodic w n q)
    (hg : periodic w (n - q) g) (hlen : q + g + q ≤ n) : periodic w n g := by
  intro j hj hjg
  by_cases hin : j + g < n - q
  · exact hg j (by omega) hin
  · have h1 := hq (j - q) (by omega) (by omega)
    have h2 := hq (j + g - q) (by omega) (by omega)
    have h3 := hg (j - q) (by omega) (by omega)
    have e1 : j - q + q = j := by omega
    have e2 : j + g - q + q = j + g := by omega
    have e3 : j - q + g = j + g - q := by omega
    rw [e1] at h1
    rw [e2] at h2
    rw [e3] at h3
    rw [← h1, ← h2, h3]

/-- The periodicity lemma of Fine and Wilf, in its weak form: a pattern of
length at least `p + q` with periods `p` and `q` has period `gcd p q`. -/
theorem fine_wilf (w : Nat → Bool) :
    ∀ k p q n, p + q ≤ k → 0 < p → 0 < q → p + q ≤ n →
      periodic w n p → periodic w n q → periodic w n (Nat.gcd p q) := by
  intro k
  induction k with
  | zero => intro p q n h hp; omega
  | succ k ih =>
    intro p q n hk hp hq hn hpp hpq
    rcases Nat.lt_trichotomy p q with hlt | heq | hgt
    · have hg : Nat.gcd p (q - p) = Nat.gcd p q := by
        rw [Nat.gcd_comm p (q - p), Nat.gcd_comm p q]
        exact Nat.gcd_sub_self_left (le_of_lt hlt)
      have hle : Nat.gcd p q ≤ q - p := by
        rw [← hg]
        exact Nat.gcd_le_right _ (by omega)
      have h1 := ih p (q - p) (n - p) (by omega) hp (by omega) (by omega)
        (periodic_restrict hpp (by omega)) (periodic_sub hpq hpp hlt)
      rw [hg] at h1
      exact periodic_extend hpp h1 (by omega)
    · subst heq
      rw [Nat.gcd_self]
      exact hpp
    · have hg : Nat.gcd (p - q) q = Nat.gcd p q := Nat.gcd_sub_self_left (le_of_lt hgt)
      have hle : Nat.gcd p q ≤ p - q := by
        rw [← hg]
        exact Nat.gcd_le_left _ (by omega)
      have h1 := ih (p - q) q (n - q) (by omega) (by omega) hq (by omega)
        (periodic_sub hpp hpq hgt) (periodic_restrict hpq (by omega))
      rw [hg] at h1
      exact periodic_extend hpq h1 (by omega)

/-- A period `g` of a prefix that covers one full period `p`, with `g ∣ p`, is a
period of the whole pattern. -/
theorem periodic_of_head {w : Nat → Bool} {n m p g : Nat} (hp : periodic w n p)
    (hg : periodic w m g) (hdvd : g ∣ p) (hg0 : 0 < g) (hp0 : 0 < p) (hpm : p ≤ m) :
    periodic w n g := by
  have key : ∀ x, x < n → w x = w (x % g) := by
    intro x hx
    rw [periodic_mod hp hp0 x hx,
      periodic_mod hg hg0 (x % p) (lt_of_lt_of_le (Nat.mod_lt _ hp0) hpm),
      Nat.mod_mod_of_dvd _ hdvd]
  intro j hj hjg
  rw [key j hj, key (j + g) hjg, Nat.add_mod_right]

theorem hamming_eq_zero_iff (bits : bitstream) (len lag : Nat) :
    hamming bits len lag = 0 ↔ ∀ j, j < len → bits.get j = bits.get (j + lag) := by
  unfold hamming
  rw [List.countP_eq_zero]
  constructor
  · intro h j hj
    have := h j (List.mem_range.mpr hj)
    simpa using this
  · intro h j hj
    have := h j (List.mem_range.mp hj)
    simp [this]

theorem pow2_mod_64 {n k : Nat} (h : n = 2 ^ k) (h64 : 64 ≤ n) : n % (2 * value_size) = 0 := by
  have hk : 6 ≤ k := by
    by_contra hlt
    have : 2 ^ k ≤ 2 ^ 5 := Nat.pow_le_pow_right (by norm_num) (by omega)
    omega
  have e : n = 2 ^ 6 * 2 ^ (k - 6) := by
    rw [h, ← Nat.pow_add]
    congr 1
    omega
  unfold value_size
  rw [e]
  exact Nat.mul_mod_right _ _

/-- C3 (as amended): for every completed analysis window of `N ≤ 2 ^ 17` bits
that is periodic with least period `P`, where `1 ≤ min_period ≤ P` and
`P ≤ N / 2 - 32` (one full period fits in the compared overlap), the sweep
result has `min_count == 0` and `estimated_index == P`. -/
theorem C3_periodic_window (b b' : bacf) (s : Bool) (P : Nat) (hwf : b.wf)
    (hr : b.push s = some (b', true))
    (hper : periodic b'._bits.get b._size P) (hP : 0 < P)
    (hleast : ∀ Q, 0 < Q → Q < P → ¬ periodic b'._bits.get b._size Q)
    (hmp1 : 1 ≤ b._min_period) (hmp : b._min_period ≤ P)
    (hfit : P ≤ b._size / 2 - value_size) (hN : b._size ≤ 2 ^ 17) :
    b'.result.min_count = 0 ∧ b'.result.estimated_index = P := by
  have hne : b._min_period < b._size / 2 := by unfold value_size at hfit; omega
  have h64 := ready_size hwf hr hne
  obtain ⟨k, hk⟩ := hwf.2.2.2.2.2.2.2
  have hcmp := compared_of_dvd (pow2_mod_64 hk h64) (by unfold value_size; omega)
  obtain ⟨_, _, _, _, hsw⟩ := ready_swept hwf (by omega) hr hne
  have hpos : 0 < b._size / 2 - b._min_period := by omega
  have hend : b._min_period + (b._size / 2 - b._min_period) = b._size / 2 := by omega
  obtain ⟨he1, he2, he3, he4⟩ := swept_argmin hsw hpos (hamming_mod_lt _ _ _ hN)
  have hmin := hsw.2.2.2.2.2.2.1
  clear hsw
  rw [hend] at hmin he2
  simp only at hmin he3 he4
  rw [hcmp] at hmin he3 he4
  -- the lag `P` matches over the compared overlap
  have hzero : hamming b'._bits (b._size / 2 - value_size) P = 0 := by
    rw [hamming_eq_zero_iff]
    intro j hj
    exact hper j (by omega) (by unfold value_size at *; omega)
  have hm0 : b'._info.min_count = 0 := by
    have := hmin P hmp (by unfold value_size at hfit; omega)
    rw [hzero] at this
    simpa using this
  unfold bacf.result
  refine ⟨hm0, ?_⟩
  rcases Nat.lt_trichotomy b'._info.estimated_index P with hlt | heq | hgt
  · -- a shorter matching lag would give the whole window a shorter period
    exfalso
    have hz : hamming b'._bits (b._size / 2 - value_size) b'._info.estimated_index = 0 := by
      have hle := hamming_from_le b'._bits 0 (b._size / 2 - value_size)
        b'._info.estimated_index
      rw [← hamming_eq_from] at hle
      have hlt16 : hamming b'._bits (b._size / 2 - value_size) b'._info.estimated_index
          < uint16_range := by
        unfold uint16_range value_size at *; omega
      rw [Nat.mod_eq_of_lt hlt16, hm0] at he3
      exact he3
    rw [hamming_eq_zero_iff] at hz
    have hL0 : 0 < b'._info.estimated_index := by omega
    have hperL : periodic b'._bits.get (P + b'._info.estimated_index)
        b'._info.estimated_index := by
      intro j _ hj
      exact hz j (by omega)
    have hperP : periodic b'._bits.get (P + b'._info.estimated_index) P :=
      periodic_restrict hper (by unfold value_size at hfit; omega)
    have hg := fine_wilf b'._bits.get _ P b'._info.estimated_index _ (le_refl _) hP hL0
      (le_refl _) hperP hperL
    have hgpos : 0 < Nat.gcd P b'._info.estimated_index := Nat.gcd_pos_of_pos_left _ hP
    have hgle : Nat.gcd P b'._info.estimated_index ≤ b'._info.estimated_index :=
      Nat.gcd_le_right _ hL0
    exact hleast _ hgpos (by omega)
      (periodic_of_head hper hg (Nat.gcd_dvd_left _ _) hgpos hP (by omega))
  · exact heq
  · exfalso
    have := he4 P hmp hgt
    rw [hzero, hm0] at this
    simp at this

theorem engine128_wf : engine128.wf := by
  unfold bacf.wf bitstream.bounded
  exact ⟨by decide, by decide, by decide, by decide, by decide, by decide, by decide, 7, by decide⟩

set_option maxRecDepth 100000 in
theorem engine128_period20_last_wf : engine128_period20_last.wf := by
  unfold bacf.wf bitstream.bounded
  exact ⟨by decide, by decide, by decide, by decide, by decide, by decide, by decide, 7, by decide⟩

set_option maxRecDepth 100000 in
theorem engine128_period20_push :
    engine128_period20_last.push false = some (engine128_period20, true) := by
  decide

set_option maxRecDepth 100000 in
/-- Witness of `C3_periodic_window`: a window of 128 bits with least period 20,
swept from `min_period = 8`. -/
theorem C3_periodic_window_witness :
    engine128_period20.result.min_count = 0 ∧ engine128_period20.result.estimated_index = 20 :=
  C3_periodic_window engine128_period20_last engine128_period20 false 20
    engine128_period20_last_wf engine128_period20_push (by decide) (by decide)
    (by
      intro Q h0 hlt
      interval_cases Q <;> decide)
    (by decide) (by decide) (by decide) (by decide)

/-! ## C4: the fill counter -/

theorem sweep_preserves {σ : Type} (P : σ → Prop) (bits : bitstream) (mid_array : Nat)
    (f : Nat → Nat → σ → Option σ)
    (hf : ∀ pos c st st', P st → f pos c st = some st' → P st') :
    ∀ n pos index shift st st', P st →
      sweep bits mid_array f n pos index shift st = some st' → P st' := by
  intro n
  induction n with
  | zero =>
    intro pos index shift st st' h e
    simp only [sweep, Option.some.injEq] at e
    rw [← e]; exact h
  | succ n ih =>
    intro pos index shift st st' h e
    rw [sweep] at e
    simp only at e
    split at e
    · simp at e
    · split at e
      · simp at e
      · rename_i st1 hst1
        exact ih _ _ _ st1 st' (hf _ _ _ _ h hst1) e

theorem on_lag_length {pos c : Nat} {i i' : info} (h : bacf.on_lag pos c i = some i') :
    i'.correlation.length = i.correlation.length := by
  unfold bacf.on_lag at h
  simp only at h
  split at h
  · split at h <;>
    · simp only [Option.some.injEq] at h
      rw [← h]
      simp
  · simp at h

/-- Every call that returns keeps the invariants, the capacity and the
shortest lag. -/
theorem push_wf {b b' : bacf} {s r : Bool} (hwf : b.wf) (h : b.push s = some (b', r)) :
    b'.wf ∧ b'._size = b._size ∧ b'._min_period = b._min_period := by
  obtain ⟨h1, h2, h3, h4, h5, h6, h7, h8⟩ := hwf
  by_cases hd : b._count = 0 ∧ s = true
  · obtain ⟨h0, hs⟩ := hd
    subst hs
    rw [push_discard b h0] at h
    simp only [Option.some.injEq, Prod.mk.injEq] at h
    rw [← h.1]
    exact ⟨⟨h1, h2, h3, h4, h5, h6, h7, h8⟩, rfl, rfl⟩
  · by_cases he : b._count + 1 = b._size
    · rw [push_full b s hd he] at h
      split at h
      · simp at h
      · rename_i info3 hsw
        simp only [Option.some.injEq, Prod.mk.injEq] at h
        rw [← h.1]
        have hl : info3.correlation.length = b._info.correlation.length := by
          unfold auto_correlate at hsw
          exact sweep_preserves (fun i => i.correlation.length = b._info.correlation.length)
            _ _ _ (fun pos c st st' hst e => (on_lag_length e).trans hst)
            _ _ _ _ _ _ rfl hsw
        refine ⟨⟨?_, h2, h3, ?_, ?_, ?_, ?_, h8⟩, rfl, rfl⟩
        · simp only [set_size]; exact h1
        · exact set_bounded h4 _ _
        · simp only [set_length]; exact h5
        · simp only; rw [hl]; exact h6
        · simp only; omega
    · rw [push_store b s hd he] at h
      simp only [Option.some.injEq, Prod.mk.injEq] at h
      rw [← h.1]
      refine ⟨⟨?_, h2, h3, ?_, ?_, ?_, ?_, h8⟩, rfl, rfl⟩
      · simp only [set_size]; exact h1
      · exact set_bounded h4 _ _
      · simp only [set_length]; exact h5
      · simp only
        split <;> exact h6
      · simp only; omega

/-- Every call that returns keeps the capacity and the shortest lag. -/
theorem push_keeps {b b' : bacf} {s r : Bool} (h : b.push s = some (b', r)) :
    b'._size = b._size ∧ b'._min_period = b._min_period := by
  by_cases hd : b._count = 0 ∧ s = true
  · obtain ⟨h0, hs⟩ := hd
    subst hs
    rw [push_discard b h0] at h
    simp only [Option.some.injEq, Prod.mk.injEq] at h
    rw [← h.1]
    exact ⟨rfl, rfl⟩
  · by_cases he : b._count + 1 = b._size
    · rw [push_full b s hd he] at h
      split at h
      · simp at h
      · simp only [Option.some.injEq, Prod.mk.injEq] at h
        rw [← h.1]
        exact ⟨rfl, rfl⟩
    · rw [push_store b s hd he] at h
      simp only [Option.some.injEq, Prod.mk.injEq] at h
      rw [← h.1]
      exact ⟨rfl, rfl⟩

/-- On an engine of at least 64 and at most `2 ^ 32` bits whose shortest lag is
at most half the capacity, every call returns. -/
theorem push_total (b : bacf) (s : Bool) (hwf : b.wf) (h64 : 64 ≤ b._size)
    (hint : b._size ≤ 2 ^ 32)
    (hmp : b._min_period ≤ b._size / 2) : ∃ b' r, b.push s = some (b', r) := by
  by_cases hd : b._count = 0 ∧ s = true
  · obtain ⟨h0, hs⟩ := hd
    subst hs
    exact ⟨b, false, push_discard b h0⟩
  · by_cases he : b._count + 1 = b._size
    · obtain ⟨b', e, _⟩ := push_sweep b s hwf h64 hint hmp hd he
      exact ⟨b', true, e⟩
    · exact ⟨_, false, push_store b s hd he⟩

theorem pushes_total (bits : List Bool) :
    ∀ (b : bacf), b.wf → 64 ≤ b._size → b._size ≤ 2 ^ 32 → b._min_period ≤ b._size / 2 →
      ∃ b' rs, b.pushes bits = some (b', rs) ∧ b'.wf ∧ b'._size = b._size ∧
        b'._min_period = b._min_period := by
  induction bits with
  | nil =>
    intro b hwf _ _ _
    exact ⟨b, [], rfl, hwf, rfl, rfl⟩
  | cons s rest ih =>
    intro b hwf h64 hint hmp
    obtain ⟨b1, r, e1⟩ := push_total b s hwf h64 hint hmp
    obtain ⟨hwf1, hs1, hm1⟩ := push_wf hwf e1
    obtain ⟨b2, rs, e2, hwf2, hs2, hm2⟩ := ih b1 hwf1 (by omega) (by omega)
      (by rw [hs1, hm1]; exact hmp)
    refine ⟨b2, r :: rs, ?_, hwf2, by rw [hs2, hs1], by rw [hm2, hm1]⟩
    rw [bacf.pushes, e1]
    simp only [e2]

theorem pushes_snoc (pre : List Bool) (s : Bool) :
    ∀ (b b1 b2 : bacf) (rs : List Bool) (r : Bool), b.pushes pre = some (b1, rs) →
      b1.push s = some (b2, r) → b.pushes (pre ++ [s]) = some (b2, rs ++ [r]) := by
  induction pre with
  | nil =>
    intro b b1 b2 rs r e1 e2
    simp only [bacf.pushes, Option.some.injEq, Prod.mk.injEq] at e1
    obtain ⟨hb, hrs⟩ := e1
    subst hb; subst hrs
    simp [bacf.pushes, e2]
  | cons t rest ih =>
    intro b b1 b2 rs r e1 e2
    rw [bacf.pushes] at e1
    split at e1
    · simp at e1
    · rename_i bt rt ht
      split at e1
      · simp at e1
      · rename_i b3 rs3 h3
        simp only [Option.some.injEq, Prod.mk.injEq] at e1
        obtain ⟨hb, hrs⟩ := e1
        subst hb; subst hrs
        have := ih bt b3 b2 rs3 r h3 e2
        show bacf.pushes b (t :: (rest ++ [s])) = _
        rw [bacf.pushes, ht]
        simp only [this, List.cons_append]

/-- C4 (as amended): for every engine of capacity `64 ≤ N ≤ 2 ^ 32` whose
shortest lag is at most `N / 2`, and every sequence of pushes, every call
returns; the fill
counter is in `[0, N - 1]` after every push; a push returns ready exactly when
it stores a bit and that bit is the `N`-th since the counter was last 0 (the
counter grows by one with every stored bit, stays put when a 1 bit is
discarded at counter 0); and after a ready push the counter is 0, i.e.
`is_start()` holds. -/
theorem C4_fill_counter (b0 : bacf) (hwf : b0.wf) (h64 : 64 ≤ b0._size)
    (hint : b0._size ≤ 2 ^ 32)
    (hmp : b0._min_period ≤ b0._size / 2) (pre : List Bool) (s : Bool) :
    ∃ b rs b' r, b0.pushes pre = some (b, rs) ∧ b.push s = some (b', r) ∧
      b0.pushes (pre ++ [s]) = some (b', rs ++ [r]) ∧
      b._count < b0._size ∧ b'._count < b0._size ∧
      (r = true ↔ (¬ (b._count = 0 ∧ s = true) ∧ b._count + 1 = b0._size)) ∧
      (r = true → b'._count = 0 ∧ b'.is_start = true) ∧
      (r = false →
        b'._count = if b._count = 0 ∧ s = true then b._count else b._count + 1) := by
  obtain ⟨b, rs, e1, hwf1, hs1, hm1⟩ := pushes_total pre b0 hwf h64 hint hmp
  obtain ⟨b', r, e2⟩ := push_total b s hwf1 (by omega) (by omega)
    (by rw [hs1, hm1]; exact hmp)
  obtain ⟨hwf2, hs2, _⟩ := push_wf hwf1 e2
  have hc1 : b._count < b0._size := by rw [← hs1]; exact hwf1.2.2.2.2.2.2.1
  have hc2 : b'._count < b0._size := by rw [← hs1, ← hs2]; exact hwf2.2.2.2.2.2.2.1
  refine ⟨b, rs, b', r, e1, e2, pushes_snoc pre s b0 b b' rs r e1 e2, hc1, hc2, ?_, ?_, ?_⟩
  · constructor
    · intro hr
      subst hr
      rw [← hs1]
      exact push_ready_inv e2
    · intro ⟨hd, he⟩
      rw [← hs1] at he
      rw [push_full b s hd he] at e2
      split at e2
      · simp at e2
      · simp only [Option.some.injEq, Prod.mk.injEq] at e2
        exact e2.2.symm
  · intro hr
    subst hr
    have := (push_ready_fields e2).2.2.2.1
    exact ⟨this, by unfold bacf.is_start; simp [this]⟩
  · intro hr
    subst hr
    by_cases hd : b._count = 0 ∧ s = true
    · rw [if_pos hd]
      obtain ⟨h0, hs⟩ := hd
      subst hs
      rw [push_discard b h0] at e2
      simp only [Option.some.injEq, Prod.mk.injEq, and_true] at e2
      rw [← e2]
    · rw [if_neg hd]
      by_cases he : b._count + 1 = b._size
      · rw [push_full b s hd he] at e2
        split at e2
        · simp at e2
        · simp at e2
      · rw [push_store b s hd he] at e2
        simp only [Option.some.injEq, Prod.mk.injEq, and_true] at e2
        rw [← e2]

/-- Witness of `C4_fill_counter`: the engine `engine128` after 127 stored bits
and one more push. -/
theorem C4_fill_counter_witness :
    ∃ b rs b' r, engine128.pushes (List.replicate 127 false) = some (b, rs) ∧
      b.push true = some (b', r) ∧
      engine128.pushes (List.replicate 127 false ++ [true]) = some (b', rs ++ [r]) ∧
      b._count < engine128._size ∧ b'._count < engine128._size ∧
      (r = true ↔ (¬ (b._count = 0 ∧ true = true) ∧ b._count + 1 = engine128._size)) ∧
      (r = true → b'._count = 0 ∧ b'.is_start = true) ∧
      (r = false →
        b'._count = if b._count = 0 ∧ true = true then b._count else b._count + 1) :=
  C4_fill_counter engine128 engine128_wf (by decide) (by decide) (by decide)
    (List.replicate 127 false) true

theorem ceil_64_div_4 : ⌈double_div 64 4⌉₊ = 16 := by
  rw [double_div_nat 64 4 16 (by norm_num) (by norm_num)]
  exact Nat.ceil_natCast 16

theorem floor_64_div_8 : ⌊double_div 64 8⌋₊ = 8 := by
  rw [double_div_nat 64 8 8 (by norm_num) (by norm_num)]
  exact Nat.floor_natCast 8

theorem init_engine32 : bacf.init 4 8 64 0 0 0 = engine32 := by
  unfold bacf.init bacf.buff_size
  simp only [ceil_64_div_4, floor_64_div_8]
  decide

theorem floor_64_div_half : ⌊double_div 64 (1 / 2)⌋₊ = 128 := by
  rw [double_div_nat 64 (1 / 2) 128 (by norm_num) (by norm_num)]
  exact Nat.floor_natCast 128

theorem ceil_64_div_one : ⌈double_div 64 1⌉₊ = 64 := by
  rw [double_div_nat 64 1 64 (by norm_num) (by norm_num)]
  exact Nat.ceil_natCast 64

theorem init_engine128_over : bacf.init 1 (1 / 2) 64 0 0 0 = engine128_over := by
  unfold bacf.init bacf.buff_size
  simp only [ceil_64_div_one, floor_64_div_half]
  decide


/-! ## C5 and C10: the running frequency -/

theorem condition_keeps {c : collaborators} (pf : pitch_follower c) (s : c.float) :
    (pf.condition s).pf._freq = pf._freq ∧ (pf.condition s).pf._tail = pf._tail ∧
      (pf.condition s).pf._tail_lp = pf._tail_lp ∧
      (pf.condition s).pf._tail_count = pf._tail_count ∧
      (pf.condition s).pf._note_threshold = pf._note_threshold :=
  ⟨rfl, rfl, rfl, rfl, rfl⟩

theorem process_frequency {c : collaborators} (pf : pitch_follower c) (s : c.float) :
    (pf.process s).1.frequency
      = ((pf.condition s).pf.track (pf.condition s).synth_env)._freq := rfl

theorem valid_freq {c : collaborators} (pf : pitch_follower c) :
    pf.valid._freq
      = if c.eq (c.frequency pf._pd) c.zero = false then c.frequency pf._pd
        else if c.eq (c.predict_frequency pf._pd) c.zero = false then c.predict_frequency pf._pd
        else pf._freq := by
  unfold pitch_follower.valid
  cases h0 : c.eq (c.frequency pf._pd) c.zero <;>
    cases h1 : c.eq (c.predict_frequency pf._pd) c.zero <;>
    cases h2 : c.is_half pf._pd <;> simp [h0, h1]

theorem invalid_freq {c : collaborators} (pf : pitch_follower c) :
    pf.invalid._freq
      = if (pf._tail_count + 1) % size_t_range = c.size pf._pd then
          (c.lowpass pf._tail_lp (c.back pf._tail)).1
        else pf._freq := by
  unfold pitch_follower.invalid
  simp only
  split <;> rfl

theorem step1 : follower0.process (1 : ℚ) = (follower1, (1 : ℚ)) := by
  simp [pitch_follower.process, pitch_follower.condition,
    pitch_follower.track, pitch_follower.valid, pitch_follower.invalid,
    follower0, follower1, rational_collaborators]
  norm_num

theorem step2 : follower1.process (0 : ℚ) = (follower2, (0 : ℚ)) := by
  simp [pitch_follower.process, pitch_follower.condition,
    pitch_follower.track, pitch_follower.valid, pitch_follower.invalid,
    follower0, follower1, follower2, rational_collaborators, size_t_range]
  norm_num

theorem step3 : follower2.process (0 : ℚ) = (follower3, (0 : ℚ)) := by
  simp [pitch_follower.process, pitch_follower.condition,
    pitch_follower.track, pitch_follower.valid, pitch_follower.invalid,
    follower0, follower1, follower2, follower3, rational_collaborators, size_t_range]
  norm_num

/-- C5 (as amended): a non-zero running frequency stays non-zero across every
process call that takes the validity branch, and is kept unchanged by every
call of the invalidity branch that does not bring the silence counter to the
window length; the call that does (the decay correction) replaces it by the
output of the smoothing filter applied to `_tail.back()`, whatever that is. -/
theorem C5_frequency_kept (c : collaborators) (pf : pitch_follower c) (s : c.float)
    (hnz : c.eq pf.frequency c.zero = false) :
    (c.gt (pf.condition s).synth_env pf._note_threshold = true →
        c.eq (pf.process s).1.frequency c.zero = false) ∧
      (c.gt (pf.condition s).synth_env pf._note_threshold = false →
        (pf._tail_count + 1) % size_t_range ≠ c.size (pf.condition s).pf._pd →
        (pf.process s).1.frequency = pf.frequency) ∧
      (c.gt (pf.condition s).synth_env pf._note_threshold = false →
        (pf._tail_count + 1) % size_t_range = c.size (pf.condition s).pf._pd →
        (pf.process s).1.frequency = (c.lowpass pf._tail_lp (c.back pf._tail)).1) := by
  obtain ⟨k1, k2, k3, k4, k5⟩ := condition_keeps pf s
  unfold pitch_follower.frequency at hnz
  refine ⟨?_, ?_, ?_⟩
  · intro hv
    rw [process_frequency, pitch_follower.track, k5, if_pos hv, valid_freq, k1]
    by_cases h0 : c.eq (c.frequency (pf.condition s).pf._pd) c.zero = false
    · rw [if_pos h0]; exact h0
    · rw [if_neg h0]
      by_cases h1 : c.eq (c.predict_frequency (pf.condition s).pf._pd) c.zero = false
      · rw [if_pos h1]; exact h1
      · rw [if_neg h1]; exact hnz
  · intro hv hc
    rw [process_frequency, pitch_follower.track, k5, hv]
    simp only [Bool.false_eq_true, if_false]
    rw [invalid_freq, k4, if_neg hc, k1]
    rfl
  · intro hv hc
    rw [process_frequency, pitch_follower.track, k5, hv]
    simp only [Bool.false_eq_true, if_false]
    rw [invalid_freq, k4, if_pos hc, k2, k3]

/-- Witness of `C5_frequency_kept`: the follower `follower1`, whose frequency is
440, processing the sample 0. -/
theorem C5_frequency_kept_witness :
    (rational_collaborators.gt (follower1.condition (0 : ℚ)).synth_env
          follower1._note_threshold = true →
        rational_collaborators.eq (follower1.process (0 : ℚ)).1.frequency
          rational_collaborators.zero = false) ∧
      (rational_collaborators.gt (follower1.condition (0 : ℚ)).synth_env
          follower1._note_threshold = false →
        (follower1._tail_count + 1) % size_t_range
          ≠ rational_collaborators.size (follower1.condition (0 : ℚ)).pf._pd →
        (follower1.process (0 : ℚ)).1.frequency = follower1.frequency) ∧
      (rational_collaborators.gt (follower1.condition (0 : ℚ)).synth_env
          follower1._note_threshold = false →
        (follower1._tail_count + 1) % size_t_range
          = rational_collaborators.size (follower1.condition (0 : ℚ)).pf._pd →
        (follower1.process (0 : ℚ)).1.frequency
          = (rational_collaborators.lowpass follower1._tail_lp
              (rational_collaborators.back follower1._tail)).1) :=
  C5_frequency_kept rational_collaborators follower1 (0 : ℚ)
    (by simp [pitch_follower.frequency, follower1, rational_collaborators])

/-- C5 fails as stated: over `rational_collaborators`, the follower `follower0`
processes the samples 1, 0, 0. The first call takes the validity branch and
sets the frequency to 440; the next two take the invalidity branch, the second
of them brings the silence counter to the window length 2, and the decay
correction assigns the output of the smoothing filter (at rest) on
`_tail.back()` (still 0): the frequency is 0 again. -/
theorem C5_counterexample :
    (follower0.run [(1 : ℚ)]).frequency = (440 : ℚ) ∧
      (follower0.run [(1 : ℚ), (0 : ℚ), (0 : ℚ)]).frequency = (0 : ℚ) := by
  constructor
  · simp only [pitch_follower.run, step1]
    rfl
  · simp only [pitch_follower.run, step1, step2, step3]
    rfl
/-! ## C6: the capacity -/

/-- The power of two computed from the `double` quotient is the one computed
from the exact quotient, for a 32-bit sample rate, a positive `double`
frequency and an exact ceiling of at most `2 ^ 62`. -/
theorem smallest_pow2_quotient (sps : Nat) (hs : sps < 2 ^ 32) {lowest : ℚ}
    (hl : 0 < lowest) (hd : is_double lowest) (hcap : ⌈(sps : ℚ) / lowest⌉₊ ≤ 2 ^ 62) :
    smallest_pow2 ⌈double_div sps lowest⌉₊ = smallest_pow2 ⌈(sps : ℚ) / lowest⌉₊ ∧
      smallest_pow2 ⌈(sps : ℚ) / lowest⌉₊ ≤ 2 ^ 62 := by
  obtain ⟨k2, e2, hle2, _⟩ := smallest_pow2_spec ⌈(sps : ℚ) / lowest⌉₊
  obtain ⟨k1, e1, hle1, _⟩ := smallest_pow2_spec ⌈double_div sps lowest⌉₊
  have hb2 := smallest_pow2_min _ 62 hcap
  have hk2 : k2 ≤ 62 := by
    rw [e2] at hb2
    exact (Nat.pow_le_pow_iff_right (by norm_num)).mp hb2
  have h12 : smallest_pow2 ⌈double_div sps lowest⌉₊ ≤ 2 ^ k2 :=
    smallest_pow2_min _ k2 ((ceil_double_div_le_pow sps hs hl hd k2 (by omega)).mpr hle2)
  have hk1 : k1 ≤ k2 := by
    rw [e1] at h12
    exact (Nat.pow_le_pow_iff_right (by norm_num)).mp h12
  have h21 : smallest_pow2 ⌈(sps : ℚ) / lowest⌉₊ ≤ 2 ^ k1 :=
    smallest_pow2_min _ k1 ((ceil_double_div_le_pow sps hs hl hd k1 (by omega)).mp hle1)
  refine ⟨?_, hb2⟩
  rw [e1] at h12 ⊢
  rw [e2] at h21 ⊢
  exact le_antisymm h12 h21

/-- C6 (as amended): for every 32-bit sample rate and every positive `double`
lowest frequency with `1 ≤ ceil(sps / lowest) ≤ 2 ^ 62` (the division taken
exactly), the capacity `size()` of the constructed engine is a power of two,
is at least `2 * ceil(sps / lowest)`, and is the smallest power of two with
that property. -/
theorem C6_capacity (lowest highest : ℚ) (sps m0 m1 e0 : Nat)
    (hs : sps < 2 ^ 32) (hl : 0 < lowest) (hd : is_double lowest)
    (h : 1 ≤ ⌈(sps : ℚ) / lowest⌉₊) (hcap : ⌈(sps : ℚ) / lowest⌉₊ ≤ 2 ^ 62) :
    (∃ k, (bacf.init lowest highest sps m0 m1 e0).size = 2 ^ k) ∧
      2 * ⌈(sps : ℚ) / lowest⌉₊ ≤ (bacf.init lowest highest sps m0 m1 e0).size ∧
      ∀ j, 2 * ⌈(sps : ℚ) / lowest⌉₊ ≤ 2 ^ j →
        (bacf.init lowest highest sps m0 m1 e0).size ≤ 2 ^ j := by
  rw [init_size]
  obtain ⟨hq, hb⟩ := smallest_pow2_quotient sps hs hl hd hcap
  obtain ⟨k, e, hle, _⟩ := smallest_pow2_spec ⌈(sps : ℚ) / lowest⌉₊
  have hsize : bacf.buff_size lowest sps = 2 ^ (k + 1) := by
    unfold bacf.buff_size size_t_range
    simp only
    rw [hq, e]
    rw [e] at hb
    have : 2 ^ k * 2 < 2 ^ 64 := by omega
    rw [Nat.mod_eq_of_lt this]
    rfl
  rw [hsize]
  refine ⟨⟨k + 1, rfl⟩, by rw [Nat.pow_succ]; omega, ?_⟩
  intro j hj
  cases j with
  | zero => simp at hj; omega
  | succ j =>
    rw [Nat.pow_succ] at hj ⊢
    have := smallest_pow2_min ⌈(sps : ℚ) / lowest⌉₊ j (by omega)
    rw [e] at this
    omega

theorem is_double_80 : is_double 80 := by
  refine ⟨?_, ?_⟩
  · exact_mod_cast double_round_nat 80 (by norm_num)
  · rw [abs_of_pos (by norm_num)]
    norm_num

/-- Witness of `C6_capacity`: 44100 samples per second and a lowest frequency
of 80 Hz. -/
theorem C6_capacity_witness :
    (∃ k, (bacf.init 80 1000 44100 0 0 0).size = 2 ^ k) ∧
      2 * ⌈((44100 : ℕ) : ℚ) / 80⌉₊ ≤ (bacf.init 80 1000 44100 0 0 0).size ∧
      ∀ j, 2 * ⌈((44100 : ℕ) : ℚ) / 80⌉₊ ≤ 2 ^ j →
        (bacf.init 80 1000 44100 0 0 0).size ≤ 2 ^ j :=
  have hc : ⌈((44100 : ℕ) : ℚ) / 80⌉₊ = 552 := by
    rw [Nat.ceil_eq_iff (by norm_num)]
    norm_num
  C6_capacity 80 1000 44100 0 0 0 (by norm_num) (by norm_num) is_double_80
    (by rw [hc]; norm_num) (by rw [hc]; norm_num)

theorem is_double_two_pow_neg32 : is_double (1 / 4294967296) := by
  refine ⟨?_, ?_⟩
  · have := double_round_two_zpow (-32) (by norm_num)
    have e : (2 : ℚ) ^ (-32 : ℤ) = 1 / 4294967296 := by norm_num
    rwa [e] at this
  · rw [abs_of_pos (by norm_num)]
    norm_num

theorem ceil_two_pow_63 : ⌈double_div 2147483648 (1 / 4294967296)⌉₊ = 2 ^ 63 := by
  have hq : double_div 2147483648 (1 / 4294967296) = ((2 ^ 63 : ℕ) : ℚ) := by
    unfold double_div
    have := double_round_two_zpow 63 (by norm_num)
    have e : (2 : ℚ) ^ (63 : ℤ) = ((2147483648 : ℕ) : ℚ) / (1 / 4294967296) := by norm_num
    rw [e] at this
    rw [this]
    norm_num
  rw [hq]
  exact Nat.ceil_natCast _

theorem smallest_pow2_two_pow (k : Nat) : smallest_pow2 (2 ^ k) = 2 ^ k := by
  apply le_antisymm
  · exact smallest_pow2_min _ k le_rfl
  · obtain ⟨j, e, hle, _⟩ := smallest_pow2_spec (2 ^ k)
    rw [e]
    exact hle

/-- C6 fails as stated when the product `smallest_pow2(...) * 2` does not fit a
`std::size_t`: for 2147483648 samples per second and the lowest frequency
`2 ^ -32` Hz the exact quotient is `2 ^ 63`, `ceil(sps / lowest) ≥ 1`, and the
capacity of the constructed engine is 0, which is no power of two and is
below `2 * ceil(sps / lowest)`. -/
theorem C6_counterexample :
    2147483648 < 2 ^ 32 ∧ (0 : ℚ) < 1 / 4294967296 ∧ is_double (1 / 4294967296) ∧
      1 ≤ ⌈((2147483648 : ℕ) : ℚ) / (1 / 4294967296)⌉₊ ∧
      (bacf.init (1 / 4294967296) 1 2147483648 0 0 0).size = 0 ∧
      (¬ ∃ k, (bacf.init (1 / 4294967296) 1 2147483648 0 0 0).size = 2 ^ k) ∧
      ¬ (2 * ⌈((2147483648 : ℕ) : ℚ) / (1 / 4294967296)⌉₊
          ≤ (bacf.init (1 / 4294967296) 1 2147483648 0 0 0).size) := by
  have hc : ⌈((2147483648 : ℕ) : ℚ) / (1 / 4294967296)⌉₊ = 2 ^ 63 := by
    rw [Nat.ceil_eq_iff (by norm_num)]
    norm_num
  have hb : bacf.buff_size (1 / 4294967296) 2147483648 = 0 := by
    rw [buff_size_of_ceil _ _ _ ceil_two_pow_63, smallest_pow2_two_pow]
    unfold size_t_range
    norm_num
  have hsize : (bacf.init (1 / 4294967296) 1 2147483648 0 0 0).size = 0 :=
    (init_size _ _ _ _ _ _).trans hb
  refine ⟨by norm_num, by norm_num, is_double_two_pow_neg32, ?_, hsize, ?_, ?_⟩
  · rw [hc]
    exact Nat.one_le_two_pow
  · intro hex
    obtain ⟨k, hk⟩ := hex
    have h1 := hsize.symm.trans hk
    have h2 := Nat.two_pow_pos k
    omega
  · intro hle
    have h1 := le_trans hle (le_of_eq hsize)
    rw [hc] at h1
    have h2 := Nat.two_pow_pos 63
    omega

/-! ## C7: the range of the estimate -/

theorem pushes_wf (bits : List Bool) :
    ∀ (b b' : bacf) (rs : List Bool), b.wf → b.pushes bits = some (b', rs) →
      b'.wf ∧ b'._size = b._size ∧ b'._min_period = b._min_period := by
  induction bits with
  | nil =>
    intro b b' rs hwf h
    simp only [bacf.pushes, Option.some.injEq, Prod.mk.injEq] at h
    rw [← h.1]
    exact ⟨hwf, rfl, rfl⟩
  | cons s rest ih =>
    intro b b' rs hwf h
    rw [bacf.pushes] at h
    split at h
    · simp at h
    · rename_i b1 r1 h1
      split at h
      · simp at h
      · rename_i b2 rs2 h2
        simp only [Option.some.injEq, Prod.mk.injEq] at h
        obtain ⟨hw1, hs1, hm1⟩ := push_wf hwf h1
        obtain ⟨hw2, hs2, hm2⟩ := ih b1 b2 rs2 hw1 h2
        rw [← h.1]
        exact ⟨hw2, by rw [hs2, hs1], by rw [hm2, hm1]⟩

theorem pushes_keeps (bits : List Bool) :
    ∀ (b b' : bacf) (rs : List Bool), b.pushes bits = some (b', rs) →
      b'._size = b._size ∧ b'._min_period = b._min_period := by
  induction bits with
  | nil =>
    intro b b' rs h
    simp only [bacf.pushes, Option.some.injEq, Prod.mk.injEq] at h
    rw [← h.1]
    exact ⟨rfl, rfl⟩
  | cons s rest ih =>
    intro b b' rs h
    rw [bacf.pushes] at h
    split at h
    · simp at h
    · rename_i b1 r1 h1
      split at h
      · simp at h
      · rename_i b2 rs2 h2
        simp only [Option.some.injEq, Prod.mk.injEq] at h
        obtain ⟨hs1, hm1⟩ := push_keeps h1
        obtain ⟨hs2, hm2⟩ := ih b1 b2 rs2 h2
        rw [← h.1]
        exact ⟨by rw [hs2, hs1], by rw [hm2, hm1]⟩

theorem is_double_nat (n : Nat) (hn : n < 2 ^ 53) : is_double (n : ℚ) := by
  refine ⟨double_round_nat n hn, ?_⟩
  rw [abs_of_nonneg (Nat.cast_nonneg n)]
  have h1 : (n : ℚ) < (2 : ℚ) ^ (53 : ℕ) := by exact_mod_cast hn
  have h2 : (2 : ℚ) ^ (53 : ℕ) ≤ 2 ^ 1024 := by norm_num
  linarith

theorem is_double_one : is_double 1 := by
  simpa using is_double_nat 1 (by norm_num)

theorem is_double_eight : is_double 8 := by
  simpa using is_double_nat 8 (by norm_num)

/-- C7 (as amended): for every engine constructed with a 32-bit sample rate and
`double`s `0 < lowest < highest` whose capacity `N` is at most `2 ^ 17`, and
every completed window (a push returned ready), `estimated_index` lies in
`[min_period, N / 2)`, where `min_period` is the member `_min_period` of the
engine, the floor of the `double` quotient `sps / highest`, which is at least
the floor of the exact quotient. -/
theorem C7_estimate_in_range (lowest highest : ℚ) (sps m0 m1 e0 : Nat)
    (hsps : sps < 2 ^ 32) (h0 : 0 < lowest) (hlh : lowest < highest)
    (hdl : is_double lowest) (hdh : is_double highest)
    (hN : (bacf.init lowest highest sps m0 m1 e0).size ≤ 2 ^ 17)
    (pre : List Bool) (s : Bool) (b b' : bacf) (rs : List Bool)
    (hrun : (bacf.init lowest highest sps m0 m1 e0).pushes pre = some (b, rs))
    (hr : b.push s = some (b', true)) :
    ⌊(sps : ℚ) / highest⌋₊ ≤ (bacf.init lowest highest sps m0 m1 e0)._min_period ∧
      (bacf.init lowest highest sps m0 m1 e0)._min_period ≤ b'.result.estimated_index ∧
      b'.result.estimated_index < (bacf.init lowest highest sps m0 m1 e0).size / 2 := by
  rw [init_size] at hN ⊢
  obtain ⟨f1, f2, _⟩ := init_fields lowest highest sps m0 m1 e0
  obtain ⟨hs, hm⟩ := pushes_keeps pre _ b rs hrun
  rw [f1] at hs
  have hnz : bacf.buff_size lowest sps ≠ 0 := by
    have := (push_ready_inv hr).2
    omega
  have hwf0 := init_wf lowest highest sps m0 m1 e0 hnz
  obtain ⟨hwf, _, _⟩ := pushes_wf pre _ b rs hwf0 hrun
  have hne : b._min_period < b._size / 2 := by
    rw [hs, hm, f2]
    exact min_period_lt lowest highest sps hsps h0 hlh hdl hdh hnz
  obtain ⟨_, _, _, _, hsw⟩ := ready_swept hwf (by omega) hr hne
  have hpos : 0 < b._size / 2 - b._min_period := by omega
  have hend : b._min_period + (b._size / 2 - b._min_period) = b._size / 2 := by omega
  obtain ⟨h1, h2, _, _⟩ := swept_argmin hsw hpos (hamming_mod_lt _ _ _ (by rw [hs]; exact hN))
  rw [hend, hs] at h2
  rw [hm] at h1
  refine ⟨?_, h1, h2⟩
  rw [f2]
  apply floor_le_floor_double sps (lt_trans h0 hlh)
  have hlt : ⌊double_div sps highest⌋₊ < 2 ^ 16 := by
    rw [hs, hm, f2] at hne
    omega
  have hfl := Nat.lt_floor_add_one (double_div sps highest)
  have hc : ((⌊double_div sps highest⌋₊ : ℕ) : ℚ) + 1 ≤ ((2 ^ 16 : ℕ) : ℚ) := by
    exact_mod_cast hlt
  have h53 : (((2 ^ 16 : ℕ) : ℚ)) < 2 ^ 53 := by norm_num
  linarith

/-! ### Filling a window -/

/-- From the start of a window, pushing the bits `w 0, …, w (k - 1)` with
`w 0 = 0` and `k` below the capacity stores every bit at its position and
returns not-ready every time. -/
theorem pushes_fill (b : bacf) (w : Nat → Bool) (hwf : b.wf) (h0 : b._count = 0)
    (hw0 : w 0 = false) :
    ∀ k, k < b._size →
      ∃ b1, b.pushes ((List.range k).map w) = some (b1, List.replicate k false) ∧
        b1.wf ∧ b1._size = b._size ∧ b1._min_period = b._min_period ∧ b1._count = k ∧
        ∀ j, j < k → b1._bits.get j = w j := by
  intro k
  induction k with
  | zero =>
    intro _
    exact ⟨b, rfl, hwf, rfl, rfl, h0, fun j hj => absurd hj (Nat.not_lt_zero j)⟩
  | succ k ih =>
    intro hk
    obtain ⟨b1, e1, hwf1, hs1, hm1, hc1, hg1⟩ := ih (by omega)
    have hd : ¬ (b1._count = 0 ∧ w k = true) := by
      rintro ⟨hz, hwk⟩
      have : k = 0 := by omega
      subst this
      rw [hw0] at hwk
      cases hwk
    have hne : b1._count + 1 ≠ b1._size := by omega
    have e2 := push_store b1 (w k) hd hne
    obtain ⟨hwf2, hs2, hm2⟩ := push_wf hwf1 e2
    refine ⟨_, ?_, hwf2, by rw [hs2, hs1], by rw [hm2, hm1], by simp only; omega, ?_⟩
    · rw [List.range_succ, List.map_append, List.replicate_succ']
      exact pushes_snoc _ _ b b1 _ _ _ e1 e2
    · intro j hj
      simp only
      have hlen : b1._count / value_size < b1._bits.words.length := by
        obtain ⟨_, _, _, _, h5, _, h7, _⟩ := hwf1
        rw [← h5]
        unfold value_size
        omega
      rw [get_set hlen, hc1]
      by_cases hjk : j = k
      · rw [if_pos hjk, hjk]
      · rw [if_neg hjk]
        exact hg1 j (by omega)

/-- From the start of a window of at least 64 and at most `2 ^ 32` bits, pushing
`w 0, …, w (N - 1)` with `w 0 = 0` returns ready on the last push only, and the swept window holds
`w`. -/
theorem pushes_window (b : bacf) (w : Nat → Bool) (hwf : b.wf) (h0 : b._count = 0)
    (hw0 : w 0 = false) (h64 : 64 ≤ b._size) (hint : b._size ≤ 2 ^ 32)
    (hmp : b._min_period ≤ b._size / 2) :
    ∃ b1 b', b.pushes ((List.range (b._size - 1)).map w)
          = some (b1, List.replicate (b._size - 1) false) ∧
        b1.push (w (b._size - 1)) = some (b', true) ∧
        b.pushes ((List.range b._size).map w)
          = some (b', List.replicate (b._size - 1) false ++ [true]) ∧
        b1.wf ∧ b1._size = b._size ∧ b1._min_period = b._min_period ∧
        ∀ j, j < b._size → b'._bits.get j = w j := by
  obtain ⟨b1, e1, hwf1, hs1, hm1, hc1, hg1⟩ := pushes_fill b w hwf h0 hw0 (b._size - 1)
    (by omega)
  have hd : ¬ (b1._count = 0 ∧ w (b._size - 1) = true) := by
    rintro ⟨hz, _⟩
    omega
  have he : b1._count + 1 = b1._size := by omega
  obtain ⟨b', e2, hb, _⟩ := push_sweep b1 (w (b._size - 1)) hwf1 (by omega) (by omega)
    (by rw [hs1, hm1]; exact hmp) hd he
  refine ⟨b1, b', e1, e2, ?_, hwf1, hs1, hm1, ?_⟩
  · have hN : (b._size - 1).succ = b._size := by omega
    have := pushes_snoc _ _ b b1 b' _ _ e1 e2
    rw [← List.map_singleton, ← List.map_append, ← List.range_succ, hN] at this
    exact this
  · intro j hj
    have hlen : b1._count / value_size < b1._bits.words.length := by
      obtain ⟨_, _, _, _, h5, _, h7, _⟩ := hwf1
      rw [← h5]
      unfold value_size
      omega
    rw [hb, get_set hlen, hc1]
    by_cases hjk : j = b._size - 1
    · rw [if_pos hjk, hjk]
    · rw [if_neg hjk]
      exact hg1 j (by omega)

theorem init_engine128 : bacf.init 1 8 64 0 0 0 = engine128 := by
  unfold bacf.init bacf.buff_size
  simp only [ceil_64_div_one, floor_64_div_8]
  decide

set_option maxRecDepth 100000 in
theorem engine128_period20_run :
    engine128.pushes (bits_period20.take 127)
      = some (engine128_period20_last, List.replicate 127 false) := by
  decide

/-- Witness of `C7_estimate_in_range`: the engine `bacf(1 Hz, 8 Hz, 64)` and
the window filled by `bits_period20`. -/
theorem C7_estimate_in_range_witness :
    ⌊((64 : ℕ) : ℚ) / 8⌋₊ ≤ (bacf.init 1 8 64 0 0 0)._min_period ∧
      (bacf.init 1 8 64 0 0 0)._min_period ≤ engine128_period20.result.estimated_index ∧
      engine128_period20.result.estimated_index < (bacf.init 1 8 64 0 0 0).size / 2 :=
  C7_estimate_in_range 1 8 64 0 0 0 (by norm_num) (by norm_num) (by norm_num)
    is_double_one is_double_eight
    (by rw [init_engine128]; decide) (bits_period20.take 127) false
    engine128_period20_last engine128_period20 (List.replicate 127 false)
    (by rw [init_engine128]; exact engine128_period20_run) engine128_period20_push

theorem countP_lt_range (k : Nat) :
    ∀ n, (List.range n).countP (fun j => decide (j < k)) = min k n := by
  intro n
  induction n with
  | zero => simp
  | succ n ih =>
    rw [List.range_succ, List.countP_append, ih]
    by_cases h : n < k
    · simp [h]; omega
    · simp [h]; omega

theorem ceil_wrap : ⌈double_div 131071 (131071 / 131072)⌉₊ = 131072 := by
  rw [double_div_nat 131071 (131071 / 131072) 131072 (by norm_num) (by norm_num)]
  exact Nat.ceil_natCast 131072

theorem floor_wrap : ⌊double_div 131071 1⌋₊ = 131071 := by
  rw [double_div_nat 131071 1 131071 (by norm_num) (by norm_num)]
  exact Nat.floor_natCast 131071

theorem buff_size_wrap : bacf.buff_size (131071 / 131072) 131071 = 262144 := by
  rw [buff_size_of_ceil _ _ _ ceil_wrap]
  decide

/-- An engine of capacity `2 ^ 18` at the start of a window, fed a whole
window `w` with `w 0 = 0`: the last push returns ready, the window holds `w`,
and the record is swept over `[_min_period, 2 ^ 17)`, 131040 positions being
compared for every lag. -/
theorem big_window_run (b : bacf) (w : Nat → Bool) (hwf : b.wf) (h0 : b._count = 0)
    (hsize : b._size = 262144) (hmp : b._min_period < 131072) (hw0 : w 0 = false) :
    ∃ b' corr, b.pushes ((List.range 262144).map w)
          = some (b', List.replicate 262143 false ++ [true]) ∧
        b'._bits.size = 262144 ∧ (∀ j, j < 262144 → b'._bits.get j = w j) ∧
        swept (fun L => hamming b'._bits 131040 L % uint16_range) b._min_period
          (131072 - b._min_period)
          { correlation := corr, max_count := 0, min_count := uint16_range - 1
            estimated_index := 0 } b'._info := by
  obtain ⟨b1, b', _, e2, e3, hwf1, hs1, hm1, hget⟩ :=
    pushes_window b w hwf h0 hw0 (by rw [hsize]; decide) (by rw [hsize]; decide)
      (by rw [hsize]; omega)
  rw [hsize] at e3 hs1 hget
  obtain ⟨hb, _, _, _, hsw⟩ := ready_swept hwf1 (by rw [hs1]; decide) e2
    (by rw [hs1, hm1]; omega)
  rw [hs1, hm1] at hsw
  have hc : compared 262144 = 131040 := by decide
  have hn : 262144 / 2 = 131072 := by decide
  rw [hc, hn] at hsw
  refine ⟨b', b1._info.correlation, e3, ?_, hget, hsw⟩
  rw [hb, set_size, ← hwf1.1, hs1]

/-- The engine `bacf(131071/131072 Hz, 1 Hz, 131071)`, of capacity `2 ^ 18` and
shortest lag 131071, fed a whole window `w` with `w 0 = 0`: the record is swept
over the single lag 131071. -/
theorem wrap_engine_run (w : Nat → Bool) (hw0 : w 0 = false) :
    ∃ b' corr, (bacf.init (131071 / 131072) 1 131071 0 0 0).pushes
          ((List.range 262144).map w)
          = some (b', List.replicate 262143 false ++ [true]) ∧
        b'._bits.size = 262144 ∧ (∀ j, j < 262144 → b'._bits.get j = w j) ∧
        swept (fun L => hamming b'._bits 131040 L % uint16_range) 131071 1
          { correlation := corr, max_count := 0, min_count := uint16_range - 1
            estimated_index := 0 } b'._info := by
  have hsize : (bacf.init (131071 / 131072) 1 131071 0 0 0)._size = 262144 :=
    (init_fields _ _ _ _ _ _).1.trans buff_size_wrap
  have hmp : (bacf.init (131071 / 131072) 1 131071 0 0 0)._min_period = 131071 :=
    (init_fields _ _ _ _ _ _).2.1.trans floor_wrap
  have hwf := init_wf (131071 / 131072) 1 131071 0 0 0
    (by rw [buff_size_wrap]; decide)
  have h := big_window_run _ w hwf rfl hsize (by rw [hmp]; decide) hw0
  rw [hmp] at h
  exact h

theorem is_double_wrap : is_double (131071 / 131072) := by
  refine ⟨?_, ?_⟩
  · have := double_round_dyadic 131071 (-17) (by norm_num) (by norm_num)
    have e : ((131071 : ℕ) : ℚ) * 2 ^ (-17 : ℤ) = 131071 / 131072 := by norm_num
    rwa [e] at this
  · rw [abs_of_pos (by norm_num)]
    norm_num

/-- C7 fails as stated above `2 ^ 17` bits: `bacf(131071/131072 Hz, 1 Hz, 131071)`
has `0 < lowest < highest`, capacity `N = 2 ^ 18` and `min_period = 131071`, so
the only lag swept is 131071. The `2 ^ 18` pushes of `bits_wrap` fill a window
whose Hamming distance at that lag is 65535, the value `min_count` starts from:
`count < min_count` fails, and the completed window reports
`estimated_index = 0`, outside `[131071, 131072)`. -/
theorem C7_counterexample :
    131071 < 2 ^ 32 ∧ (0 : ℚ) < 131071 / 131072 ∧ (131071 / 131072 : ℚ) < 1 ∧
      is_double (131071 / 131072) ∧ is_double 1 ∧
      (bacf.init (131071 / 131072) 1 131071 0 0 0).size = 262144 ∧
      (bacf.init (131071 / 131072) 1 131071 0 0 0)._min_period = 131071 ∧
      ∃ b', (bacf.init (131071 / 131072) 1 131071 0 0 0).pushes bits_wrap
          = some (b', List.replicate 262143 false ++ [true]) ∧
        b'.result.estimated_index = 0 ∧ b'.result.min_count = 65535 := by
  refine ⟨by norm_num, by norm_num, by norm_num, is_double_wrap, is_double_one,
    (init_size _ _ _ _ _ _).trans buff_size_wrap,
    (init_fields _ _ _ _ _ _).2.1.trans floor_wrap, ?_⟩
  obtain ⟨b', corr, e3, _, hget, hsw⟩ := wrap_engine_run wrap_bit (by decide)
  refine ⟨b', e3, ?_⟩
  have hham : hamming b'._bits 131040 131071 = 65535 := by
    unfold hamming
    have hcongr : (List.range 131040).countP
        (fun j => b'._bits.get j != b'._bits.get (j + 131071))
          = (List.range 131040).countP (fun j => decide (j < 65535)) := by
      apply List.countP_congr
      intro j hj
      have hj' : j < 131040 := List.mem_range.mp hj
      rw [hget j (by omega), hget (j + 131071) (by omega)]
      unfold wrap_bit
      have h1 : ¬ (131071 ≤ j ∧ j < 196606) := by omega
      by_cases h2 : j < 65535
      · have h3 : 131071 ≤ j + 131071 ∧ j + 131071 < 196606 := by omega
        rw [decide_eq_false h1, decide_eq_true h2, decide_eq_true h3]
        decide
      · have h3 : ¬ (131071 ≤ j + 131071 ∧ j + 131071 < 196606) := by omega
        rw [decide_eq_false h1, decide_eq_false h2, decide_eq_false h3]
        decide
    rw [hcongr, countP_lt_range]
    decide
  have hmin := hsw.2.2.2.2.2.2.1 131071 (le_refl _) (by decide)
  have hest := hsw.2.2.2.2.2.2.2
  simp only at hmin hest
  rw [hham] at hmin
  unfold bacf.result
  rcases hest with ⟨hm, he⟩ | ⟨h1, h2, h3, h4, _⟩
  · exact ⟨he, hm⟩
  · exfalso
    have heq : b'._info.estimated_index = 131071 := by omega
    rw [heq, hham] at h3
    rw [← h3] at h4
    revert h4
    decide

/-! ### C3 as stated -/

theorem floor_64_div_100 : ⌊double_div 64 100⌋₊ = 0 := by
  rw [Nat.floor_eq_zero]
  unfold double_div
  have h1 : double_round (((64 : ℕ) : ℚ) / 100) ≤ double_round (3 / 4) :=
    double_round_mono (by norm_num) (by norm_num)
  have h2 := double_round_dyadic 3 (-2) (by norm_num) (by norm_num)
  have e : ((3 : ℕ) : ℚ) * 2 ^ (-2 : ℤ) = 3 / 4 := by norm_num
  rw [e] at h2
  rw [h2] at h1
  linarith

theorem init_engine128_zero : bacf.init 1 100 64 0 0 0 = engine128_zero := by
  unfold bacf.init bacf.buff_size
  simp only [ceil_64_div_one, floor_64_div_100]
  decide

theorem ceil_long : ⌈double_div 131072 1⌉₊ = 131072 := by
  rw [double_div_nat 131072 1 131072 (by norm_num) (by norm_num)]
  exact Nat.ceil_natCast 131072

theorem floor_long : ⌊double_div 131072 131072⌋₊ = 1 := by
  rw [double_div_nat 131072 131072 1 (by norm_num) (by norm_num)]
  exact Nat.floor_natCast 1

theorem buff_size_long : bacf.buff_size 1 131072 = 262144 := by
  rw [buff_size_of_ceil _ _ _ ceil_long]
  decide

theorem long_bit_step (j : Nat) (hj : j < 131040) :
    (long_bit j != long_bit (j + 1)) = decide (j < 65536) := by
  unfold long_bit
  by_cases h : j < 65536
  · by_cases hp : j % 2 = 1
    · have h1 : (j % 131040) % 2 = 1 ∧ j % 131040 ≤ 65535 := by omega
      have h2 : ¬ (((j + 1) % 131040) % 2 = 1 ∧ (j + 1) % 131040 ≤ 65535) := by omega
      rw [decide_eq_true h1, decide_eq_false h2, decide_eq_true h]
      decide
    · have h1 : ¬ ((j % 131040) % 2 = 1 ∧ j % 131040 ≤ 65535) := by omega
      have h2 : ((j + 1) % 131040) % 2 = 1 ∧ (j + 1) % 131040 ≤ 65535 := by omega
      rw [decide_eq_false h1, decide_eq_true h2, decide_eq_true h]
      decide
  · have h1 : ¬ ((j % 131040) % 2 = 1 ∧ j % 131040 ≤ 65535) := by omega
    have h2 : ¬ (((j + 1) % 131040) % 2 = 1 ∧ (j + 1) % 131040 ≤ 65535) := by omega
    rw [decide_eq_false h1, decide_eq_false h2, decide_eq_false h]
    decide

theorem long_bit_periodic (Q : Nat) (hQ0 : 0 < Q) (hQ : Q < 131040) :
    ∃ j, j + Q < 262144 ∧ long_bit j = true ∧ long_bit (j + Q) = false := by
  unfold long_bit
  by_cases hodd : Q % 2 = 1
  · refine ⟨1, by omega, decide_eq_true (by omega), decide_eq_false (by omega)⟩
  · by_cases hs : Q ≤ 65504
    · refine ⟨65535, by omega, decide_eq_true (by omega), decide_eq_false (by omega)⟩
    · refine ⟨131040 - Q - 1, by omega, decide_eq_true (by omega), decide_eq_false (by omega)⟩

set_option maxRecDepth 100000 in
/-- C3 fails as stated in three ways.
When the period does not fit in the compared overlap: the 128 pushes of
`bits_period60` fill a window of `N = 128` bits whose least period is `P = 60`,
with `min_period = 8 ≤ P < N / 2 = 64`; the sweep compares only the positions
`[0, 32)`, where lag 8 already matches, and reports `estimated_index = 8`.
When `min_period` is 0: `bacf(1 Hz, 100 Hz, 64)` sweeps from lag 0, which always
matches, and reports `estimated_index = 0` on a window of least period 20.
Above `2 ^ 17` bits: `bacf(1 Hz, 131072 Hz, 131072)` has capacity `2 ^ 18` and
`min_period = 1`; on the window `bits_long`, of least period 131040, lag 1
differs at 65536 positions, the 16-bit entry wraps to 0, and the sweep reports
`estimated_index = 1`. -/
theorem C3_counterexample :
    (engine128.pushes bits_period60
        = some (engine128_period60, List.replicate 127 false ++ [true]) ∧
      periodic engine128_period60._bits.get engine128_period60._size 60 ∧
      (∀ Q < 60, 0 < Q → ¬ periodic engine128_period60._bits.get engine128_period60._size Q) ∧
      engine128_period60._min_period ≤ 60 ∧ 60 < engine128_period60._size / 2 ∧
      engine128_period60.result.min_count = 0 ∧
      engine128_period60.result.estimated_index = 8) ∧
    (bacf.init 1 100 64 0 0 0 = engine128_zero ∧
      engine128_zero.pushes bits_period20
        = some (engine128_zero_done, List.replicate 127 false ++ [true]) ∧
      periodic engine128_zero_done._bits.get engine128_zero_done._size 20 ∧
      (∀ Q < 20, 0 < Q → ¬ periodic engine128_zero_done._bits.get engine128_zero_done._size Q) ∧
      engine128_zero_done._min_period ≤ 20 ∧
      20 ≤ engine128_zero_done._size / 2 - value_size ∧
      engine128_zero_done.result.estimated_index = 0) ∧
    ∃ b', (bacf.init 1 131072 131072 0 0 0).pushes bits_long
        = some (b', List.replicate 262143 false ++ [true]) ∧
      b'._bits.size = 262144 ∧ (bacf.init 1 131072 131072 0 0 0)._min_period = 1 ∧
      periodic b'._bits.get 262144 131040 ∧
      (∀ Q, 0 < Q → Q < 131040 → ¬ periodic b'._bits.get 262144 Q) ∧
      131040 ≤ 262144 / 2 - value_size ∧
      b'.result.min_count = 0 ∧ b'.result.estimated_index = 1 := by
  refine ⟨by decide, ⟨init_engine128_zero, by decide, by decide, by decide, by decide,
    by decide, by decide⟩, ?_⟩
  have hsize : (bacf.init 1 131072 131072 0 0 0)._size = 262144 :=
    (init_fields _ _ _ _ _ _).1.trans buff_size_long
  have hmp : (bacf.init 1 131072 131072 0 0 0)._min_period = 1 :=
    (init_fields _ _ _ _ _ _).2.1.trans floor_long
  have hwf := init_wf 1 131072 131072 0 0 0 (by rw [buff_size_long]; decide)
  obtain ⟨b', corr, e3, hs, hget, hsw⟩ :=
    big_window_run _ long_bit hwf rfl hsize (by rw [hmp]; decide) (by decide)
  rw [hmp] at hsw
  have hham : hamming b'._bits 131040 1 = 65536 := by
    unfold hamming
    have hcongr : (List.range 131040).countP
        (fun j => b'._bits.get j != b'._bits.get (j + 1))
          = (List.range 131040).countP (fun j => decide (j < 65536)) := by
      apply List.countP_congr
      intro j hj
      have hj' : j < 131040 := List.mem_range.mp hj
      rw [hget j (by omega), hget (j + 1) (by omega), long_bit_step j hj']
    rw [hcongr, countP_lt_range]
    decide
  have hmin := hsw.2.2.2.2.2.2.1 1 (le_refl _) (by decide)
  have hest := hsw.2.2.2.2.2.2.2
  simp only at hmin hest
  rw [hham] at hmin
  have hm0 : b'._info.min_count = 0 := by
    have : 65536 % uint16_range = 0 := by decide
    omega
  refine ⟨b', e3, hs, hmp, ?_, ?_, by decide, hm0, ?_⟩
  · intro j hj hjP
    rw [hget j hj, hget (j + 131040) hjP]
    unfold long_bit
    rw [Nat.add_mod_right]
  · intro Q hQ0 hQ hper
    obtain ⟨j, hj, h1, h2⟩ := long_bit_periodic Q hQ0 hQ
    have := hper j (by omega) hj
    rw [hget j (by omega), hget (j + Q) hj, h1, h2] at this
    cases this
  · unfold bacf.result
    rcases hest with ⟨hm, _⟩ | ⟨h1, _, _, _, h5⟩
    · exfalso
      rw [hm0] at hm
      revert hm
      decide
    · by_contra hne
      have := h5 1 (le_refl _) (by omega)
      rw [hham, hm0] at this
      revert this
      decide
/-! ## C8: construction -/

theorem wf_word_index {b : bacf} (hwf : b.wf) : b._count / value_size < b._bits.words.length := by
  obtain ⟨_, _, _, _, h5, _, h7, _⟩ := hwf
  rw [← h5]
  unfold value_size
  omega

theorem push_aligned {b b' : bacf} {s r : Bool} (hwf : b.wf) (ha : b.aligned)
    (h : b.push s = some (b', r)) : b'.aligned ∧ (r = true → b'._bits.get 0 = false) := by
  by_cases hd : b._count = 0 ∧ s = true
  · obtain ⟨h0, hs⟩ := hd
    subst hs
    rw [push_discard b h0] at h
    simp only [Option.some.injEq, Prod.mk.injEq] at h
    rw [← h.1, ← h.2]
    exact ⟨ha, by simp⟩
  · have hget : (b._bits.set b._count s).get 0 = false := by
      rw [get_set (wf_word_index hwf)]
      by_cases hc : 0 = b._count
      · rw [if_pos hc]
        cases s with
        | false => rfl
        | true => exact absurd ⟨hc.symm, rfl⟩ hd
      · rw [if_neg hc]
        exact ha (by omega)
    by_cases he : b._count + 1 = b._size
    · rw [push_full b s hd he] at h
      split at h
      · simp at h
      · simp only [Option.some.injEq, Prod.mk.injEq] at h
        rw [← h.1]
        exact ⟨fun hc => absurd hc (by simp), fun _ => hget⟩
    · rw [push_store b s hd he] at h
      simp only [Option.some.injEq, Prod.mk.injEq] at h
      rw [← h.1, ← h.2]
      exact ⟨fun _ => hget, by simp⟩

theorem pushes_aligned (bits : List Bool) :
    ∀ (b b' : bacf) (rs : List Bool), b.wf → b.aligned → b.pushes bits = some (b', rs) →
      b'.wf ∧ b'.aligned := by
  induction bits with
  | nil =>
    intro b b' rs hwf ha h
    simp only [bacf.pushes, Option.some.injEq, Prod.mk.injEq] at h
    rw [← h.1]
    exact ⟨hwf, ha⟩
  | cons s rest ih =>
    intro b b' rs hwf ha h
    rw [bacf.pushes] at h
    split at h
    · simp at h
    · rename_i b1 r1 h1
      split at h
      · simp at h
      · rename_i b2 rs2 h2
        simp only [Option.some.injEq, Prod.mk.injEq] at h
        rw [← h.1]
        exact ih b1 b2 rs2 (push_wf hwf h1).1 (push_aligned hwf ha h1).1 h2

/-- C9: for every engine state with fill counter 0, `push(1)` returns not-ready
and leaves the whole state unchanged, while `push(0)` returns not-ready, stores
the bit at position 0 and sets the counter to 1, every other member unchanged;
hence, in every run of pushes from such a state, position 0 of every swept
window holds 0. -/
theorem C9_edge_alignment (b : bacf) (hwf : b.wf) (h0 : b._count = 0) :
    b.push true = some (b, false) ∧
      b.push false = some ({ b with _bits := b._bits.set 0 false, _count := 1 }, false) ∧
      (b._bits.set 0 false).get 0 = false ∧
      ∀ (pre : List Bool) (s : Bool) (b1 b' : bacf) (rs : List Bool),
        b.pushes pre = some (b1, rs) → b1.push s = some (b', true) →
        b'._bits.get 0 = false := by
  have hidx := wf_word_index hwf
  rw [h0] at hidx
  refine ⟨push_discard b h0, ?_, ?_, ?_⟩
  · have hne : b._count + 1 ≠ b._size := by
      have := hwf.2.2.1
      omega
    rw [push_store b false (by simp) hne, h0]
    simp
  · rw [get_set hidx]
    simp
  · intro pre s b1 b' rs hrun hr
    have ha : b.aligned := fun hc => absurd hc (by omega)
    obtain ⟨hwf1, ha1⟩ := pushes_aligned pre b b1 rs hwf ha hrun
    exact (push_aligned hwf1 ha1 hr).2 rfl

/-- Witness of `C9_edge_alignment`: the engine `engine128` at the start of a
window. -/
theorem C9_edge_alignment_witness :
    engine128.push true = some (engine128, false) ∧
      engine128.push false
        = some ({ engine128 with _bits := engine128._bits.set 0 false, _count := 1 }, false) ∧
      (engine128._bits.set 0 false).get 0 = false ∧
      ∀ (pre : List Bool) (s : Bool) (b1 b' : bacf) (rs : List Bool),
        engine128.pushes pre = some (b1, rs) → b1.push s = some (b', true) →
        b'._bits.get 0 = false :=
  C9_edge_alignment engine128 engine128_wf (by decide)

/-- C10: for every process call that takes the validity branch (fast envelope
above the note threshold), with `f = frequency()` and `p = predict_frequency()`
of the estimator after it has been fed the sample: the running frequency after
the call is `f` if `f != 0`, else `p` if `p != 0`, else its value before the
call; in particular a running frequency that is zero after the call was not
written by it. -/
theorem C10_validity_update (c : collaborators) (pf : pitch_follower c) (s : c.float)
    (hv : c.gt (pf.condition s).synth_env pf._note_threshold = true) :
    (pf.process s).1.frequency
        = (if c.eq (c.frequency (pf.condition s).pf._pd) c.zero = false then
            c.frequency (pf.condition s).pf._pd
          else if c.eq (c.predict_frequency (pf.condition s).pf._pd) c.zero = false then
            c.predict_frequency (pf.condition s).pf._pd
          else pf.frequency) ∧
      (c.eq (pf.process s).1.frequency c.zero = true →
        (pf.process s).1.frequency = pf.frequency) := by
  obtain ⟨k1, _, _, _, k5⟩ := condition_keeps pf s
  have e : (pf.process s).1.frequency
      = (if c.eq (c.frequency (pf.condition s).pf._pd) c.zero = false then
          c.frequency (pf.condition s).pf._pd
        else if c.eq (c.predict_frequency (pf.condition s).pf._pd) c.zero = false then
          c.predict_frequency (pf.condition s).pf._pd
        else pf.frequency) := by
    rw [process_frequency, pitch_follower.track, k5, if_pos hv, valid_freq, k1]
    rfl
  refine ⟨e, ?_⟩
  intro hz
  rw [e] at hz ⊢
  by_cases h0 : c.eq (c.frequency (pf.condition s).pf._pd) c.zero = false
  · rw [if_pos h0] at hz
    rw [h0] at hz
    cases hz
  · rw [if_neg h0] at hz ⊢
    by_cases h1 : c.eq (c.predict_frequency (pf.condition s).pf._pd) c.zero = false
    · rw [if_pos h1] at hz
      rw [h1] at hz
      cases hz
    · rw [if_neg h1]

/-- Witness of `C10_validity_update`: the follower `follower0` processing the
sample 1, which opens the gate and exceeds the note threshold. -/
theorem C10_validity_update_witness :
    (follower0.process (1 : ℚ)).1.frequency
        = (if rational_collaborators.eq
              (rational_collaborators.frequency (follower0.condition (1 : ℚ)).pf._pd)
              rational_collaborators.zero = false then
            rational_collaborators.frequency (follower0.condition (1 : ℚ)).pf._pd
          else if rational_collaborators.eq
              (rational_collaborators.predict_frequency (follower0.condition (1 : ℚ)).pf._pd)
              rational_collaborators.zero = false then
            rational_collaborators.predict_frequency (follower0.condition (1 : ℚ)).pf._pd
          else follower0.frequency) ∧
      (rational_collaborators.eq (follower0.process (1 : ℚ)).1.frequency
          rational_collaborators.zero = true →
        (follower0.process (1 : ℚ)).1.frequency = follower0.frequency) :=
  C10_validity_update rational_collaborators follower0 (1 : ℚ)
    (by
      simp [pitch_follower.condition, follower0, rational_collaborators]
      norm_num)

/-! ## C15: the high-bit branch -/

/-- A push of a 1 bit that stores the bit without completing the window
assigns the constant 123 to `max_count`. -/
theorem push_high_bit (b : bacf) (h0 : b._count ≠ 0) (hne : b._count + 1 ≠ b._size)
    (hcs : b._count ≠ b._size) :
    ∃ b', b.push true = some (b', false) ∧ b'.result.max_count = 123 := by
  refine ⟨_, push_store b true (fun h => h0 h.1) hne, ?_⟩
  unfold bacf.result
  simp [hcs]

/-- C15, the code at the failing input: on the engine `engine128`, a push of a 0
bit stores the first bit and leaves `max_count` at 0; the following push of a 1
bit returns not-ready, yet `max_count` is 123 after it. -/
theorem C15_high_bit_assigns_constant :
    engine128.push false = some (engine128_low, false) ∧
      engine128_low.result.max_count = 0 ∧
      engine128_low.push true = some (engine128_high, false) ∧
      engine128_high.result.max_count = 123 := by
  decide

/-! ## C16: no partial-window correlation -/

/-- A push that returns not-ready leaves the correlogram, `min_count` and
`estimated_index` as they were. -/
theorem push_not_ready_frame {b b' : bacf} {s : Bool} (h : b.push s = some (b', false)) :
    b'._info.correlation = b._info.correlation ∧ b'._info.min_count = b._info.min_count ∧
      b'._info.estimated_index = b._info.estimated_index := by
  by_cases hd : b._count = 0 ∧ s = true
  · obtain ⟨h0, hs⟩ := hd
    subst hs
    rw [push_discard b h0] at h
    simp only [Option.some.injEq, Prod.mk.injEq, and_true] at h
    rw [← h]
    exact ⟨rfl, rfl, rfl⟩
  · by_cases he : b._count + 1 = b._size
    · rw [push_full b s hd he] at h
      split at h
      · simp at h
      · simp at h
    · rw [push_store b s hd he] at h
      simp only [Option.some.injEq, Prod.mk.injEq, and_true] at h
      rw [← h]
      simp only
      split <;> exact ⟨rfl, rfl, rfl⟩

theorem pushes_frame (bits : List Bool) :
    ∀ (b b' : bacf) (rs : List Bool), b.pushes bits = some (b', rs) →
      (∀ r ∈ rs, r = false) →
      b'._info.correlation = b._info.correlation ∧ b'._info.min_count = b._info.min_count ∧
        b'._info.estimated_index = b._info.estimated_index := by
  induction bits with
  | nil =>
    intro b b' rs h _
    simp only [bacf.pushes, Option.some.injEq, Prod.mk.injEq] at h
    rw [← h.1]
    exact ⟨rfl, rfl, rfl⟩
  | cons s rest ih =>
    intro b b' rs h hrs
    rw [bacf.pushes] at h
    split at h
    · simp at h
    · rename_i b1 r1 h1
      split at h
      · simp at h
      · rename_i b2 rs2 h2
        simp only [Option.some.injEq, Prod.mk.injEq] at h
        obtain ⟨hb, hr⟩ := h
        subst hb
        subst hr
        have hr1 : r1 = false := hrs r1 (by simp)
        subst hr1
        obtain ⟨a1, a2, a3⟩ := push_not_ready_frame h1
        obtain ⟨c1, c2, c3⟩ := ih b1 b2 rs2 h2 (fun r hr => hrs r (by simp [hr]))
        exact ⟨c1.trans a1, c2.trans a2, c3.trans a3⟩

/-- At the start of a window any number of 1 bits is discarded. -/
theorem pushes_discard (b : bacf) (h0 : b._count = 0) (rest : List Bool) (b' : bacf)
    (rs : List Bool) (h : b.pushes rest = some (b', rs)) :
    ∀ k, b.pushes (List.replicate k true ++ rest) = some (b', List.replicate k false ++ rs) := by
  intro k
  induction k with
  | zero => simpa using h
  | succ k ih =>
    rw [List.replicate_succ, List.replicate_succ, List.cons_append, List.cons_append,
      bacf.pushes, push_discard b h0]
    simp only [ih]

/-- C16: a push that returns not-ready leaves the correlogram, `min_count` and
`estimated_index` unchanged, and a push returns ready only when it stores the
`N`-th bit. From the start of a window, after any number of discarded 1 bits,
the pushes of `w 0 = 0, w 1, …, w (N - 2)` return not-ready and leave the three
unchanged; if the push of `w (N - 1)` returns, it returns ready, and the window
it sweeps holds `w i` at every position `i < N`; it does return when
`64 ≤ N ≤ 2 ^ 32` and the shortest lag is at most `N / 2`. -/
theorem C16_no_partial_window (b : bacf) (w : Nat → Bool) (k : Nat) (hwf : b.wf)
    (h0 : b._count = 0) (hw0 : w 0 = false) :
    (∀ (c c' : bacf) (s : Bool), c.push s = some (c', false) →
        c'.result.correlation = c.result.correlation ∧
        c'.result.min_count = c.result.min_count ∧
        c'.result.estimated_index = c.result.estimated_index) ∧
      (∀ (c c' : bacf) (s : Bool), c.push s = some (c', true) →
        ¬ (c._count = 0 ∧ s = true) ∧ c._count + 1 = c._size) ∧
      ∃ b1, b.pushes (List.replicate k true ++ (List.range (b._size - 1)).map w)
            = some (b1, List.replicate k false ++ List.replicate (b._size - 1) false) ∧
        b1.result.correlation = b.result.correlation ∧
        b1.result.min_count = b.result.min_count ∧
        b1.result.estimated_index = b.result.estimated_index ∧
        (∀ (b' : bacf) (r : Bool), b1.push (w (b._size - 1)) = some (b', r) →
          r = true ∧ ∀ i, i < b._size → b'._bits.get i = w i) ∧
        (64 ≤ b._size → b._size ≤ 2 ^ 32 → b._min_period ≤ b._size / 2 →
          ∃ b', b1.push (w (b._size - 1)) = some (b', true)) := by
  have hN : 2 ≤ b._size := hwf.2.2.1
  obtain ⟨b1, e1, hwf1, hs1, hm1, hc1, hg1⟩ := pushes_fill b w hwf h0 hw0 (b._size - 1)
    (by omega)
  have hd : ¬ (b1._count = 0 ∧ w (b._size - 1) = true) := by
    rintro ⟨hz, _⟩
    omega
  have he : b1._count + 1 = b1._size := by omega
  obtain ⟨f1, f2, f3⟩ := pushes_frame _ b b1 _ e1 (fun r hr => List.eq_of_mem_replicate hr)
  refine ⟨fun c c' s h => push_not_ready_frame h, fun c c' s h => push_ready_inv h,
    b1, pushes_discard b h0 _ b1 _ e1 k, f1, f2, f3, ?_, ?_⟩
  · intro b' r hp
    have hr : r = true := by
      rw [push_full b1 _ hd he] at hp
      split at hp
      · simp at hp
      · simp only [Option.some.injEq, Prod.mk.injEq] at hp
        exact hp.2.symm
    subst hr
    refine ⟨rfl, ?_⟩
    intro i hi
    rw [(push_ready_fields hp).1, get_set (wf_word_index hwf1), hc1]
    by_cases hik : i = b._size - 1
    · rw [if_pos hik, hik]
    · rw [if_neg hik]
      exact hg1 i (by omega)
  · intro h64 hint hmp
    obtain ⟨b', e2, _⟩ := push_sweep b1 (w (b._size - 1)) hwf1 (by omega) (by omega)
      (by rw [hs1, hm1]; exact hmp) hd he
    exact ⟨b', e2⟩

/-- Witness of `C16_no_partial_window`: the engine `engine128`, three discarded
1 bits and the window `bits_period20`. -/
theorem C16_no_partial_window_witness :
    (∀ (c c' : bacf) (s : Bool), c.push s = some (c', false) →
        c'.result.correlation = c.result.correlation ∧
        c'.result.min_count = c.result.min_count ∧
        c'.result.estimated_index = c.result.estimated_index) ∧
      (∀ (c c' : bacf) (s : Bool), c.push s = some (c', true) →
        ¬ (c._count = 0 ∧ s = true) ∧ c._count + 1 = c._size) ∧
      ∃ b1, engine128.pushes (List.replicate 3 true ++
              (List.range (engine128._size - 1)).map (fun j => decide (j % 20 = 19)))
            = some (b1, List.replicate 3 false ++ List.replicate (engine128._size - 1) false) ∧
        b1.result.correlation = engine128.result.correlation ∧
        b1.result.min_count = engine128.result.min_count ∧
        b1.result.estimated_index = engine128.result.estimated_index ∧
        (∀ (b' : bacf) (r : Bool),
          b1.push ((fun j => decide (j % 20 = 19)) (engine128._size - 1)) = some (b', r) →
          r = true ∧ ∀ i, i < engine128._size →
            b'._bits.get i = (fun j => decide (j % 20 = 19)) i) ∧
        (64 ≤ engine128._size → engine128._size ≤ 2 ^ 32 →
          engine128._min_period ≤ engine128._size / 2 →
          ∃ b', b1.push ((fun j => decide (j % 20 = 19)) (engine128._size - 1))
            = some (b', true)) :=
  C16_no_partial_window engine128 (fun j => decide (j % 20 = 19)) 3 engine128_wf
    (by decide) (by decide)

/-! ## The recorded sweep -/

theorem correlate_aligned_traced_eq (bits : bitstream) :
    ∀ (n i p1 p2 c : Nat) (rd : List Nat) (k : Nat),
      correlate_aligned_traced bits n i p1 p2 c rd k
        = (correlate_aligned bits n i p1 p2 c).map
            (fun c' => (c', rd ++ aligned_reads n p1 p2, k + n)) := by
  intro n
  induction n with
  | zero =>
    intro i p1 p2 c rd k
    simp [correlate_aligned_traced, correlate_aligned, aligned_reads]
  | succ n ih =>
    intro i p1 p2 c rd k
    rw [correlate_aligned_traced, correlate_aligned]
    cases ha : bits.data p1 with
    | none => simp
    | some a =>
      cases hb : bits.data p2 with
      | none => simp
      | some b =>
        simp only
        split
        · rw [ih]
          congr 1
          funext c'
          simp [aligned_reads]
          omega
        · rfl

theorem correlate_shifted_traced_eq (bits : bitstream) (shift : Nat) :
    ∀ (n i p1 p2 c : Nat) (rd : List Nat) (k : Nat),
      correlate_shifted_traced bits shift n i p1 p2 c rd k
        = (correlate_shifted bits shift n i p1 p2 c).map
            (fun c' => (c', rd ++ shifted_reads n p1 p2, k + n)) := by
  intro n
  induction n with
  | zero =>
    intro i p1 p2 c rd k
    simp [correlate_shifted_traced, correlate_shifted, shifted_reads]
  | succ n ih =>
    intro i p1 p2 c rd k
    rw [correlate_shifted_traced, correlate_shifted]
    cases hw : bits.data p2 with
    | none => simp
    | some w =>
      cases hw' : bits.data (p2 + 1) with
      | none => simp
      | some w' =>
        cases ha : bits.data p1 with
        | none => simp
        | some a =>
          simp only
          split
          · rw [ih]
            congr 1
            funext c'
            simp [shifted_reads]
            omega
          · rfl

theorem inner_traced_eq (bits : bitstream) (m index shift : Nat) :
    (if shift = 0 then correlate_aligned_traced bits m 0 0 index 0 [] 0
      else correlate_shifted_traced bits shift m 0 0 index 0 [] 0)
      = (if shift = 0 then correlate_aligned bits m 0 0 index 0
          else correlate_shifted bits shift m 0 0 index 0).map
          (fun c => (c, (if shift = 0 then aligned_reads m 0 index
            else shifted_reads m 0 index), m)) := by
  split
  · rw [correlate_aligned_traced_eq]
    simp
  · rw [correlate_shifted_traced_eq]
    simp

/-- Dropping the record from the recorded sweep gives the sweep. -/
theorem sweep_traced_fst {σ : Type} (bits : bitstream) (m : Nat)
    (f : Nat → Nat → σ → Option σ) :
    ∀ (n pos index shift : Nat) (st : σ) (tr : List lag_event),
      (sweep_traced bits m f n pos index shift st tr).map Prod.fst
        = sweep bits m f n pos index shift st := by
  intro n
  induction n with
  | zero =>
    intro pos index shift st tr
    simp [sweep_traced, sweep]
  | succ n ih =>
    intro pos index shift st tr
    rw [sweep_traced, sweep]
    simp only
    rw [inner_traced_eq]
    cases hin : (if shift = 0 then correlate_aligned bits m 0 0 index 0
        else correlate_shifted bits shift m 0 0 index 0) with
    | none => simp
    | some c =>
      simp only [Option.map_some']
      cases hf : f pos c st with
      | none => simp
      | some st1 =>
        simp only
        exact ih _ _ _ _ _

/-- The record of the sweep is a function of the lags alone. -/
theorem sweep_traced_events {σ : Type} (bits : bitstream) (m : Nat)
    (f : Nat → Nat → σ → Option σ) :
    ∀ (n pos : Nat) (st : σ) (tr : List lag_event), pos + n < size_t_range →
      sweep_traced bits m f n pos (pos / value_size) (pos % value_size) st tr
        = (sweep bits m f n pos (pos / value_size) (pos % value_size) st).map
            (fun st' => (st', tr ++ (List.range' pos n).map (event_of m))) := by
  intro n
  induction n with
  | zero =>
    intro pos st tr _
    simp [sweep_traced, sweep]
  | succ n ih =>
    intro pos st tr hlt
    rw [sweep_traced, sweep]
    simp only
    rw [inner_traced_eq]
    cases hin : (if pos % value_size = 0 then
        correlate_aligned bits m 0 0 (pos / value_size) 0
        else correlate_shifted bits (pos % value_size) m 0 0 (pos / value_size) 0) with
    | none => simp
    | some c =>
      simp only [Option.map_some']
      cases hf : f pos c st with
      | none => simp
      | some st1 =>
        simp only
        have hmod : (pos + 1) % size_t_range = pos + 1 := Nat.mod_eq_of_lt (by omega)
        have hnext : (if pos % value_size + 1 = value_size then (0, pos / value_size + 1)
            else (pos % value_size + 1, pos / value_size))
              = ((pos + 1) % value_size, (pos + 1) / value_size) := by
          unfold value_size
          split <;> simp <;> omega
        rw [hmod, hnext]
        simp only
        rw [ih (pos + 1) st1 _ (by omega)]
        congr 1
        funext st'
        rw [List.range'_succ, List.map_cons, List.append_assoc]
        rfl

theorem auto_correlate_traced_fst {σ : Type} (bits : bitstream) (start_pos : Nat)
    (f : Nat → Nat → σ → Option σ) (st : σ) :
    (auto_correlate_traced bits start_pos f st).map Prod.fst
      = auto_correlate bits start_pos f st := by
  unfold auto_correlate_traced auto_correlate
  exact sweep_traced_fst _ _ _ _ _ _ _ _ _

/-- On a buffer of at least two storage words, the record of `auto_correlate`
lists the lags of `[start_pos, size / 2)` in increasing order, each with
`size / 32 / 2 - 1` word comparisons. -/
theorem auto_correlate_traced_eq {σ : Type} (bits : bitstream) (start_pos : Nat)
    (f : Nat → Nat → σ → Option σ) (st : σ)
    (hsize : bits.size < size_t_range) (hA : 2 ≤ bits.size / value_size)
    (hsp : start_pos ≤ bits.size / 2) :
    auto_correlate_traced bits start_pos f st
      = (auto_correlate bits start_pos f st).map
          (fun st' => (st', (List.range' start_pos (bits.size / 2 - start_pos)).map
            (event_of (bits.size / value_size / 2 - 1)))) := by
  unfold auto_correlate_traced auto_correlate
  simp only
  have h1 : (bits.size / value_size / 2 + size_t_range - 1) % size_t_range
      = bits.size / value_size / 2 - 1 := by
    unfold value_size size_t_range at *; omega
  have h2 : (bits.size / 2 + size_t_range - start_pos) % size_t_range
      = bits.size / 2 - start_pos := by
    unfold size_t_range at *; omega
  rw [h1, h2, sweep_traced_events _ _ _ _ _ _ _ (by unfold size_t_range at *; omega)]
  simp

/-- Dropping the record from the recorded call gives the call. -/
theorem push_traced_erase (b : bacf) (s : Bool) :
    (b.push_traced s).map (fun r => (r.1, r.2.1)) = b.push s := by
  unfold bacf.push_traced bacf.push
  by_cases hd : b._count = 0 ∧ s = true
  · simp only [if_pos hd, Option.map_some']
  · simp only [if_neg hd]
    by_cases he : b._count + 1 = b._size
    · simp only [if_pos he]
      rw [← auto_correlate_traced_fst]
      cases auto_correlate_traced (b._bits.set b._count s) b._min_period bacf.on_lag _ with
      | none => simp
      | some r => simp
    · simp only [if_neg he, Option.map_some']

/-- A call that returns not-ready has not run the sweep. -/
theorem push_traced_not_ready {b b' : bacf} {s : Bool} {tr : List lag_event}
    (h : b.push_traced s = some (b', false, tr)) : tr = [] := by
  unfold bacf.push_traced at h
  by_cases hd : b._count = 0 ∧ s = true
  · simp only [if_pos hd, Option.some.injEq, Prod.mk.injEq] at h
    exact h.2.2.symm
  · simp only [if_neg hd] at h
    by_cases he : b._count + 1 = b._size
    · simp only [if_pos he] at h
      split at h
      · simp at h
      · simp at h
    · simp only [if_neg he, Option.some.injEq, Prod.mk.injEq] at h
      exact h.2.2.symm
/-! ## The `int` sum of a lag can overflow -/

/-- One lag of the sweep runs into undefined behaviour when the Hamming
distance over the compared words exceeds `int_max`. -/
theorem lag_overflow (bits : bitstream) (hbd : bits.bounded) (mid_array pos : Nat)
    (hlen : pos / value_size + mid_array + 1 ≤ bits.words.length)
    (hov : int_max < hamming bits (value_size * mid_array) pos) :
    (if pos % value_size = 0 then correlate_aligned bits mid_array 0 0 (pos / value_size) 0
      else correlate_shifted bits (pos % value_size) mid_array 0 0 (pos / value_size) 0)
      = none := by
  have hpos : pos = value_size * (pos / value_size) + pos % value_size :=
    (Nat.div_add_mod pos value_size).symm
  rw [hamming_eq_from] at hov
  by_cases h : pos % value_size = 0
  · rw [if_pos h]
    have e := correlate_aligned_overflow bits (pos / value_size) mid_array 0 0 0 (by omega)
      (by unfold int_max; omega)
    simp only [Nat.zero_add, Nat.mul_zero] at e
    apply e
    rw [h, Nat.add_zero] at hpos
    rw [← hpos]
    exact hov
  · rw [if_neg h]
    have hs : pos % value_size < value_size := Nat.mod_lt _ (by decide)
    have e := correlate_shifted_overflow bits hbd (pos / value_size) (pos % value_size) hs
      (Nat.pos_of_ne_zero h) mid_array 0 0 0 (by omega) (by unfold int_max; omega)
    simp only [Nat.zero_add, Nat.mul_zero] at e
    apply e
    rw [← hpos]
    exact hov

/-- The sweep runs into undefined behaviour when the Hamming distance of its
first lag exceeds `int_max`. -/
theorem auto_correlate_overflow {σ : Type} (bits : bitstream) (hbd : bits.bounded)
    (start_pos : Nat) (f : Nat → Nat → σ → Option σ) (st : σ)
    (hsize : bits.size < size_t_range) (hA : 2 ≤ bits.size / value_size)
    (hlen : bits.size / value_size ≤ bits.words.length)
    (hsp : start_pos < bits.size / 2)
    (hov : int_max < hamming bits (compared bits.size) start_pos) :
    auto_correlate bits start_pos f st = none := by
  unfold auto_correlate
  unfold compared at hov
  simp only
  have h1 : (bits.size / value_size / 2 + size_t_range - 1) % size_t_range
      = bits.size / value_size / 2 - 1 := by
    unfold value_size size_t_range at *; omega
  have h2 : (bits.size / 2 + size_t_range - start_pos) % size_t_range
      = (bits.size / 2 - start_pos - 1) + 1 := by
    unfold size_t_range at *; omega
  rw [h1, h2, sweep]
  simp only
  rw [lag_overflow bits hbd _ start_pos (by unfold value_size at *; omega) hov]

theorem alternate_window_get (k j : Nat) (hj : j < value_size * k) :
    (alternate_window k).get j = alternate_bit j := by
  unfold bitstream.get alternate_window alternate_bit
  simp only
  have hw : (List.replicate k 2863311530).getD (j / value_size) 0 = 2863311530 := by
    rw [List.getD_eq_getElem?_getD, List.getElem?_replicate]
    have : j / value_size < k := by unfold value_size at *; omega
    simp [this]
  rw [hw]
  have hbit : ∀ i, i < 32 → Nat.testBit 2863311530 i = decide (i % 2 = 1) := by decide
  have hm : j % value_size < 32 := Nat.mod_lt _ (by decide)
  rw [hbit _ hm]
  have : (j % value_size % 2 = 1) ↔ (j % 2 = 1) := by unfold value_size; omega
  simp only [this]

theorem alternate_window_bounded (k : Nat) : (alternate_window k).bounded := by
  intro w hw
  have : w = 2863311530 := List.eq_of_mem_replicate hw
  rw [this]
  decide

/-- On alternating bits an odd lag differs at every position. -/
theorem hamming_alternating (bits : bitstream) (len lag N : Nat)
    (hget : ∀ j, j < N → bits.get j = alternate_bit j) (hodd : lag % 2 = 1)
    (hN : len + lag ≤ N) : hamming bits len lag = len := by
  unfold hamming
  have hall : (List.range len).countP (fun j => bits.get j != bits.get (j + lag))
      = (List.range len).length := by
    rw [List.countP_eq_length]
    intro j hj
    have hj' : j < len := List.mem_range.mp hj
    rw [hget j (by omega), hget (j + lag) (by omega)]
    unfold alternate_bit
    by_cases h1 : j % 2 = 1
    · have h2 : ¬ ((j + lag) % 2 = 1) := by omega
      rw [decide_eq_true h1, decide_eq_false h2]
      decide
    · have h2 : (j + lag) % 2 = 1 := by omega
      rw [decide_eq_false h1, decide_eq_true h2]
      decide
  rw [hall, List.length_range]

/-- The alternating window of `2 ^ 32 + 64` bits swept from an odd lag: the
sum of the first lag would be `2 ^ 31`, one more than `int_max`. -/
theorem alternate_window_overflow {σ : Type} (start_pos : Nat) (hodd : start_pos % 2 = 1)
    (hsp : start_pos < 64) (f : Nat → Nat → σ → Option σ) (st : σ) :
    auto_correlate (alternate_window 134217730) start_pos f st = none ∧
      hamming (alternate_window 134217730)
        ((alternate_window 134217730).size / 2 - value_size) start_pos = 2 ^ 31 := by
  have hsz : (alternate_window 134217730).size = 4294967360 := by
    show value_size * 134217730 = 4294967360
    decide
  have hlen : (alternate_window 134217730).words.length = 134217730 :=
    List.length_replicate _ _
  have hham : hamming (alternate_window 134217730) 2147483648 start_pos = 2147483648 :=
    hamming_alternating _ _ _ 4294967360
      (fun j hj => alternate_window_get _ j (by unfold value_size; omega)) hodd (by omega)
  constructor
  · apply auto_correlate_overflow _ (alternate_window_bounded _)
    · rw [hsz]; decide
    · rw [hsz]; decide
    · rw [hsz, hlen]; decide
    · rw [hsz]; omega
    · rw [hsz]
      have hc : compared 4294967360 = 2147483648 := by decide
      rw [hc, hham]
      decide
  · rw [hsz]
    have : 4294967360 / 2 - value_size = 2147483648 := by decide
    rw [this, hham]
    norm_num

theorem pushes_snoc_none (pre : List Bool) (s : Bool) :
    ∀ (b b1 : bacf) (rs : List Bool), b.pushes pre = some (b1, rs) →
      b1.push s = none → b.pushes (pre ++ [s]) = none := by
  induction pre with
  | nil =>
    intro b b1 rs e1 e2
    simp only [bacf.pushes, Option.some.injEq, Prod.mk.injEq] at e1
    obtain ⟨hb, _⟩ := e1
    subst hb
    simp [bacf.pushes, e2]
  | cons t rest ih =>
    intro b b1 rs e1 e2
    rw [bacf.pushes] at e1
    split at e1
    · simp at e1
    · rename_i bt rt ht
      split at e1
      · simp at e1
      · rename_i b3 rs3 h3
        simp only [Option.some.injEq, Prod.mk.injEq] at e1
        obtain ⟨hb, _⟩ := e1
        subst hb
        have := ih bt b3 rs3 h3 e2
        show bacf.pushes b (t :: (rest ++ [s])) = _
        rw [bacf.pushes, ht]
        simp only [this]

/-- An engine of capacity `2 ^ 33` with an odd shortest lag, fed alternating
bits from the start of a window: the `2 ^ 33 - 1` first pushes return
not-ready and the push that completes the window runs into undefined
behaviour, the sum of the first lag exceeding `int_max`. -/
theorem overflow_run (b : bacf) (hwf : b.wf) (h0 : b._count = 0)
    (hsize : b._size = 8589934592) (hodd : b._min_period % 2 = 1)
    (hmp : b._min_period < 64) :
    ∃ b1, b.pushes ((List.range 8589934591).map alternate_bit)
          = some (b1, List.replicate 8589934591 false) ∧
      b1.push (alternate_bit 8589934591) = none ∧
      b1.push_traced (alternate_bit 8589934591) = none ∧
      b.pushes ((List.range 8589934592).map alternate_bit) = none := by
  obtain ⟨b1, e1, hwf1, hs1, hm1, hc1, hg1⟩ :=
    pushes_fill b alternate_bit hwf h0 (by decide) 8589934591 (by rw [hsize]; decide)
  rw [hsize] at hs1
  have hd : ¬ (b1._count = 0 ∧ alternate_bit 8589934591 = true) := by
    rintro ⟨hz, _⟩
    omega
  have he : b1._count + 1 = b1._size := by omega
  obtain ⟨g1, g2, g3, g4, g5, g6, g7, g8⟩ := hwf1
  have hlenw : b1._count / value_size < b1._bits.words.length := by
    rw [← g5]
    unfold value_size
    omega
  have hget : ∀ j, j < 8589934592 →
      (b1._bits.set b1._count (alternate_bit 8589934591)).get j = alternate_bit j := by
    intro j hj
    rw [get_set hlenw, hc1]
    by_cases hjk : j = 8589934591
    · rw [if_pos hjk, hjk]
    · rw [if_neg hjk]
      exact hg1 j (by omega)
  have hsz : (b1._bits.set b1._count (alternate_bit 8589934591)).size = 8589934592 := by
    rw [set_size, ← g1, hs1]
  have hnone : auto_correlate (b1._bits.set b1._count (alternate_bit 8589934591))
      b1._min_period bacf.on_lag
      { correlation := b1._info.correlation, max_count := 0
        min_count := uint16_range - 1, estimated_index := 0 } = none := by
    apply auto_correlate_overflow _ (set_bounded g4 _ _)
    · rw [hsz]; decide
    · rw [hsz]; decide
    · rw [hsz, set_length, ← g5, hs1]; decide
    · rw [hsz, hm1]; omega
    · rw [hsz]
      have hc : compared 8589934592 = 4294967264 := by decide
      rw [hc, hamming_alternating _ _ _ 8589934592 hget (by rw [hm1]; exact hodd)
        (by rw [hm1]; omega)]
      decide
  have hp : b1.push (alternate_bit 8589934591) = none := by
    rw [push_full b1 _ hd he, hnone]
  have hpt : b1.push_traced (alternate_bit 8589934591) = none := by
    have := push_traced_erase b1 (alternate_bit 8589934591)
    rw [hp] at this
    cases hx : b1.push_traced (alternate_bit 8589934591) with
    | none => rfl
    | some x => rw [hx] at this; simp at this
  refine ⟨b1, e1, hp, hpt, ?_⟩
  have := pushes_snoc_none _ _ b b1 _ e1 hp
  rw [← List.map_singleton, ← List.map_append, ← List.range_succ] at this
  exact this
/-! ### C4 as stated -/

theorem ceil_three_quarters : ⌈double_div 3221225472 (3 / 4)⌉₊ = 4294967296 := by
  rw [double_div_nat 3221225472 (3 / 4) 4294967296 (by norm_num) (by norm_num)]
  exact Nat.ceil_natCast 4294967296

theorem floor_three : ⌊double_div 3221225472 1073741824⌋₊ = 3 := by
  rw [double_div_nat 3221225472 1073741824 3 (by norm_num) (by norm_num)]
  exact Nat.floor_natCast 3

theorem buff_size_three_quarters : bacf.buff_size (3 / 4) 3221225472 = 8589934592 := by
  rw [buff_size_of_ceil _ _ _ ceil_three_quarters]
  have := smallest_pow2_two_pow 32
  norm_num at this
  rw [this]
  decide

set_option maxRecDepth 100000 in
/-- C4 fails as stated on three kinds of engine.
A window of a single storage word: `bacf(4 Hz, 8 Hz, 64)` has capacity 32 and
`min_period = 8`; its first 31 pushes of a 0 bit are stored and return
not-ready, and the call that stores the 32nd bit does not return ready:
`mid_array = 1 / 2 - 1` wraps around and the sweep reads past the end of the
buffer.
A shortest lag above half the capacity: `bacf(1 Hz, 1/2 Hz, 64)` has capacity
128 and `min_period = 128`; the call that stores the 128th bit starts the sweep
at lag 128, past `mid_pos = 64`, and reads past the end of the buffer.
A capacity above `2 ^ 32`: `bacf(3/4 Hz, 1073741824 Hz, 3221225472)` has
capacity `2 ^ 33` and `min_period = 3`; fed alternating bits, the call that
stores the last bit of the window does not return ready: the `int` sum of
lag 3 overflows. -/
theorem C4_counterexample :
    (bacf.init 4 8 64 0 0 0 = engine32 ∧ engine32.size = 32 ∧
      engine32.pushes (List.replicate 31 false)
        = some (engine32_last, List.replicate 31 false) ∧
      engine32_last._count = 31 ∧ engine32_last.push false = none) ∧
    (bacf.init 1 (1 / 2) 64 0 0 0 = engine128_over ∧ engine128_over.size = 128 ∧
      engine128_over.pushes (List.replicate 127 false)
        = some (engine128_over_last, List.replicate 127 false) ∧
      engine128_over_last._count = 127 ∧ engine128_over_last.push false = none) ∧
    ((bacf.init (3 / 4) 1073741824 3221225472 0 0 0).size = 2 ^ 33 ∧
      (bacf.init (3 / 4) 1073741824 3221225472 0 0 0)._min_period = 3 ∧
      ∃ b1, (bacf.init (3 / 4) 1073741824 3221225472 0 0 0).pushes
            ((List.range 8589934591).map alternate_bit)
          = some (b1, List.replicate 8589934591 false) ∧
        b1.push (alternate_bit 8589934591) = none) := by
  have hsize : (bacf.init (3 / 4) 1073741824 3221225472 0 0 0)._size = 8589934592 :=
    (init_fields _ _ _ _ _ _).1.trans buff_size_three_quarters
  have hmp : (bacf.init (3 / 4) 1073741824 3221225472 0 0 0)._min_period = 3 :=
    (init_fields _ _ _ _ _ _).2.1.trans floor_three
  have hwf := init_wf (3 / 4) 1073741824 3221225472 0 0 0
    (by rw [buff_size_three_quarters]; decide)
  obtain ⟨b1, e1, hp, _, _⟩ := overflow_run _ hwf (init_fields _ _ _ _ _ _).2.2 hsize
    (by rw [hmp]) (by rw [hmp]; decide)
  exact ⟨⟨init_engine32, by decide, by decide, by decide, by decide⟩,
    ⟨init_engine128_over, by decide, by decide, by decide, by decide⟩,
    ⟨((init_size _ _ _ _ _ _).trans buff_size_three_quarters).trans (by norm_num), hmp,
      b1, e1, hp⟩⟩

/-- C1 fails as stated in three ways. For a capacity that is a multiple of one
storage word but not of two: on the 96-bit window `window96` (three words, so
`N = 3 W ≥ 2 W`) the sweep compares `96 / 32 / 2 - 1 = 0` words and reports the
count 0 for lag 47, while bit 1 and bit 48 differ, so the Hamming distance over
`[0, N / 2 - W) = [0, 16)` is 1. And above `2 ^ 17` bits the stored entry is
not the count: the engine `bacf(131071/131072 Hz, 1 Hz, 131071)` of capacity
`2 ^ 18`, fed the alternating window `bits_alternate`, has Hamming distance
131040 at lag 131071 and stores `correlation[131071] = 65504`. And above
`2 ^ 32` bits no count is reported: on the alternating window of `2 ^ 32 + 64`
bits the Hamming distance at lag 1 is `2 ^ 31`, the `int` sum overflows and the
sweep does not hand anything to the callback. -/
theorem C1_counterexample :
    (window96.size % value_size = 0 ∧ 2 * value_size ≤ window96.size ∧
      auto_correlate window96 47 record [] = some [(47, 0)] ∧
      hamming window96 (window96.size / 2 - value_size) 47 = 1) ∧
    (∃ b', (bacf.init (131071 / 131072) 1 131071 0 0 0).pushes bits_alternate
        = some (b', List.replicate 262143 false ++ [true]) ∧
      b'._bits.size = 262144 ∧
      hamming b'._bits (b'._bits.size / 2 - value_size) 131071 = 131040 ∧
      b'.result.correlation[131071]? = some 65504) ∧
    ((alternate_window 134217730).size % (2 * value_size) = 0 ∧
      auto_correlate (alternate_window 134217730) 1 record [] = none ∧
      hamming (alternate_window 134217730)
        ((alternate_window 134217730).size / 2 - value_size) 1 = 2 ^ 31) := by
  have hov := alternate_window_overflow 1 (by decide) (by decide) record
    ([] : List (Nat × Nat))
  have hmulw : (alternate_window 134217730).size % (2 * value_size) = 0 := by
    show value_size * 134217730 % (2 * value_size) = 0
    decide
  refine ⟨by decide, ?_, hmulw, hov.1, hov.2⟩
  obtain ⟨b', corr, e3, hs, hget, hsw⟩ := wrap_engine_run alternate_bit (by decide)
  have hham : hamming b'._bits 131040 131071 = 131040 := by
    unfold hamming
    have hall : (List.range 131040).countP
        (fun j => b'._bits.get j != b'._bits.get (j + 131071))
          = (List.range 131040).length := by
      rw [List.countP_eq_length]
      intro j hj
      have hj' : j < 131040 := List.mem_range.mp hj
      rw [hget j (by omega), hget (j + 131071) (by omega)]
      unfold alternate_bit
      by_cases h1 : j % 2 = 1
      · have h2 : ¬ ((j + 131071) % 2 = 1) := by omega
        rw [decide_eq_true h1, decide_eq_false h2]
        decide
      · have h2 : (j + 131071) % 2 = 1 := by omega
        rw [decide_eq_false h1, decide_eq_true h2]
        decide
    rw [hall, List.length_range]
  have hw := hsw.2.1 131071 (le_refl _) (by decide)
  simp only at hw
  rw [hham] at hw
  refine ⟨b', e3, hs, ?_, ?_⟩
  · rw [hs]
    exact hham
  · unfold bacf.result
    rw [hw]
    decide

/-! ## C17: the iteration count of the sweep -/

/-- The record of a call that returns ready, on an engine of at least 64 bits
whose shortest lag is at most half the capacity. -/
theorem push_traced_ready {b b' : bacf} {s : Bool} {tr : List lag_event} (hwf : b.wf)
    (h64 : 64 ≤ b._size) (hmp : b._min_period ≤ b._size / 2)
    (h : b.push_traced s = some (b', true, tr)) :
    tr = (List.range' b._min_period (b._size / 2 - b._min_period)).map
      (event_of (b._size / value_size / 2 - 1)) := by
  have hp : b.push s = some (b', true) := by
    rw [← push_traced_erase, h]
    rfl
  obtain ⟨hd, he⟩ := push_ready_inv hp
  have hsz : (b._bits.set b._count s).size = b._size := by rw [set_size, hwf.1]
  unfold bacf.push_traced at h
  simp only [if_neg hd, if_pos he] at h
  rw [auto_correlate_traced_eq _ _ _ _ (by rw [hsz]; exact hwf.2.1)
    (by rw [hsz]; unfold value_size; omega) (by rw [hsz]; exact hmp), hsz] at h
  cases hac : auto_correlate (b._bits.set b._count s) b._min_period bacf.on_lag
      { correlation := (if s = true ∧ b._count ≠ b._size then
            ({ b._info with max_count := 123 } : info) else b._info).correlation
        max_count := 0, min_count := uint16_range - 1, estimated_index := 0 } with
  | none =>
    rw [hac] at h
    simp at h
  | some i3 =>
    rw [hac] at h
    simp only [Option.map_some', Option.some.injEq, Prod.mk.injEq, true_and] at h
    exact h.2.symm

/-- C17 (as amended): for every engine constructed with `0 < lowest < highest`
and capacity `64 ≤ N ≤ 2 ^ 32`, in every state reached by pushes and for every
bit, the call returns; its sweep record is empty when it returns not-ready;
when it returns ready the record is a function of `N` and `min_period` (the
member `_min_period` of the engine) alone: one event per lag of
`[min_period, N / 2)`, in increasing order, `N / 2 - min_period` events in all,
each with `N / 64 - 1` word comparisons. -/
theorem C17_sweep_iterations (lowest highest : ℚ) (sps m0 m1 e0 : Nat)
    (h0 : 0 < lowest) (hlh : lowest < highest)
    (h64 : 64 ≤ (bacf.init lowest highest sps m0 m1 e0).size)
    (hint : (bacf.init lowest highest sps m0 m1 e0).size ≤ 2 ^ 32)
    (pre : List Bool) (s : Bool) (b : bacf) (rs : List Bool)
    (hrun : (bacf.init lowest highest sps m0 m1 e0).pushes pre = some (b, rs)) :
    ∃ b' r tr, b.push_traced s = some (b', r, tr) ∧ b.push s = some (b', r) ∧
      (r = false → tr = []) ∧
      (r = true →
        tr = (List.range' (bacf.init lowest highest sps m0 m1 e0)._min_period
              ((bacf.init lowest highest sps m0 m1 e0).size / 2
                - (bacf.init lowest highest sps m0 m1 e0)._min_period)).map
            (event_of ((bacf.init lowest highest sps m0 m1 e0).size / 64 - 1)) ∧
        tr.map (fun e => e.pos)
          = List.range' (bacf.init lowest highest sps m0 m1 e0)._min_period
              ((bacf.init lowest highest sps m0 m1 e0).size / 2
                - (bacf.init lowest highest sps m0 m1 e0)._min_period) ∧
        tr.length = (bacf.init lowest highest sps m0 m1 e0).size / 2
          - (bacf.init lowest highest sps m0 m1 e0)._min_period ∧
        ∀ e ∈ tr, e.comparisons = (bacf.init lowest highest sps m0 m1 e0).size / 64 - 1) := by
  rw [init_size] at h64 hint ⊢
  obtain ⟨f1, f2, _⟩ := init_fields lowest highest sps m0 m1 e0
  have hnz : bacf.buff_size lowest sps ≠ 0 := by omega
  have hwf0 := init_wf lowest highest sps m0 m1 e0 hnz
  obtain ⟨hwf, hs, hm⟩ := pushes_wf pre _ b rs hwf0 hrun
  rw [f1] at hs
  have hne : b._min_period ≤ b._size / 2 := by
    rw [hs, hm, f2]
    exact min_period_le lowest highest sps h0 (le_of_lt hlh) hnz
  obtain ⟨b', r, hp⟩ := push_total b s hwf (by omega) (by omega) hne
  have hex : ∃ tr, b.push_traced s = some (b', r, tr) := by
    have := push_traced_erase b s
    rw [hp] at this
    cases hpt : b.push_traced s with
    | none => rw [hpt] at this; simp at this
    | some x =>
      rw [hpt] at this
      simp only [Option.map_some', Option.some.injEq, Prod.mk.injEq] at this
      obtain ⟨x1, x2, x3⟩ := x
      simp only at this
      exact ⟨x3, by rw [this.1, this.2]⟩
  obtain ⟨tr, hpt⟩ := hex
  refine ⟨b', r, tr, hpt, hp, ?_, ?_⟩
  · intro hr
    subst hr
    exact push_traced_not_ready hpt
  · intro hr
    subst hr
    have htr := push_traced_ready hwf (by omega) hne hpt
    rw [hs, hm] at htr
    have hcmp : bacf.buff_size lowest sps / value_size / 2 - 1
        = bacf.buff_size lowest sps / 64 - 1 := by
      unfold value_size; omega
    rw [hcmp] at htr
    refine ⟨htr, ?_, ?_, ?_⟩
    · rw [htr, List.map_map]
      exact List.map_id'' (fun _ => rfl) _
    · rw [htr]
      simp
    · intro e he
      rw [htr] at he
      obtain ⟨L, _, hL⟩ := List.mem_map.mp he
      rw [← hL]
      rfl

/-- Witness of `C17_sweep_iterations`: the engine `bacf(1 Hz, 8 Hz, 64)`, of
capacity 128, one bit short of a full window. -/
theorem C17_sweep_iterations_witness :
    ∃ b' r tr, engine128_period20_last.push_traced false = some (b', r, tr) ∧
      engine128_period20_last.push false = some (b', r) ∧
      (r = false → tr = []) ∧
      (r = true →
        tr = (List.range' (bacf.init 1 8 64 0 0 0)._min_period
              ((bacf.init 1 8 64 0 0 0).size / 2 - (bacf.init 1 8 64 0 0 0)._min_period)).map
            (event_of ((bacf.init 1 8 64 0 0 0).size / 64 - 1)) ∧
        tr.map (fun e => e.pos)
          = List.range' (bacf.init 1 8 64 0 0 0)._min_period
              ((bacf.init 1 8 64 0 0 0).size / 2 - (bacf.init 1 8 64 0 0 0)._min_period) ∧
        tr.length = (bacf.init 1 8 64 0 0 0).size / 2 - (bacf.init 1 8 64 0 0 0)._min_period ∧
        ∀ e ∈ tr, e.comparisons = (bacf.init 1 8 64 0 0 0).size / 64 - 1) :=
  C17_sweep_iterations 1 8 64 0 0 0 (by norm_num) (by norm_num)
    (by rw [init_engine128]; decide) (by rw [init_engine128]; decide)
    (bits_period20.take 127) false engine128_period20_last (List.replicate 127 false)
    (by rw [init_engine128]; exact engine128_period20_run)

theorem ceil_overflow : ⌈double_div 2147483648 (1 / 2)⌉₊ = 4294967296 := by
  rw [double_div_nat 2147483648 (1 / 2) 4294967296 (by norm_num) (by norm_num)]
  exact Nat.ceil_natCast 4294967296

theorem floor_overflow : ⌊double_div 2147483648 2147483648⌋₊ = 1 := by
  rw [double_div_nat 2147483648 2147483648 1 (by norm_num) (by norm_num)]
  exact Nat.floor_natCast 1

theorem buff_size_overflow : bacf.buff_size (1 / 2) 2147483648 = 8589934592 := by
  rw [buff_size_of_ceil _ _ _ ceil_overflow]
  have := smallest_pow2_two_pow 32
  norm_num at this
  rw [this]
  decide

/-- C17 fails as stated above `2 ^ 32` bits. `bacf(1/2 Hz, 2147483648 Hz,
2147483648)` has `0 < lowest < highest`, capacity `N = 2 ^ 33` and
`min_period = 1`. Fed alternating bits, its first `2 ^ 33 - 1` pushes return
not-ready, and the push that completes the window does not return: at lag 1
every one of the `N / 2 - 32` compared positions differs, and the `int`
sum overflows. -/
theorem C17_counterexample :
    (0 : ℚ) < 1 / 2 ∧ (1 / 2 : ℚ) < 2147483648 ∧
      (bacf.init (1 / 2) 2147483648 2147483648 0 0 0).size = 2 ^ 33 ∧
      (bacf.init (1 / 2) 2147483648 2147483648 0 0 0)._min_period = 1 ∧
      ∃ b1, (bacf.init (1 / 2) 2147483648 2147483648 0 0 0).pushes
            ((List.range 8589934591).map alternate_bit)
          = some (b1, List.replicate 8589934591 false) ∧
        b1.push (alternate_bit 8589934591) = none ∧
        b1.push_traced (alternate_bit 8589934591) = none := by
  have hsize : (bacf.init (1 / 2) 2147483648 2147483648 0 0 0)._size = 8589934592 :=
    (init_fields _ _ _ _ _ _).1.trans buff_size_overflow
  have hmp : (bacf.init (1 / 2) 2147483648 2147483648 0 0 0)._min_period = 1 :=
    (init_fields _ _ _ _ _ _).2.1.trans floor_overflow
  have hwf := init_wf (1 / 2) 2147483648 2147483648 0 0 0
    (by rw [buff_size_overflow]; decide)
  obtain ⟨b1, e1, hp, hpt, _⟩ := overflow_run _ hwf (init_fields _ _ _ _ _ _).2.2 hsize
    (by rw [hmp]) (by rw [hmp]; decide)
  refine ⟨by norm_num, by norm_num, ?_, hmp, b1, e1, hp, hpt⟩
  exact ((init_size _ _ _ _ _ _).trans buff_size_overflow).trans (by norm_num)

/-! ## C19: the accesses of the sweep -/

theorem aligned_reads_lt :
    ∀ (n p1 p2 r : Nat), r ∈ aligned_reads n p1 p2 → r < p1 + n ∨ r < p2 + n := by
  intro n
  induction n with
  | zero => intro p1 p2 r h; simp [aligned_reads] at h
  | succ n ih =>
    intro p1 p2 r h
    simp only [aligned_reads, List.mem_cons] at h
    rcases h with h | h | h
    · left; omega
    · right; omega
    · rcases ih _ _ _ h with h1 | h1
      · left; omega
      · right; omega

theorem shifted_reads_lt :
    ∀ (n p1 p2 r : Nat), r ∈ shifted_reads n p1 p2 → r < p1 + n ∨ r < p2 + n + 1 := by
  intro n
  induction n with
  | zero => intro p1 p2 r h; simp [shifted_reads] at h
  | succ n ih =>
    intro p1 p2 r h
    simp only [shifted_reads, List.mem_cons] at h
    rcases h with h | h | h | h
    · right; omega
    · right; omega
    · left; omega
    · rcases ih _ _ _ h with h1 | h1
      · left; omega
      · right; omega

/-- Every offset read for a lag below half the capacity is inside the buffer. -/
theorem event_reads_lt (n pos r : Nat) (h32 : n % value_size = 0) (h64 : 64 ≤ n)
    (hpos : pos < n / 2) (hr : r ∈ (event_of (n / value_size / 2 - 1) pos).reads) :
    r < n / value_size := by
  unfold event_of at hr
  simp only at hr
  unfold value_size at *
  split at hr
  · rcases aligned_reads_lt _ _ _ _ hr with h | h <;> omega
  · rcases shifted_reads_lt _ _ _ _ hr with h | h <;> omega

/-- C19 (as amended): for every capacity `N` that is a multiple of the word
width 32 with `64 ≤ N ≤ 2 ^ 32` and every start lag `min_period ≤ N / 2`, the
sweep runs to its end and
visits the lags of `[min_period, N / 2)`; for every lag, the incrementally
maintained `index` and `shift` are `pos / 32` and `pos % 32`, the lag handed to
the callback (the correlogram index written) is below `N / 2`, and every
storage-word offset read, the extra word of the shifted path included, is
below `N / 32`. -/
theorem C19_sweep_in_bounds (bits : bitstream) (mp : Nat) (hbd : bits.bounded)
    (hmul : bits.size % value_size = 0) (h64 : 64 ≤ bits.size)
    (hsz : bits.size ≤ 2 ^ 32) (hlen : bits.words.length = bits.size / value_size)
    (hmp : mp ≤ bits.size / 2) :
    ∃ log tr, auto_correlate_traced bits mp record [] = some (log, tr) ∧
      log.map Prod.fst = List.range' mp (bits.size / 2 - mp) ∧
      tr.map (fun e => e.pos) = List.range' mp (bits.size / 2 - mp) ∧
      ∀ e ∈ tr, e.index = e.pos / value_size ∧ e.shift = e.pos % value_size ∧
        e.pos < bits.size / 2 ∧ ∀ r ∈ e.reads, r < bits.size / value_size := by
  have hA : 2 ≤ bits.size / value_size := by unfold value_size at *; omega
  have hac := auto_correlate_eq bits hbd mp record [] hsz hA (le_of_eq hlen.symm) hmp
  rw [lag_fold_record] at hac
  have htr := auto_correlate_traced_eq bits mp record []
    (by unfold size_t_range; omega) hA hmp
  rw [hac] at htr
  simp only [Option.map_some', List.nil_append] at htr
  refine ⟨_, _, htr, ?_, ?_, ?_⟩
  · rw [List.map_map]
    exact List.map_id'' (fun _ => rfl) _
  · rw [List.map_map]
    exact List.map_id'' (fun _ => rfl) _
  · intro e he
    obtain ⟨L, hL, hLe⟩ := List.mem_map.mp he
    have hLlt : L < bits.size / 2 := by
      have := (List.mem_range'_1.mp hL).2
      omega
    rw [← hLe]
    refine ⟨rfl, rfl, hLlt, ?_⟩
    intro r hr
    exact event_reads_lt bits.size L r hmul h64 hLlt hr

/-- Witness of `C19_sweep_in_bounds`: the window `window128` swept from lag 8. -/
theorem C19_sweep_in_bounds_witness :
    ∃ log tr, auto_correlate_traced window128 8 record [] = some (log, tr) ∧
      log.map Prod.fst = List.range' 8 (window128.size / 2 - 8) ∧
      tr.map (fun e => e.pos) = List.range' 8 (window128.size / 2 - 8) ∧
      ∀ e ∈ tr, e.index = e.pos / value_size ∧ e.shift = e.pos % value_size ∧
        e.pos < window128.size / 2 ∧ ∀ r ∈ e.reads, r < window128.size / value_size :=
  C19_sweep_in_bounds window128 8 (by unfold bitstream.bounded; decide) (by decide)
    (by decide) (by decide) (by decide) (by decide)

/-- C19 fails as stated above `2 ^ 32` bits: the alternating window of
`2 ^ 32 + 64` bits is a multiple of 32 bits long and holds exactly `N / 32`
storage words; swept from lag 33, the sweep does not run to its end, on the
first lag already: every one of the `N / 2 - 32 = 2 ^ 31` compared positions
differs and the `int` sum of the lag overflows. -/
theorem C19_counterexample :
    (alternate_window 134217730).size = 2 ^ 32 + 64 ∧
      (alternate_window 134217730).size % value_size = 0 ∧
      64 ≤ (alternate_window 134217730).size ∧
      (alternate_window 134217730).bounded ∧
      (alternate_window 134217730).words.length
        = (alternate_window 134217730).size / value_size ∧
      33 ≤ (alternate_window 134217730).size / 2 ∧
      hamming (alternate_window 134217730)
        ((alternate_window 134217730).size / 2 - value_size) 33 = 2 ^ 31 ∧
      auto_correlate_traced (alternate_window 134217730) 33 record [] = none := by
  have hsz : (alternate_window 134217730).size = 4294967360 := by
    show value_size * 134217730 = 4294967360
    decide
  have hlen : (alternate_window 134217730).words.length = 134217730 :=
    List.length_replicate _ _
  obtain ⟨hnone, hham⟩ := alternate_window_overflow 33 (by decide) (by decide) record
    ([] : List (Nat × Nat))
  refine ⟨hsz, by rw [hsz]; decide, by rw [hsz]; decide, alternate_window_bounded _,
    by rw [hsz, hlen]; decide, by rw [hsz]; decide, hham, ?_⟩
  rw [auto_correlate_traced_eq _ _ _ _ (by rw [hsz]; decide) (by rw [hsz]; decide)
    (by rw [hsz]; decide), hnone]
  rfl

/-! ## C20: the counts fit 16 bits -/

theorem step_valid : follower2.process (1 : ℚ) = (follower2_valid, (3 / 4 : ℚ)) := by
  simp [pitch_follower.process, pitch_follower.condition,
    pitch_follower.track, pitch_follower.valid, pitch_follower.invalid,
    follower0, follower1, follower2, follower2_valid, rational_collaborators, size_t_range]
  norm_num

theorem step_decayed :
    follower2_valid.process (1 / 4 : ℚ) = (follower2_decayed, (0 : ℚ)) := by
  simp [pitch_follower.process, pitch_follower.condition,
    pitch_follower.track, pitch_follower.valid, pitch_follower.invalid,
    follower0, follower1, follower2, follower2_valid, follower2_decayed,
    rational_collaborators, size_t_range]
  norm_num

/-! ## C18: the silence counter stays below the window length -/

theorem process_fields {c : collaborators} (pf : pitch_follower c) (s : c.float) :
    (pf.process s).1._freq = ((pf.condition s).pf.track (pf.condition s).synth_env)._freq ∧
      (pf.process s).1._tail = ((pf.condition s).pf.track (pf.condition s).synth_env)._tail ∧
      (pf.process s).1._tail_lp
        = ((pf.condition s).pf.track (pf.condition s).synth_env)._tail_lp ∧
      (pf.process s).1._tail_count
        = ((pf.condition s).pf.track (pf.condition s).synth_env)._tail_count ∧
      (pf.process s).1._pd = ((pf.condition s).pf.track (pf.condition s).synth_env)._pd :=
  ⟨rfl, rfl, rfl, rfl, rfl⟩

theorem track_valid {c : collaborators} (pf : pitch_follower c) (e : c.float)
    (h : c.gt e pf._note_threshold = true) : pf.track e = pf.valid := by
  unfold pitch_follower.track
  rw [if_pos h]

theorem track_invalid {c : collaborators} (pf : pitch_follower c) (e : c.float)
    (h : c.gt e pf._note_threshold = false) : pf.track e = pf.invalid := by
  unfold pitch_follower.track
  rw [if_neg (by rw [h]; decide)]

theorem valid_count {c : collaborators} (pf : pitch_follower c) :
    pf.valid._tail_count = pf._tail_count := by
  unfold pitch_follower.valid
  simp only
  split <;> rfl

theorem invalid_count {c : collaborators} (pf : pitch_follower c) :
    pf.invalid._tail_count
      = if (pf._tail_count + 1) % size_t_range = c.size pf._pd then 0
        else (pf._tail_count + 1) % size_t_range := by
  unfold pitch_follower.invalid
  simp only
  split <;> rfl

theorem process_count_lt {c : collaborators} (pf : pitch_follower c) (N : Nat)
    (hN : 1 ≤ N) (hsize : ∀ pd, c.size pd = N) (h : pf._tail_count < N) (s : c.float) :
    (pf.process s).1._tail_count < N := by
  obtain ⟨_, _, _, k4, _⟩ := condition_keeps pf s
  rw [(process_fields pf s).2.2.2.1]
  cases hv : c.gt (pf.condition s).synth_env (pf.condition s).pf._note_threshold
  · rw [track_invalid _ _ hv, invalid_count, k4, hsize]
    have hle : (pf._tail_count + 1) % size_t_range ≤ pf._tail_count + 1 := Nat.mod_le _ _
    split
    · omega
    · omega
  · rw [track_valid _ _ hv, valid_count, k4]
    exact h

/-- C18: the silence counter is bounded by the analysis window length. With
N >= 1 the estimator's window length, starting from a counter of 0, after every
sequence of process calls (any samples, whichever branch each call takes) the
counter is below N, i.e. lies in [0, N-1]. -/
theorem C18_silence_counter_bounded (c : collaborators) (pf : pitch_follower c) (N : Nat)
    (hN : 1 ≤ N) (hsize : ∀ pd, c.size pd = N) (h0 : pf._tail_count = 0)
    (samples : List c.float) :
    (pf.run samples)._tail_count < N := by
  have hlt : pf._tail_count < N := by omega
  clear h0
  induction samples generalizing pf with
  | nil => exact hlt
  | cons s rest ih =>
    exact ih (pf.process s).1 (process_count_lt pf N hN hsize hlt s)

theorem C18_silence_counter_bounded_witness :
    1 ≤ 2 ∧ (∀ pd, rational_collaborators.size pd = 2) ∧ follower0._tail_count = 0 ∧
      (follower0.run [(1 : ℚ), (0 : ℚ), (0 : ℚ)])._tail_count < 2 :=
  ⟨by decide, fun _ => rfl, rfl,
    C18_silence_counter_bounded rational_collaborators follower0 2 (by decide)
      (fun _ => rfl) rfl [(1 : ℚ), (0 : ℚ), (0 : ℚ)]⟩

/-! ## C11: a short gap holds the frequency -/

theorem process_invalid_short {c : collaborators} (pf : pitch_follower c) (s : c.float)
    (hv : c.gt (pf.condition s).synth_env pf._note_threshold = false)
    (hne : (pf._tail_count + 1) % size_t_range ≠ c.size (pf.condition s).pf._pd) :
    (pf.process s).1._freq = pf._freq ∧
      (pf.process s).1._tail = pf._tail ∧
      (pf.process s).1._tail_lp = pf._tail_lp ∧
      (pf.process s).1._tail_count = (pf._tail_count + 1) % size_t_range := by
  obtain ⟨k1, k2, k3, k4, k5⟩ := condition_keeps pf s
  obtain ⟨e1, e2, e3, e4, _⟩ := process_fields pf s
  have hv1 : c.gt (pf.condition s).synth_env (pf.condition s).pf._note_threshold = false := by
    rw [k5]; exact hv
  have hi : (pf.condition s).pf.invalid
      = { (pf.condition s).pf with _tail_count := (pf._tail_count + 1) % size_t_range } := by
    unfold pitch_follower.invalid
    simp only
    rw [k4, if_neg hne]
  rw [e1, e2, e3, e4, track_invalid _ _ hv1, hi]
  exact ⟨k1, k2, k3, rfl⟩

theorem invalid_run_hold {c : collaborators} (N : Nat) (samples : List c.float) :
    ∀ pf : pitch_follower c, pf.invalid_run N samples →
      pf._tail_count + samples.length < N →
      (pf.run samples)._freq = pf._freq := by
  induction samples with
  | nil => intro pf _ _; rfl
  | cons s rest ih =>
    intro pf hrun hgap
    obtain ⟨hv, hsz, hrest⟩ := hrun
    have hle : (pf._tail_count + 1) % size_t_range ≤ pf._tail_count + 1 := Nat.mod_le _ _
    have hlen : (s :: rest).length = rest.length + 1 := rfl
    have hne : (pf._tail_count + 1) % size_t_range ≠ c.size (pf.condition s).pf._pd := by
      rw [hsz]; omega
    obtain ⟨f1, _, _, f4⟩ := process_invalid_short pf s hv hne
    have h := ih (pf.process s).1 hrest (by rw [f4]; omega)
    show ((pf.process s).1.run rest)._freq = pf._freq
    rw [h, f1]

theorem invalid_run_take {c : collaborators} (N : Nat) (samples : List c.float) :
    ∀ (pf : pitch_follower c) (k : Nat), pf.invalid_run N samples →
      pf.invalid_run N (samples.take k) := by
  induction samples with
  | nil => intro pf k h; simpa using h
  | cons s rest ih =>
    intro pf k h
    cases k with
    | zero => exact trivial
    | succ k => exact ⟨h.1, h.2.1, ih (pf.process s).1 k h.2.2⟩

/-- C11, amended: for every run of consecutive process calls that take the
invalidity branch (N = the estimator's window length) whose length is less than
N minus the value the silence counter has when the run starts, frequency()
keeps the value it had before the run after every call of the run. The counter
is not reset by validity-branch calls, so what bounds the run is N less the
counter, not N. -/
theorem C11_short_gap (c : collaborators) (pf : pitch_follower c) (N : Nat)
    (samples : List c.float) (hrun : pf.invalid_run N samples)
    (hgap : pf._tail_count + samples.length < N) :
    ∀ k, (pf.run (samples.take k)).frequency = pf.frequency := by
  intro k
  have hlen : (samples.take k).length ≤ samples.length := by
    rw [List.length_take]; exact Nat.min_le_right _ _
  exact invalid_run_hold N (samples.take k) pf (invalid_run_take N samples pf k hrun)
    (by omega)

theorem C11_short_gap_witness :
    follower1.invalid_run 2 [(0 : ℚ)] ∧ follower1._tail_count + [(0 : ℚ)].length < 2 ∧
      ∀ k, (follower1.run ([(0 : ℚ)].take k)).frequency = follower1.frequency :=
  have hrun : follower1.invalid_run 2 [(0 : ℚ)] := by
    refine ⟨?_, rfl, trivial⟩
    simp [pitch_follower.condition, follower0, follower1, rational_collaborators]
    norm_num
  ⟨hrun, by decide, C11_short_gap rational_collaborators follower1 2 [(0 : ℚ)] hrun (by decide)⟩

/-- C11, counterexample: the follower over `rational_collaborators` (window
length N = 2) fed 1, 0, 1, 1/4. The third call takes the validity branch and
leaves the frequency at 440; the fourth call is a run of one invalidity-branch
call, fewer than N, after which frequency() is 0: the counter was still 1 from
the second call. -/
theorem C11_counterexample :
    follower0.run [(1 : ℚ), (0 : ℚ)] = follower2 ∧
      rational_collaborators.gt (follower2.condition (1 : ℚ)).synth_env
        follower2._note_threshold = true ∧
      (follower2.process (1 : ℚ)).1 = follower2_valid ∧
      follower2_valid.frequency = (440 : ℚ) ∧
      rational_collaborators.gt (follower2_valid.condition (1 / 4 : ℚ)).synth_env
        follower2_valid._note_threshold = false ∧
      rational_collaborators.size (follower2_valid.condition (1 / 4 : ℚ)).pf._pd = 2 ∧
      [(1 / 4 : ℚ)].length < 2 ∧
      (follower2_valid.run [(1 / 4 : ℚ)]).frequency = (0 : ℚ) := by
  refine ⟨?_, ?_, ?_, rfl, ?_, rfl, by decide, ?_⟩
  · show (((follower0.process (1 : ℚ)).1).process (0 : ℚ)).1 = follower2
    rw [step1]
    show (follower1.process (0 : ℚ)).1 = follower2
    rw [step2]
  · simp [pitch_follower.condition, follower0, follower1, follower2, rational_collaborators]
    norm_num
  · rw [step_valid]
  · simp [pitch_follower.condition, follower0, follower1, follower2, follower2_valid,
      rational_collaborators]
    norm_num
  · show (follower2_valid.process (1 / 4 : ℚ)).1.frequency = (0 : ℚ)
    rw [step_decayed]
    rfl

/-! ## C12: the gated sample -/

/-- C12: in a process call in which the gate is not engaged the returned value
is exactly 0, and the period estimator and the fast envelope follower are both
advanced with that 0 (the latter through `std::abs`, which maps 0 to 0); in a
call in which the gate is engaged the returned value is
clip(band-limited sample * (compressor gain * makeup gain)). -/
theorem C12_gated_sample (c : collaborators) (pf : pitch_follower c) (s : c.float)
    (habs : c.abs c.zero = c.zero) :
    (pf.gate_engaged s = false →
        (pf.process s).2 = c.zero ∧
          (pf.process s).1._pd = c.detect pf._pd c.zero ∧
          (pf.condition s).synth_env = (c.fast_envelope pf._fast_env c.zero).1 ∧
          (pf.process s).1._fast_env = (c.fast_envelope pf._fast_env c.zero).2) ∧
      (pf.gate_engaged s = true →
        (pf.process s).2
            = c.clip (c.mul (pf.band_limited s)
                (c.mul (pf.compressor_gain s) pf._makeup_gain)) ∧
          (pf.process s).1._pd = c.detect pf._pd (pf.process s).2 ∧
          (pf.condition s).synth_env
            = (c.fast_envelope pf._fast_env (c.abs (pf.process s).2)).1) := by
  have hs : (pf.process s).2 = (pf.condition s).s := rfl
  have hpd : (pf.process s).1._pd = (pf.condition s).pf._pd := by
    rw [(process_fields pf s).2.2.2.2]
    unfold pitch_follower.track pitch_follower.valid pitch_follower.invalid
    simp only
    split
    · split <;> rfl
    · split <;> rfl
  have hfe : (pf.process s).1._fast_env = (pf.condition s).pf._fast_env := by
    unfold pitch_follower.process pitch_follower.track pitch_follower.valid
      pitch_follower.invalid
    simp only
    split
    · split <;> rfl
    · split <;> rfl
  rw [hs, hpd, hfe]
  unfold pitch_follower.gate_engaged pitch_follower.compressor_gain
    pitch_follower.main_envelope pitch_follower.band_limited pitch_follower.condition
  constructor
  · intro hg
    simp only [hg]
    simp [habs]
  · intro hg
    simp only [hg]
    simp

theorem C12_gated_sample_witness :
    rational_collaborators.abs rational_collaborators.zero = rational_collaborators.zero ∧
      ((follower0.gate_engaged (1 : ℚ) = false →
          (follower0.process (1 : ℚ)).2 = rational_collaborators.zero ∧
            (follower0.process (1 : ℚ)).1._pd
              = rational_collaborators.detect follower0._pd rational_collaborators.zero ∧
            (follower0.condition (1 : ℚ)).synth_env
              = (rational_collaborators.fast_envelope follower0._fast_env
                  rational_collaborators.zero).1 ∧
            (follower0.process (1 : ℚ)).1._fast_env
              = (rational_collaborators.fast_envelope follower0._fast_env
                  rational_collaborators.zero).2) ∧
        (follower0.gate_engaged (1 : ℚ) = true →
          (follower0.process (1 : ℚ)).2
              = rational_collaborators.clip
                  (rational_collaborators.mul (follower0.band_limited (1 : ℚ))
                    (rational_collaborators.mul (follower0.compressor_gain (1 : ℚ))
                      follower0._makeup_gain)) ∧
            (follower0.process (1 : ℚ)).1._pd
              = rational_collaborators.detect follower0._pd (follower0.process (1 : ℚ)).2 ∧
            (follower0.condition (1 : ℚ)).synth_env
              = (rational_collaborators.fast_envelope follower0._fast_env
                  (rational_collaborators.abs (follower0.process (1 : ℚ)).2)).1)) :=
  have habs : rational_collaborators.abs rational_collaborators.zero
      = rational_collaborators.zero := by
    simp [rational_collaborators]
  ⟨habs, C12_gated_sample rational_collaborators follower0 (1 : ℚ) habs⟩

/-! ## C13 and C14: the decay and the tail correction -/

/-- The decay correction at work on `follower_recent` with the sample 0. -/
theorem step_recent : follower_recent.process (0 : ℚ) = (follower_recent1, (0 : ℚ)) := by
  simp [pitch_follower.process, pitch_follower.condition,
    pitch_follower.track, pitch_follower.valid, pitch_follower.invalid,
    follower_recent, follower_recent1, recent_collaborators, size_t_range]
  norm_num

theorem process_valid_fields {c : collaborators} (pf : pitch_follower c) (s : c.float)
    (hv : c.gt (pf.condition s).synth_env pf._note_threshold = true) :
    (c.is_half (pf.condition s).pf._pd = true →
        (pf.process s).1._tail_lp = c.lowpass_assign pf._tail_lp (c.back pf._tail) ∧
          (pf.process s).1._tail = c.push pf._tail (pf.process s).1._freq) ∧
      (c.is_half (pf.condition s).pf._pd = false →
        (pf.process s).1._tail = pf._tail ∧ (pf.process s).1._tail_lp = pf._tail_lp) := by
  obtain ⟨_, k2, k3, _, k5⟩ := condition_keeps pf s
  obtain ⟨e1, e2, e3, _, _⟩ := process_fields pf s
  have hv1 : c.gt (pf.condition s).synth_env (pf.condition s).pf._note_threshold = true := by
    rw [k5]; exact hv
  rw [e1, e2, e3, track_valid _ _ hv1]
  unfold pitch_follower.valid
  simp only
  constructor
  · intro hh
    rw [if_pos hh, k2, k3]
    exact ⟨rfl, rfl⟩
  · intro hh
    rw [if_neg (by rw [hh]; decide)]
    exact ⟨k2, k3⟩

/-- C14: tail correction. In a validity-branch process call in which the
half-cycle flag is set, the smoothing filter's state is set to the tail
buffer's oldest entry, read before the push, and the running frequency as
updated in this same call is then pushed into the tail buffer; when the flag is
not set, the tail buffer and the filter state are unchanged. -/
theorem C14_tail_correction (c : collaborators) (L : ring_laws c) (pf : pitch_follower c)
    (s : c.float)
    (hv : c.gt (pf.condition s).synth_env pf._note_threshold = true) :
    (c.is_half (pf.condition s).pf._pd = true →
        (pf.process s).1._tail_lp
            = c.lowpass_assign pf._tail_lp ((L.entries pf._tail).getLastD c.zero) ∧
          (pf.process s).1._tail = c.push pf._tail (pf.process s).1.frequency ∧
          L.entries (pf.process s).1._tail
            = (pf.process s).1.frequency :: (L.entries pf._tail).dropLast) ∧
      (c.is_half (pf.condition s).pf._pd = false →
        (pf.process s).1._tail = pf._tail ∧ (pf.process s).1._tail_lp = pf._tail_lp) := by
  obtain ⟨h1, h2⟩ := process_valid_fields pf s hv
  refine ⟨?_, h2⟩
  intro hh
  obtain ⟨a, b⟩ := h1 hh
  unfold pitch_follower.frequency
  rw [a, b, L.back_entries, L.push_entries]
  exact ⟨rfl, rfl, rfl⟩

theorem C14_tail_correction_witness :
    half_collaborators.gt (follower_half.condition (1 : ℚ)).synth_env
        follower_half._note_threshold = true ∧
      ((half_collaborators.is_half (follower_half.condition (1 : ℚ)).pf._pd = true →
          (follower_half.process (1 : ℚ)).1._tail_lp
              = half_collaborators.lowpass_assign follower_half._tail_lp
                  ((half_ring_laws.entries follower_half._tail).getLastD
                    half_collaborators.zero) ∧
            (follower_half.process (1 : ℚ)).1._tail
              = half_collaborators.push follower_half._tail
                  (follower_half.process (1 : ℚ)).1.frequency ∧
            half_ring_laws.entries (follower_half.process (1 : ℚ)).1._tail
              = (follower_half.process (1 : ℚ)).1.frequency
                  :: (half_ring_laws.entries follower_half._tail).dropLast) ∧
        (half_collaborators.is_half (follower_half.condition (1 : ℚ)).pf._pd = false →
          (follower_half.process (1 : ℚ)).1._tail = follower_half._tail ∧
            (follower_half.process (1 : ℚ)).1._tail_lp = follower_half._tail_lp)) :=
  have hv : half_collaborators.gt (follower_half.condition (1 : ℚ)).synth_env
      follower_half._note_threshold = true := by
    simp [pitch_follower.condition, follower_half, half_collaborators]
    norm_num
  ⟨hv, C14_tail_correction half_collaborators half_ring_laws follower_half (1 : ℚ) hv⟩

/-- The tail correction at work on `follower_half` with the sample 1. -/
theorem step_half : follower_half.process (1 : ℚ) = (follower_half1, (1 : ℚ)) := by
  simp [pitch_follower.process, pitch_follower.condition,
    pitch_follower.track, pitch_follower.valid, pitch_follower.invalid,
    follower_half, follower_half1, half_collaborators]
  norm_num

end cycfi
